import Mathlib

/-!
# STLSoft `basic_simple_string`: a shallow embedding

The embedding follows `include/stlsoft/string/simple_string.hpp`.

* Memory is a collection of blocks.  A block made by the string's allocator
  holds the two header fields of `string_buffer` (`capacity`, `length`) and the
  character slots that really exist behind `contents`.  A character pointer is
  a block together with an offset; dereferencing it outside the slots of a
  live block is a memory fault.
* `size_type` arithmetic is arithmetic modulo `2 ^ size_bits`; the result type
  of the comparisons (`ss_sint_t`) is a two's complement integer of
  `int_bits` bits.
* The allocator may report failure by returning null; whether the next
  request fails is read from the heap (`Heap.fails`).
* The character traits (`char_traits.hpp`) and the allocator are not part of
  the header; they are modelled from what the design says of them.
* The debug-only assertions (`STLSOFT_ASSERT`) are left out: the embedding is
  that of a release build.
-/

namespace STLSoft

/-! ## Platform parameters -/

/-- The widths the header leaves to the platform: `size_bits` is the width of
`ss_size_t`, `int_bits` the width of `ss_int_t` / `ss_sint_t`, and `members`
is the size of the `string_buffer` header in character units
(`(offsetof(string_buffer, contents) + sizeof(char_type) - 1) / sizeof(char_type)`). -/
structure Platform where
  size_bits : Nat
  int_bits : Nat
  members : Nat

/-- LP64 / LLP64 with `char`: 64-bit `size_t`, 32-bit `int`, 16-byte header. -/
def lp64 : Platform := { size_bits := 64, int_bits := 32, members := 16 }

/-- ILP32 with `char`: 32-bit `size_t`, 32-bit `int`, 8-byte header. -/
def ilp32 : Platform := { size_bits := 32, int_bits := 32, members := 8 }

/-- Reduction of a natural number to a `size_type` value. -/
def Platform.wrap (P : Platform) (n : Nat) : Nat := n % 2 ^ P.size_bits

/-- The largest `size_type` value, `static_cast<size_type>(-1)`. -/
def Platform.size_max (P : Platform) : Nat := 2 ^ P.size_bits - 1

/-- Subtraction of `size_type` values, modulo `2 ^ size_bits`. -/
def Platform.sub (P : Platform) (a b : Nat) : Nat :=
  (P.wrap a + (2 ^ P.size_bits - P.wrap b)) % 2 ^ P.size_bits

/-- Bitwise complement of a `size_type` value. -/
def Platform.compl (P : Platform) (a : Nat) : Nat := P.size_max - P.wrap a

/-- Reduction of an integer to the two's complement range of `ss_int_t`. -/
def Platform.to_int (P : Platform) (z : Int) : Int :=
  let m := z % (2 : Int) ^ P.int_bits
  if m < (2 : Int) ^ (P.int_bits - 1) then m else m - (2 : Int) ^ P.int_bits

/-! ## Memory -/

/-- Characters are their codes; the code `0` is the NUL terminator. -/
abbrev char_type := Nat

/-- The record `string_buffer` of the source, with `contents` holding every
character slot of the block (the source declares `contents[1]` and
over-allocates). -/
structure string_buffer where
  capacity : Nat
  length : Nat
  contents : List char_type

/-- A non-null `char_type*`: the block pointed into and the offset from the
first character slot of that block. -/
structure CharPtr where
  blk : Nat
  off : Nat
  deriving DecidableEq

/-- Pointer advance, `p + n`. -/
def CharPtr.add (p : CharPtr) (n : Nat) : CharPtr := { blk := p.blk, off := p.off + n }

/-- Address order: blocks are laid out disjointly, in the order of their
numbers. -/
def CharPtr.lt (p q : CharPtr) : Bool :=
  p.blk < q.blk || (p.blk == q.blk && p.off < q.off)

/-- The two ways an operation can fail to return. -/
inductive Fault where
  | out_of_range
  | access_violation
  deriving DecidableEq

/-- Results of operations that may throw or fault. -/
abbrev Res (α : Type) := Except Fault α

/-- The heap: the live blocks, the number of the next block, the allocator's
verdict on each request, and the values found in memory that was never
written. -/
structure Heap where
  blocks : Nat → Option string_buffer
  next : Nat
  fails : Nat → Bool
  junk : Nat → Nat → char_type

/-- Replacement of one block (`none` for a block that is released). -/
def Heap.put (h : Heap) (id : Nat) (b : Option string_buffer) : Heap :=
  { h with blocks := Function.update h.blocks id b }

/-- The heap with the number of the next block advanced. -/
def Heap.grow (h : Heap) : Heap := { h with next := h.next + 1 }

/-- A block of `n` character slots as the allocator hands it out: nothing in
it has been written yet. -/
def Heap.fresh (h : Heap) (n : Nat) : string_buffer :=
  { capacity := h.junk h.next 0, length := h.junk h.next 1,
    contents := (List.range n).map (fun i => h.junk h.next (i + 2)) }

/-- Block `0` is the static array `s_empty[1]` of `empty_string_()`. -/
def Heap.init (fails : Nat → Bool) (junk : Nat → Nat → char_type) : Heap :=
  { blocks := fun i => if i = 0 then some { capacity := 0, length := 0, contents := [0] } else none
    next := 1
    fails := fails
    junk := junk }

/-- The characters in memory from a pointer to the end of its block. -/
def Heap.view (h : Heap) (p : Option CharPtr) : List char_type :=
  match p with
  | none => []
  | some q =>
    match h.blocks q.blk with
    | none => []
    | some b => b.contents.drop q.off

/-- Reading `*p`. -/
def Heap.read (h : Heap) (p : CharPtr) : Res char_type :=
  match (h.view (some p)).head? with
  | none => .error .access_violation
  | some c => .ok c

/-- Writing `*p = c`. -/
def Heap.write (h : Heap) (p : CharPtr) (c : char_type) : Res Heap :=
  match h.blocks p.blk with
  | none => .error .access_violation
  | some b =>
    if p.off < b.contents.length then
      .ok (h.put p.blk (some { b with contents := b.contents.set p.off c }))
    else .error .access_violation

/-- A caller's character array: a new block holding `cs`, with a pointer to
its first element. -/
def Heap.store (h : Heap) (cs : List char_type) : Heap × CharPtr :=
  (h.grow.put h.next (some { capacity := 0, length := 0, contents := cs }),
   { blk := h.next, off := 0 })

/-- Modelled from the spec: the allocator capability (`byte_ator.allocate`),
asked for `total` character units of which the header takes `members`.  Null
when the allocator reports failure. -/
def Heap.allocate (P : Platform) (h : Heap) (total : Nat) : Option (Heap × Nat) :=
  if h.fails h.next then none
  else
    some (h.grow.put h.next (some (h.fresh (total - P.members))), h.next)

/-- Modelled from the spec: the allocator capability, `byte_ator.deallocate`. -/
def Heap.deallocate (h : Heap) (id : Nat) : Heap :=
  h.put id none

/-- The header of the block a member pointer designates
(`string_buffer_from_member_pointer_`, dereferenced). -/
def Heap.buffer (h : Heap) (id : Nat) : Res string_buffer :=
  match h.blocks id with
  | none => .error .access_violation
  | some b => .ok b

/-- Assignment to the two header fields of a block. -/
def Heap.set_header (h : Heap) (id : Nat) (capacity length : Nat) : Res Heap :=
  match h.blocks id with
  | none => .error .access_violation
  | some b =>
    .ok (h.put id (some { b with capacity := capacity, length := length }))

/-! ## Character traits -/

namespace traits_type

/-- Modelled from the spec: `traits_type::length` of `char_traits.hpp`, the
number of characters before the first NUL, read from the pointer on.  Running
off the block is a fault. -/
def length_loop : List char_type → Res Nat
  | [] => .error .access_violation
  | c :: rest => if c = 0 then .ok 0 else (length_loop rest).map (· + 1)

/-- Modelled from the spec: `traits_type::length(s)` of `char_traits.hpp`. -/
def length (h : Heap) (s : CharPtr) : Res Nat := length_loop (h.view (some s))

/-- Modelled from the spec: `traits_type::length_max` of `char_traits.hpp`,
the number of characters before the first NUL, looking at no more than
`limit` characters. -/
def length_max_loop : List char_type → Nat → Res Nat
  | _, 0 => .ok 0
  | [], _ + 1 => .error .access_violation
  | c :: rest, limit + 1 =>
    if c = 0 then .ok 0 else (length_max_loop rest limit).map (· + 1)

/-- Modelled from the spec: `traits_type::length_max(s, limit)` of `char_traits.hpp`. -/
def length_max (h : Heap) (s : CharPtr) (limit : Nat) : Res Nat :=
  length_max_loop (h.view (some s)) limit

/-- Modelled from the spec: `traits_type::length_max_null(s, limit)` of
`char_traits.hpp`, which is `length_max` with a null pointer counted as the
empty string. -/
def length_max_null (h : Heap) (s : Option CharPtr) (limit : Nat) : Res Nat :=
  match s with
  | none => .ok 0
  | some p => length_max h p limit

/-- Modelled from the spec: `traits_type::compare` of `char_traits.hpp`, the
sign of the first difference among the first `n` characters, `0` when there is
none. -/
def compare_loop : List char_type → List char_type → Nat → Res Int
  | _, _, 0 => .ok 0
  | a :: as, b :: bs, n + 1 =>
    if a = b then compare_loop as bs n else .ok (if a < b then -1 else 1)
  | _, _, _ + 1 => .error .access_violation

/-- Modelled from the spec: `traits_type::compare(s1, s2, n)` of `char_traits.hpp`. -/
def compare (h : Heap) (s1 s2 : Option CharPtr) (n : Nat) : Res Int :=
  compare_loop (h.view s1) (h.view s2) n

/-- Modelled from the spec: `traits_type::copy(dest, src, n)` of
`char_traits.hpp`, a forward character-by-character copy. -/
def copy : Nat → Heap → CharPtr → CharPtr → Res Heap
  | 0, h, _, _ => .ok h
  | n + 1, h, dest, src => do
    let c ← h.read src
    let h1 ← h.write dest c
    copy n h1 (dest.add 1) (src.add 1)

/-- Modelled from the spec: `traits_type::assign(dest, n, c)` of
`char_traits.hpp`, which sets `n` characters from `dest` on to `c`. -/
def assign : Nat → Heap → CharPtr → char_type → Res Heap
  | 0, h, _, _ => .ok h
  | n + 1, h, dest, c => do
    let h1 ← h.write dest c
    assign n h1 (dest.add 1) c

end traits_type

/-! ## The string class -/

/-- Assignment to `buffer->length`. -/
def Heap.set_length (h : Heap) (id : Nat) (length : Nat) : Res Heap :=
  match h.blocks id with
  | none => .error .access_violation
  | some b =>
    .ok (h.put id (some { b with length := length }))

/-- The address of `s_empty[0]`, the static array of `empty_string_()`. -/
def empty_string_ : CharPtr := { blk := 0, off := 0 }

/-- Pointer advance on a possibly null pointer. -/
def ptr_add (p : Option CharPtr) (n : Nat) : Option CharPtr := p.map (fun q => q.add n)

/-- The class `basic_simple_string`: its only member is `m_buffer`, null or
the block made by `alloc_buffer_` (the member pointer designates `contents[0]`
of that block). -/
structure basic_simple_string where
  m_buffer : Option Nat

namespace basic_simple_string

/-- The enumerator `alloc_quantum = 31`. -/
def alloc_quantum : Nat := 31

/-- The function `char_pointer_from_member_pointer_`. -/
def char_pointer_from_member_pointer_ (m : Option Nat) : Option CharPtr :=
  m.map (fun id => { blk := id, off := 0 })

/-- The function `alloc_buffer_(s, capacity, length)`. -/
def alloc_buffer_ (P : Platform) (h : Heap) (s : Option CharPtr) (capacity length : Nat) :
    Res (Heap × Option Nat) :=
  let capacity := P.wrap (capacity + 1)
  let capacity := P.wrap (capacity + P.members)
  let capacity := Nat.land (P.wrap (alloc_quantum + capacity)) (P.compl alloc_quantum)
  match h.allocate P capacity with
  | none => .ok (h, none)
  | some (h1, id) =>
    -- the header is written into the block: it has to lie inside it
    if capacity < P.members then .error .access_violation
    else do
      let h2 ← match s with
        | none => h1.write { blk := id, off := 0 } 0
        | some p => do
          let h' ← traits_type.copy length h1 { blk := id, off := 0 } p
          h'.write { blk := id, off := length } 0
      let h3 ← h2.set_header id (P.sub capacity P.members) length
      pure (h3, some id)

/-- The function `alloc_buffer_(s, cch)`. -/
def alloc_buffer_cch (P : Platform) (h : Heap) (s : Option CharPtr) (cch : Nat) :
    Res (Heap × Option Nat) := do
  let length ← traits_type.length_max_null h s cch
  let capacity := cch
  let length := if cch < length then cch else length
  alloc_buffer_ P h s capacity length

/-- The function `alloc_buffer_(s)`. -/
def alloc_buffer_cstr (P : Platform) (h : Heap) (s : Option CharPtr) :
    Res (Heap × Option Nat) :=
  match s with
  | none => .ok (h, none)
  | some p => do
    let len ← traits_type.length h p
    alloc_buffer_ P h s len len

/-- The function `destroy_buffer_`. -/
def destroy_buffer_ (h : Heap) (id : Nat) : Heap := h.deallocate id

/-- The default constructor. -/
def ctor_default : basic_simple_string := { m_buffer := none }

/-- The constructor `basic_simple_string(char_type const* s)`. -/
def ctor_cstr (P : Platform) (h : Heap) (s : Option CharPtr) :
    Res (Heap × basic_simple_string) := do
  let (h1, m) ← alloc_buffer_cstr P h s
  pure (h1, { m_buffer := m })

/-- The method `size()`. -/
def size (h : Heap) (self : basic_simple_string) : Res Nat :=
  match self.m_buffer with
  | none => .ok 0
  | some id => do
    let b ← h.buffer id
    pure b.length

/-- The method `length()`. -/
def length (h : Heap) (self : basic_simple_string) : Res Nat := self.size h

/-- The method `capacity()`. -/
def capacity (h : Heap) (self : basic_simple_string) : Res Nat :=
  match self.m_buffer with
  | none => .ok 0
  | some id => do
    let b ← h.buffer id
    pure b.capacity

/-- The method `data()`. -/
def data (self : basic_simple_string) : CharPtr :=
  match self.m_buffer with
  | none => empty_string_
  | some id => { blk := id, off := 0 }

/-- The method `c_str()`. -/
def c_str (self : basic_simple_string) : CharPtr :=
  match self.m_buffer with
  | none => empty_string_
  | some id => { blk := id, off := 0 }

/-- The method `assign(s, cch)`. -/
def assign (P : Platform) (h : Heap) (self : basic_simple_string)
    (s : Option CharPtr) (cch : Nat) : Res (Heap × basic_simple_string) :=
  match self.m_buffer with
  | none =>
    if cch = 0 then pure (h, self)
    else do
      let (h1, m) ← alloc_buffer_cch P h s cch
      pure (h1, { m_buffer := m })
  | some id =>
    match s with
    | none => pure (destroy_buffer_ h id, { m_buffer := none })
    | some p => do
      let buffer ← h.buffer id
      if cch < buffer.capacity &&
          (p.lt { blk := id, off := 0 } || CharPtr.lt { blk := id, off := cch } p) then do
        let h1 ← traits_type.copy cch h { blk := id, off := 0 } p
        let h2 ← h1.write { blk := id, off := cch } 0
        let h3 ← h2.set_length id cch
        pure (h3, self)
      else do
        let (h1, new_buffer) ← alloc_buffer_ P h s cch cch
        pure (destroy_buffer_ h1 id, { m_buffer := new_buffer })

/-- The method `assign(cch, ch)`; the `auto_buffer_old` it fills is a
temporary array outside the string's block. -/
def assign_fill (P : Platform) (h : Heap) (self : basic_simple_string)
    (cch : Nat) (ch : char_type) : Res (Heap × basic_simple_string) := do
  let (h0, buffer) := h.store (List.replicate cch ch)
  let (h1, r) ← assign P h0 self (some buffer) cch
  pure (h1.deallocate buffer.blk, r)

/-- The method `append(s, cch)`. -/
def append (P : Platform) (h : Heap) (self : basic_simple_string)
    (s : Option CharPtr) (cch : Nat) : Res (Heap × basic_simple_string) :=
  match self.m_buffer with
  | none => assign P h self s cch
  | some id =>
    match s with
    | none => pure (h, self)
    | some p =>
      if cch = 0 then pure (h, self)
      else do
        let len ← traits_type.length_max h p cch
        let cch := if len < cch then len else cch
        let buffer ← h.buffer id
        let buf_len := buffer.length
        let (h1, m_buffer, cur, old_buffer, cch) ←
          (if P.sub buffer.capacity buf_len < P.wrap (1 + cch) then do
            let (h1, new_buffer) ←
              alloc_buffer_cch P h (some { blk := id, off := 0 }) (P.wrap (buf_len + cch))
            match new_buffer with
            | none => pure (h1, some id, id, none, 0)
            | some nid => pure (h1, some nid, nid, some id, cch)
          else pure (h, some id, id, none, cch) : Res (Heap × Option Nat × Nat × Option Nat × Nat))
        let h2 ← traits_type.copy cch h1 { blk := cur, off := buf_len } p
        let b ← h2.buffer cur
        let new_len := P.wrap (b.length + cch)
        let h3 ← h2.set_length cur new_len
        let h4 ← h3.write { blk := cur, off := new_len } 0
        let h5 := match old_buffer with
          | none => h4
          | some o => destroy_buffer_ h4 o
        pure (h5, { m_buffer := m_buffer })

/-- The method `append(class_type const& s)`. -/
def append_str (P : Platform) (h : Heap) (self s : basic_simple_string) :
    Res (Heap × basic_simple_string) := do
  let n ← s.length h
  append P h self (char_pointer_from_member_pointer_ s.m_buffer) n

/-- The method `append(cch, ch)`. -/
def append_fill (P : Platform) (h : Heap) (self : basic_simple_string)
    (cch : Nat) (ch : char_type) : Res (Heap × basic_simple_string) :=
  match self.m_buffer with
  | none => assign_fill P h self cch ch
  | some _ => do
    let (h0, buffer) := h.store (List.replicate cch ch)
    let (h1, r) ← append P h0 self (some buffer) cch
    pure (h1.deallocate buffer.blk, r)

/-- The method `push_back(ch)`. -/
def push_back (P : Platform) (h : Heap) (self : basic_simple_string) (ch : char_type) :
    Res (Heap × basic_simple_string) :=
  append_fill P h self 1 ch

/-- The function `compare_(lhs, lhs_len, rhs, rhs_len)`. -/
def compare_ (P : Platform) (h : Heap) (lhs : Option CharPtr) (lhs_len : Nat)
    (rhs : Option CharPtr) (rhs_len : Nat) : Res Int := do
  let cmp_len := if lhs_len < rhs_len then lhs_len else rhs_len
  let result ← traits_type.compare h lhs rhs cmp_len
  if result = 0 then
    pure (P.to_int (P.to_int lhs_len - P.to_int rhs_len))
  else
    pure result

/-- The method `compare(pos, cch, rhs)` with `rhs` a C string. -/
def compare_pos_cstr (P : Platform) (h : Heap) (self : basic_simple_string)
    (pos cch : Nat) (rhs : Option CharPtr) : Res Int := do
  let lhs_len ← self.length h
  let (pos, lhs_len) :=
    if !(decide (pos < lhs_len)) then (lhs_len, lhs_len) else (pos, P.sub lhs_len pos)
  let lhs_len := if cch < lhs_len then cch else lhs_len
  let rhs_len ← (match rhs with
    | none => pure 0
    | some r => traits_type.length h r : Res Nat)
  compare_ P h (ptr_add (char_pointer_from_member_pointer_ self.m_buffer) pos) lhs_len rhs rhs_len

/-- The method `compare(pos, cch, rhs, posRhs, cchRhs)` with `rhs` a string. -/
def compare_pos_str_pos (P : Platform) (h : Heap) (self : basic_simple_string)
    (pos cch : Nat) (rhs : basic_simple_string) (posRhs cchRhs : Nat) : Res Int := do
  let lhs_len ← self.length h
  let lhs_len :=
    if pos = lhs_len then 0
    else if P.wrap (pos + cch) > lhs_len then P.sub lhs_len pos
    else lhs_len
  let lhs_len := if cch < lhs_len then cch else lhs_len
  let rhs_len ← rhs.length h
  let rhs_len :=
    if posRhs = rhs_len then 0
    else if P.wrap (posRhs + cchRhs) > rhs_len then P.sub rhs_len posRhs
    else rhs_len
  let rhs_len := if cchRhs < rhs_len then cchRhs else rhs_len
  compare_ P h (ptr_add (char_pointer_from_member_pointer_ self.m_buffer) pos) lhs_len
    (ptr_add (char_pointer_from_member_pointer_ rhs.m_buffer) posRhs) rhs_len

/-- The method `compare(rhs)` with `rhs` a string. -/
def compare (P : Platform) (h : Heap) (self rhs : basic_simple_string) : Res Int := do
  let lhs_len ← self.length h
  let rhs_len ← rhs.length h
  compare_ P h (char_pointer_from_member_pointer_ self.m_buffer) lhs_len
    (char_pointer_from_member_pointer_ rhs.m_buffer) rhs_len

/-- The method `at(index)`. -/
def at_ (h : Heap) (self : basic_simple_string) (index : Nat) : Res char_type := do
  let sz ← self.size h
  if index ≥ sz then
    throw Fault.out_of_range
  else
    match ptr_add (char_pointer_from_member_pointer_ self.m_buffer) index with
    | none => throw Fault.access_violation
    | some p => h.read p

/-- The constructor `basic_simple_string(char_type const* s, size_type cch)`. -/
def ctor_cstr_cch (P : Platform) (h : Heap) (s : Option CharPtr) (cch : Nat) :
    Res (Heap × basic_simple_string) := do
  let (h1, m) ← alloc_buffer_cch P h s cch
  pure (h1, { m_buffer := m })

/-- The constructor `basic_simple_string(size_type cch, char_type ch)`. -/
def ctor_fill (P : Platform) (h : Heap) (cch : Nat) (ch : char_type) :
    Res (Heap × basic_simple_string) :=
  assign_fill P h { m_buffer := none } cch ch

/-- The constructor `basic_simple_string(class_type const& rhs, size_type pos,
size_type cch)`; `&rhs[pos]` is the character pointer of `rhs` advanced by
`pos`, and `minimum` is the smaller of its two arguments. -/
def ctor_str_pos_cch (P : Platform) (h : Heap) (rhs : basic_simple_string) (pos cch : Nat) :
    Res (Heap × basic_simple_string) := do
  let len ← rhs.length h
  let (h1, m) ← alloc_buffer_ P h (ptr_add (char_pointer_from_member_pointer_ rhs.m_buffer) pos)
    cch (min cch (P.sub len pos))
  pure (h1, { m_buffer := m })

/-- The method `substr(pos, cch)`. -/
def substr (P : Platform) (h : Heap) (self : basic_simple_string) (pos cch : Nat) :
    Res (Heap × basic_simple_string) := do
  let sz ← self.size h
  if pos > sz then
    throw Fault.out_of_range
  else do
    let len ← self.length h
    let cch := if cch > P.sub len pos then P.sub len pos else cch
    ctor_cstr_cch P h (some (self.data.add pos)) cch

/-- The method `substr(pos)`. -/
def substr_pos (P : Platform) (h : Heap) (self : basic_simple_string) (pos : Nat) :
    Res (Heap × basic_simple_string) := do
  let sz ← self.size h
  if pos > sz then
    throw Fault.out_of_range
  else do
    let len ← self.length h
    ctor_cstr_cch P h (some (self.data.add pos)) (P.sub len pos)

/-- The method `reserve(cch)`. -/
def reserve (P : Platform) (h : Heap) (self : basic_simple_string) (cch : Nat) :
    Res (Heap × basic_simple_string) := do
  let len ← self.length h
  if len < cch then
    match self.m_buffer with
    | none => do
      let (h1, m) ← alloc_buffer_ P h none cch 0
      pure (h1, { m_buffer := m })
    | some id => do
      let buffer ← h.buffer id
      if cch ≤ buffer.capacity then pure (h, self)
      else do
        let len ← self.length h
        let (h1, new_buffer) ← alloc_buffer_ P h (some self.c_str) cch len
        match new_buffer with
        | some nid => pure (destroy_buffer_ h1 id, { m_buffer := some nid })
        | none => pure (h1, self)
  else pure (h, self)

/-- The method `resize(cch, ch)`. -/
def resize (P : Platform) (h : Heap) (self : basic_simple_string) (cch : Nat) (ch : char_type) :
    Res (Heap × basic_simple_string) := do
  let len ← self.length h
  if len ≠ cch then do
    let (h1, s1) ←
      (if len < cch then do
        let (ha, sa) ← assign P h self (some self.c_str) cch
        let hb ← (match ptr_add (char_pointer_from_member_pointer_ sa.m_buffer) len with
          | none => if P.sub cch len = 0 then pure ha else throw Fault.access_violation
          | some dest => traits_type.assign (P.sub cch len) ha dest ch : Res Heap)
        pure (hb, sa)
      else pure (h, self) : Res (Heap × basic_simple_string))
    match s1.m_buffer with
    | none => throw Fault.access_violation
    | some id => do
      let h2 ← h1.set_length id cch
      let h3 ← h2.write { blk := id, off := cch } 0
      pure (h3, s1)
  else pure (h, self)

/-- The method `clear()`. -/
def clear (h : Heap) (self : basic_simple_string) : Res (Heap × basic_simple_string) :=
  match self.m_buffer with
  | none => pure (h, self)
  | some id => do
    let h1 ← h.set_length id 0
    let h2 ← h1.write { blk := id, off := 0 } 0
    pure (h2, self)

/-- The method `empty()`. -/
def empty (h : Heap) (self : basic_simple_string) : Res Bool := do
  let len ← self.length h
  pure (0 == len)

/-- The const `operator [](index)`. -/
def index_const (h : Heap) (self : basic_simple_string) (index : Nat) : Res char_type :=
  match ptr_add (char_pointer_from_member_pointer_ self.m_buffer) index with
  | none => throw Fault.access_violation
  | some p => h.read p

/-- The const method `front()`. -/
def front (h : Heap) (self : basic_simple_string) : Res char_type := index_const h self 0

/-- The method `starts_with_(s, n)`. -/
def starts_with_ (P : Platform) (h : Heap) (self : basic_simple_string)
    (s : Option CharPtr) (n : Nat) : Res Bool :=
  match self.m_buffer with
  | none => if 0 = n then pure true else pure false
  | some id => do
    let buffer ← h.buffer id
    if buffer.length < n then pure false
    else do
      let r ← compare_ P h (some { blk := id, off := 0 }) n (ptr_add s 0) n
      pure (decide (0 = r))

/-- The method `starts_with(class_type const& s)`. -/
def starts_with (P : Platform) (h : Heap) (self s : basic_simple_string) : Res Bool := do
  let n ← s.size h
  starts_with_ P h self (some s.data) n

/-- The method `starts_with(char_type const* s)`. -/
def starts_with_cstr (P : Platform) (h : Heap) (self : basic_simple_string)
    (s : Option CharPtr) : Res Bool := do
  let n ← (match s with
    | none => pure 0
    | some q => traits_type.length h q : Res Nat)
  starts_with_ P h self s n

/-- The method `starts_with(char_type ch)`. -/
def starts_with_ch (h : Heap) (self : basic_simple_string) (ch : char_type) : Res Bool := do
  let e ← self.empty h
  if e then pure false
  else do
    let c ← self.front h
    pure (c == ch)

/-- The const method `back()`, `(*this)[length() - 1]`. -/
def back (P : Platform) (h : Heap) (self : basic_simple_string) : Res char_type := do
  let len ← self.length h
  index_const h self (P.sub len 1)

/-- The method `ends_with_(s, n)`. -/
def ends_with_ (P : Platform) (h : Heap) (self : basic_simple_string)
    (s : Option CharPtr) (n : Nat) : Res Bool :=
  match self.m_buffer with
  | none => if 0 = n then pure true else pure false
  | some id => do
    let buffer ← h.buffer id
    if buffer.length < n then pure false
    else do
      let r ← compare_ P h (some { blk := id, off := 0 + P.sub buffer.length n }) n
        (ptr_add s 0) n
      pure (decide (0 = r))

/-- The method `ends_with(class_type const& s)`. -/
def ends_with (P : Platform) (h : Heap) (self s : basic_simple_string) : Res Bool := do
  let n ← s.size h
  ends_with_ P h self (some s.data) n

/-- The method `ends_with(char_type const* s)`. -/
def ends_with_cstr (P : Platform) (h : Heap) (self : basic_simple_string)
    (s : Option CharPtr) : Res Bool := do
  let n ← (match s with
    | none => pure 0
    | some q => traits_type.length h q : Res Nat)
  ends_with_ P h self s n

/-- The method `ends_with(char_type ch)`. -/
def ends_with_ch (P : Platform) (h : Heap) (self : basic_simple_string) (ch : char_type) :
    Res Bool := do
  let e ← self.empty h
  if e then pure false
  else do
    let c ← self.back P h
    pure (c == ch)

/-- The method `pop_back()`. -/
def pop_back (P : Platform) (h : Heap) (self : basic_simple_string) :
    Res (Heap × basic_simple_string) := do
  let sz ← self.size h
  if 0 ≠ sz then
    match self.m_buffer with
    | none => throw Fault.access_violation
    | some id => do
      let buffer ← h.buffer id
      let length := P.sub buffer.length 1
      let h1 ← h.set_length id length
      let h2 ← h1.write { blk := id, off := length } 0
      pure (h2, self)
  else pure (h, self)

/-- The function `copy_buffer_(m)`.  Sizes are in character units, so `cb`,
the size of the block, is the capacity plus the header; `memcpy` copies the
header and the `cb - members` character slots that follow it. -/
def copy_buffer_ (P : Platform) (h : Heap) (m : Option Nat) : Res (Heap × Option Nat) :=
  match m with
  | none => pure (h, none)
  | some id => do
    let buffer ← h.buffer id
    let cb := P.wrap (buffer.capacity + P.members)
    match h.allocate P cb with
    | none => pure (h, none)
    | some (h1, nid) =>
      if cb < P.members then throw Fault.access_violation
      else if buffer.contents.length < cb - P.members then throw Fault.access_violation
      else
        pure (h1.put nid (some { capacity := buffer.capacity, length := buffer.length,
                                 contents := buffer.contents.take (cb - P.members) }),
              some nid)

/-- The copy constructor. -/
def ctor_copy (P : Platform) (h : Heap) (rhs : basic_simple_string) :
    Res (Heap × basic_simple_string) := do
  let (h1, m) ← copy_buffer_ P h rhs.m_buffer
  pure (h1, { m_buffer := m })

/-- The move constructor: the new string, and `rhs` as it is left. -/
def ctor_move (rhs : basic_simple_string) : basic_simple_string × basic_simple_string :=
  ({ m_buffer := rhs.m_buffer }, { m_buffer := none })

/-- The method `is_valid()`. -/
def is_valid (h : Heap) (self : basic_simple_string) : Res Bool :=
  match self.m_buffer with
  | none => pure true
  | some id => do
    let buffer ← h.buffer id
    if buffer.capacity < 1 then pure false
    else if buffer.capacity < buffer.length then pure false
    else do
      let len ← traits_type.length h { blk := id, off := 0 }
      if buffer.length < len then pure false else pure true

/-- The free function `operator ==(lhs, rhs)` on two strings. -/
def operator_eq (P : Platform) (h : Heap) (lhs rhs : basic_simple_string) : Res Bool := do
  let r ← basic_simple_string.compare P h lhs rhs
  pure (decide (0 = r))

/-- The method `compare(value_type const* rhs)`. -/
def compare_cstr (P : Platform) (h : Heap) (self : basic_simple_string)
    (rhs : Option CharPtr) : Res Int := do
  let lhs_len ← self.length h
  let rhs_len ← (match rhs with
    | none => pure 0
    | some q => traits_type.length h q : Res Nat)
  compare_ P h (char_pointer_from_member_pointer_ self.m_buffer) lhs_len rhs rhs_len

/-- The free function `operator ==(lhs, rhs)`, string and C string. -/
def operator_eq_cstr (P : Platform) (h : Heap) (lhs : basic_simple_string)
    (rhs : Option CharPtr) : Res Bool := do
  let r ← compare_cstr P h lhs rhs
  pure (decide (0 = r))

/-- The free function `operator ==(lhs, rhs)`, C string and string. -/
def operator_cstr_eq (P : Platform) (h : Heap) (lhs : Option CharPtr)
    (rhs : basic_simple_string) : Res Bool := do
  let r ← compare_cstr P h rhs lhs
  pure (decide (0 = r))

/-- The free function `operator !=(lhs, rhs)` on two strings. -/
def operator_ne (P : Platform) (h : Heap) (lhs rhs : basic_simple_string) : Res Bool := do
  let r ← basic_simple_string.compare P h lhs rhs
  pure (decide (0 ≠ r))

/-- The free function `operator !=(lhs, rhs)`, string and C string. -/
def operator_ne_cstr (P : Platform) (h : Heap) (lhs : basic_simple_string)
    (rhs : Option CharPtr) : Res Bool := do
  let r ← compare_cstr P h lhs rhs
  pure (decide (0 ≠ r))

/-- The free function `operator !=(lhs, rhs)`, C string and string. -/
def operator_cstr_ne (P : Platform) (h : Heap) (lhs : Option CharPtr)
    (rhs : basic_simple_string) : Res Bool := do
  let r ← compare_cstr P h rhs lhs
  pure (decide (0 ≠ r))

/-- The free function `operator <(lhs, rhs)` on two strings. -/
def operator_lt (P : Platform) (h : Heap) (lhs rhs : basic_simple_string) : Res Bool := do
  let r ← basic_simple_string.compare P h lhs rhs
  pure (decide (r < 0))

/-- The free function `operator <(lhs, rhs)`, string and C string. -/
def operator_lt_cstr (P : Platform) (h : Heap) (lhs : basic_simple_string)
    (rhs : Option CharPtr) : Res Bool := do
  let r ← compare_cstr P h lhs rhs
  pure (decide (r < 0))

/-- The free function `operator <(lhs, rhs)`, C string and string. -/
def operator_cstr_lt (P : Platform) (h : Heap) (lhs : Option CharPtr)
    (rhs : basic_simple_string) : Res Bool := do
  let r ← compare_cstr P h rhs lhs
  pure (decide (r > 0))

/-- The free function `operator <=(lhs, rhs)` on two strings. -/
def operator_le (P : Platform) (h : Heap) (lhs rhs : basic_simple_string) : Res Bool := do
  let r ← basic_simple_string.compare P h lhs rhs
  pure (decide (r ≤ 0))

/-- The free function `operator <=(lhs, rhs)`, string and C string. -/
def operator_le_cstr (P : Platform) (h : Heap) (lhs : basic_simple_string)
    (rhs : Option CharPtr) : Res Bool := do
  let r ← compare_cstr P h lhs rhs
  pure (decide (r ≤ 0))

/-- The free function `operator <=(lhs, rhs)`, C string and string. -/
def operator_cstr_le (P : Platform) (h : Heap) (lhs : Option CharPtr)
    (rhs : basic_simple_string) : Res Bool := do
  let r ← compare_cstr P h rhs lhs
  pure (decide (r ≥ 0))

/-- The free function `operator >(lhs, rhs)` on two strings. -/
def operator_gt (P : Platform) (h : Heap) (lhs rhs : basic_simple_string) : Res Bool := do
  let r ← basic_simple_string.compare P h lhs rhs
  pure (decide (r > 0))

/-- The free function `operator >(lhs, rhs)`, string and C string. -/
def operator_gt_cstr (P : Platform) (h : Heap) (lhs : basic_simple_string)
    (rhs : Option CharPtr) : Res Bool := do
  let r ← compare_cstr P h lhs rhs
  pure (decide (r > 0))

/-- The free function `operator >(lhs, rhs)`, C string and string. -/
def operator_cstr_gt (P : Platform) (h : Heap) (lhs : Option CharPtr)
    (rhs : basic_simple_string) : Res Bool := do
  let r ← compare_cstr P h rhs lhs
  pure (decide (r < 0))

/-- The free function `operator >=(lhs, rhs)` on two strings. -/
def operator_ge (P : Platform) (h : Heap) (lhs rhs : basic_simple_string) : Res Bool := do
  let r ← basic_simple_string.compare P h lhs rhs
  pure (decide (r ≥ 0))

/-- The free function `operator >=(lhs, rhs)`, string and C string. -/
def operator_ge_cstr (P : Platform) (h : Heap) (lhs : basic_simple_string)
    (rhs : Option CharPtr) : Res Bool := do
  let r ← compare_cstr P h lhs rhs
  pure (decide (r ≥ 0))

/-- The free function `operator >=(lhs, rhs)`, C string and string. -/
def operator_cstr_ge (P : Platform) (h : Heap) (lhs : Option CharPtr)
    (rhs : basic_simple_string) : Res Bool := do
  let r ← compare_cstr P h rhs lhs
  pure (decide (r ≤ 0))

/-- The method `copy(dest, cch, pos)`: the heap after the call and the value
returned. -/
def copy (P : Platform) (h : Heap) (self : basic_simple_string) (dest : CharPtr)
    (cch pos : Nat) : Res (Heap × Nat) := do
  let len ← self.length h
  if pos < len then do
    let cch := if len < P.wrap (pos + cch) then P.sub len pos else cch
    let h1 ← traits_type.copy cch h dest (self.data.add pos)
    pure (h1, cch)
  else pure (h, 0)

/-- The method `assign(class_type const& rhs, size_type pos, size_type cch)`. -/
def assign_str_pos (P : Platform) (h : Heap) (self rhs : basic_simple_string)
    (pos cch : Nat) : Res (Heap × basic_simple_string) := do
  let s := char_pointer_from_member_pointer_ rhs.m_buffer
  let len ← rhs.length h
  let pos := if len < pos then len else pos
  let cch := if P.sub len pos < cch then P.sub len pos else cch
  match s with
  | some q => assign P h self (some (q.add pos)) cch
  | none => assign P h self none 0

/-- The method `append(class_type const& rhs, size_type pos, size_type cch)`,
with exception support. -/
def append_str_pos (P : Platform) (h : Heap) (self rhs : basic_simple_string)
    (pos cch : Nat) : Res (Heap × basic_simple_string) := do
  let s := char_pointer_from_member_pointer_ rhs.m_buffer
  let len ← rhs.length h
  if len < pos then throw Fault.out_of_range
  else do
    let cch := if P.sub len pos < cch then P.sub len pos else cch
    match s with
    | some q => append P h self (some (q.add pos)) cch
    | none => append P h self none 0

/-- The destructor: the heap after it. -/
def dtor (h : Heap) (self : basic_simple_string) : Heap :=
  match self.m_buffer with
  | none => h
  | some id => destroy_buffer_ h id

/-- The free function `operator +(lhs, rhs)` on two strings,
`basic_simple_string(lhs) += rhs`: the temporary is copy-constructed from
`lhs`, `operator +=` is `append(rhs)`, the value returned is copy-constructed
from the reference that `operator +=` returns, and the temporary is destroyed. -/
def operator_plus (P : Platform) (h : Heap) (lhs rhs : basic_simple_string) :
    Res (Heap × basic_simple_string) := do
  let (h1, tmp) ← ctor_copy P h lhs
  let (h2, tmp) ← append_str P h1 tmp rhs
  let (h3, r) ← ctor_copy P h2 tmp
  pure (dtor h3 tmp, r)

/-- The free function `operator +(lhs, rhs)`, string and character;
`operator +=` is `append(1, rhs)`. -/
def operator_plus_ch (P : Platform) (h : Heap) (lhs : basic_simple_string) (rhs : char_type) :
    Res (Heap × basic_simple_string) := do
  let (h1, tmp) ← ctor_copy P h lhs
  let (h2, tmp) ← append_fill P h1 tmp 1 rhs
  let (h3, r) ← ctor_copy P h2 tmp
  pure (dtor h3 tmp, r)

/-- The free function `operator +(lhs, rhs)`, character and string,
`basic_simple_string(1, lhs) += rhs`. -/
def operator_ch_plus (P : Platform) (h : Heap) (lhs : char_type) (rhs : basic_simple_string) :
    Res (Heap × basic_simple_string) := do
  let (h1, tmp) ← ctor_fill P h 1 lhs
  let (h2, tmp) ← append_str P h1 tmp rhs
  let (h3, r) ← ctor_copy P h2 tmp
  pure (dtor h3 tmp, r)

end basic_simple_string

open basic_simple_string

/-! ## Vocabulary of the statements -/

/-- The list `l` with the characters from `off` on replaced by `t`. -/
def splice (l : List char_type) (off : Nat) (t : List char_type) : List char_type :=
  l.take off ++ t ++ l.drop (off + t.length)

/-- The block `b` stores the string `c`: the header gives its length, the
stored capacity is the number of character slots of the block, the characters
are `c`, and the terminator follows them inside the block. -/
def string_buffer.holds (P : Platform) (b : string_buffer) (c : List char_type) : Prop :=
  b.length = c.length ∧ b.capacity = b.contents.length ∧ c.length < b.capacity ∧
    b.capacity < 2 ^ P.size_bits ∧ b.contents.take c.length = c ∧ b.contents[c.length]? = some 0

instance instDecidableHolds (P : Platform) (b : string_buffer) (c : List char_type) :
    Decidable (b.holds P c) :=
  inferInstanceAs (Decidable (b.length = c.length ∧ b.capacity = b.contents.length ∧
    c.length < b.capacity ∧ b.capacity < 2 ^ P.size_bits ∧ b.contents.take c.length = c ∧
    b.contents[c.length]? = some 0))

/-- The string `s` is in a proper state in the heap `h` and its content is `c`:
either it holds no buffer and `c` is empty, or its buffer is a live block
made before the next allocation and storing `c` (block `0`, the static empty
string, is never a string's buffer). -/
def Valid (P : Platform) (h : Heap) (s : basic_simple_string) (c : List char_type) : Prop :=
  match s.m_buffer with
  | none => c = []
  | some id =>
    0 < id ∧ id < h.next ∧
    match h.blocks id with
    | none => False
    | some b => b.holds P c

instance instDecidableValid (P : Platform) (h : Heap) (s : basic_simple_string)
    (c : List char_type) : Decidable (Valid P h s c) :=
  match s with
  | { m_buffer := none } => inferInstanceAs (Decidable (c = []))
  | { m_buffer := some id } =>
    match hb : h.blocks id with
    | none => isFalse (by simp [Valid, hb])
    | some b => decidable_of_iff (0 < id ∧ id < h.next ∧ b.holds P c) (by simp [Valid, hb])

/-- The static empty string `s_empty` is in place. -/
def Heap.wf (h : Heap) : Prop :=
  0 < h.next ∧ ∃ b, h.blocks 0 = some b ∧ b.contents = [0]

/-- The characters `data()[0 .. size())` of a string. -/
def content (h : Heap) (s : basic_simple_string) : Res (List char_type) := do
  let n ← s.size h
  pure ((h.view (some s.data)).take n)

/-- What no operation of the class changes: the allocator, the unwritten
memory, and the numbers of the blocks already made. -/
def Heap.later (h h' : Heap) : Prop :=
  h'.fails = h.fails ∧ h'.junk = h.junk ∧ h.next ≤ h'.next

/-- No character of `c` is the NUL. -/
def NulFree (c : List char_type) : Prop := ∀ x ∈ c, x ≠ 0

instance instDecidableNulFree (c : List char_type) : Decidable (NulFree c) :=
  inferInstanceAs (Decidable (∀ x ∈ c, x ≠ 0))

/-- Sign of an integer as one of `-1`, `0`, `1`. -/
def sgn (z : Int) : Int := if z < 0 then -1 else if z = 0 then 0 else 1

/-- The prefix-then-length comparison of two character sequences, as a sign:
the first difference decides, and when one sequence is a prefix of the other
the shorter one is the smaller. -/
def lex_sign : List char_type → List char_type → Int
  | [], [] => 0
  | [], _ :: _ => -1
  | _ :: _, [] => 1
  | a :: as, b :: bs => if a = b then lex_sign as bs else if a < b then -1 else 1

/-- The clamped range `s[p .. p + min(cch, len - p))` with `p = min(pos, len)`
of a content `c`. -/
def clamped (c : List char_type) (pos cch : Nat) : List char_type :=
  (c.drop (min pos c.length)).take (min cch (c.length - min pos c.length))

/-- The sign of the first difference between two character sequences along
their common length, `0` when there is none. -/
def first_diff : List char_type → List char_type → Int
  | a :: as, b :: bs => if a = b then first_diff as bs else if a < b then -1 else 1
  | _, _ => 0

/-- The characters of `t` before its first NUL (all of `t` when it has none). -/
def before_nul (t : List char_type) : List char_type := t.takeWhile (fun x => x ≠ 0)

/-- The calls `push_back(c1)`, ..., `push_back(cn)` in a row. -/
def push_back_all (P : Platform) :
    List char_type → Heap → basic_simple_string → Res (Heap × basic_simple_string)
  | [], h, s => pure (h, s)
  | ch :: rest, h, s => do
    let (h1, s1) ← push_back P h s ch
    push_back_all P rest h1 s1

/-! ## Heaps and strings for the examples -/

/-- A heap for the examples: the allocator never fails and unwritten memory
reads as the character `7`. -/
def heap0 : Heap := Heap.init (fun _ => false) (fun _ _ => 7)

/-- The heap in which a caller has stored the C string "abc" as block 1. -/
def heap_abc : Heap := (heap0.store [97, 98, 99, 0]).1

/-- The caller's pointer to "abc". -/
def ptr_abc : CharPtr := { blk := 1, off := 0 }

/-- The heap `heap_abc` after a string has been constructed from "abc": its
buffer is block 2, with the 16 character slots the rounding gives on LP64. -/
def heap_str : Heap :=
  heap_abc.grow.put 2 (some { capacity := 16, length := 3,
                              contents := [97, 98, 99, 0, 7, 7, 7, 7, 7, 7, 7, 7, 7, 7, 7, 7] })

/-- The string "abc" of `heap_str`. -/
def str_abc : basic_simple_string := { m_buffer := some 2 }

/-- The character `x`, `2 ^ 32` times. -/
def big_content : List char_type := List.replicate (2 ^ 32) 120

/-- On LP64, a heap with a string of `2 ^ 32` characters `x` as block 1; the
block has the `2 ^ 32 + 16` slots the rounding gives. -/
def heap_big : Heap :=
  heap0.grow.put 1 (some { capacity := 2 ^ 32 + 16, length := 2 ^ 32,
                           contents := big_content ++ List.replicate 16 0 })

/-- The string of `heap_big`. -/
def str_big : basic_simple_string := { m_buffer := some 1 }

/-- The heap `heap_str` with a second string, "bc", as block 3. -/
def heap_two : Heap :=
  heap_str.grow.put 3 (some { capacity := 16, length := 2,
                              contents := [98, 99, 0, 7, 7, 7, 7, 7, 7, 7, 7, 7, 7, 7, 7, 7] })

/-- The string "bc" of `heap_two`. -/
def str_bc : basic_simple_string := { m_buffer := some 3 }

/-- A heap whose allocator always reports failure, with the string of 15
characters `a` as block 1: the 16 slots of the block are all in use. -/
def heap_full : Heap :=
  (Heap.init (fun _ => true) (fun _ _ => 7)).grow.put 1
    (some { capacity := 16, length := 15,
            contents := [97, 97, 97, 97, 97, 97, 97, 97, 97, 97, 97, 97, 97, 97, 97, 0] })

/-- The string of `heap_full`. -/
def str_full : basic_simple_string := { m_buffer := some 1 }

/-- On LP64, a heap with the string of 16 characters `a` as block 1; the block
has the 48 slots the rounding gives. -/
def heap_sixteen : Heap :=
  heap0.grow.put 1 (some { capacity := 48, length := 16,
                           contents := List.replicate 16 97 ++ 0 :: List.replicate 31 7 })

/-- The string of `heap_sixteen`. -/
def str_sixteen : basic_simple_string := { m_buffer := some 1 }

/-- On LP64, a heap with the string of 15 NUL characters as block 1, in a
buffer of capacity 16: what `resize(15, NUL)` makes of an empty string. -/
def heap_nuls : Heap :=
  heap0.grow.put 1 (some { capacity := 16, length := 15, contents := List.replicate 16 0 })

/-- The string of `heap_nuls`. -/
def str_nuls : basic_simple_string := { m_buffer := some 1 }

/-- A heap with a block whose header gives the length 3 while six characters
are stored before the NUL: "abcde" and more. -/
def heap_run : Heap :=
  heap0.grow.put 1 (some { capacity := 16, length := 3,
                           contents := [97, 98, 99, 100, 101, 0, 7, 7, 7, 7, 7, 7, 7, 7, 7, 7] })

/-- The string of `heap_run`. -/
def str_run : basic_simple_string := { m_buffer := some 1 }

/-- On LP64, a heap with the string of 15 characters `a` as block 1: the 16
slots of the block are all in use. -/
def heap_fifteen : Heap :=
  heap0.grow.put 1 (some { capacity := 16, length := 15,
                           contents := List.replicate 15 97 ++ [0] })

/-- The string of `heap_fifteen`. -/
def str_fifteen : basic_simple_string := { m_buffer := some 1 }

/-- The character `x`, `2 ^ 31` times. -/
def half_content : List char_type := List.replicate (2 ^ 31) 120

/-- On LP64, a heap with a string of `2 ^ 31` characters `x` as block 1; the
block has the `2 ^ 31 + 16` slots the rounding gives. -/
def heap_half : Heap :=
  heap0.grow.put 1 (some { capacity := 2 ^ 31 + 16, length := 2 ^ 31,
                           contents := half_content ++ List.replicate 16 0 })

/-- The string of `heap_half`. -/
def str_half : basic_simple_string := { m_buffer := some 1 }

/-- The heap `heap_abc`, in which a caller holds "abc", with the string of 15
NUL characters as block 2, in a buffer of capacity 16. -/
def heap_abc_nuls : Heap :=
  heap_abc.grow.put 2 (some { capacity := 16, length := 15, contents := List.replicate 16 0 })

/-- The string of 15 NUL characters of `heap_abc_nuls`. -/
def str_nuls2 : basic_simple_string := { m_buffer := some 2 }

/-- The block of the string, header included, has a size that `size_type`
holds: `capacity + members < 2 ^ size_bits`, as for every block that
`alloc_buffer_` makes. -/
def Sized (P : Platform) (h : Heap) (s : basic_simple_string) : Prop :=
  ∀ id b, s.m_buffer = some id → h.blocks id = some b →
    b.capacity + P.members < 2 ^ P.size_bits

/-- On LP64, the heap `heap_sixteen` with a second, empty string as block 2,
in a buffer of capacity 16: what `reserve(2 ^ 64 - 1)`, `push_back('x')` and
`clear()` make of a default-constructed string. -/
def heap_cleared : Heap :=
  heap_sixteen.grow.grow.put 2 (some { capacity := 16, length := 0,
                                       contents := 0 :: 0 :: List.replicate 14 7 })

/-- The empty string of `heap_cleared`. -/
def str_cleared : basic_simple_string := { m_buffer := some 2 }

theorem land_mask (w x : Nat) (hw : 5 ≤ w) (hx : x < 2 ^ w) :
    Nat.land x (2 ^ w - 1 - 31) = x / 32 * 32 := by
  show x &&& (2 ^ w - 1 - 31) = x / 32 * 32
  apply Nat.eq_of_testBit_eq
  intro i
  have h31 : (31 : Nat) < 2 ^ w := by
    calc (31 : Nat) < 2 ^ 5 := by norm_num
      _ ≤ 2 ^ w := Nat.pow_le_pow_right (by norm_num) hw
  have e1 : 2 ^ w - 1 - 31 = 2 ^ w - (31 + 1) := by omega
  have e2 : x / 32 * 32 = (x >>> 5) <<< 5 := by
    rw [Nat.shiftLeft_eq, Nat.shiftRight_eq_div_pow]
  have e3 : (31 : Nat) = 2 ^ 5 - 1 := by norm_num
  rw [Nat.testBit_and, e1, Nat.testBit_two_pow_sub_succ h31, e2, Nat.testBit_shiftLeft,
    Nat.testBit_shiftRight, e3, Nat.testBit_two_pow_sub_one]
  by_cases h5 : i < 5
  · have : ¬ (i ≥ 5) := by omega
    simp [h5, this]
  · have h5' : i ≥ 5 := by omega
    have e4 : 5 + (i - 5) = i := by omega
    simp only [h5, h5', e4, decide_True, decide_False, Bool.not_false, Bool.and_true, Bool.true_and]
    by_cases hi : i < w
    · simp [hi]
    · have : x < 2 ^ i := lt_of_lt_of_le hx (Nat.pow_le_pow_right (by norm_num) (by omega))
      simp [hi, Nat.testBit_lt_two_pow this]

/-! ## Facts about the heap -/

@[simp] theorem Heap.put_blocks_same (h : Heap) (id : Nat) (b : Option string_buffer) :
    (h.put id b).blocks id = b := by
  simp [Heap.put]

theorem Heap.put_blocks_other (h : Heap) (id j : Nat) (b : Option string_buffer) (hj : j ≠ id) :
    (h.put id b).blocks j = h.blocks j := by
  simp [Heap.put, Function.update, hj]

@[simp] theorem Heap.put_next (h : Heap) (id : Nat) (b : Option string_buffer) :
    (h.put id b).next = h.next := rfl

@[simp] theorem Heap.put_fails (h : Heap) (id : Nat) (b : Option string_buffer) :
    (h.put id b).fails = h.fails := rfl

@[simp] theorem Heap.put_junk (h : Heap) (id : Nat) (b : Option string_buffer) :
    (h.put id b).junk = h.junk := rfl

@[simp] theorem Heap.put_put (h : Heap) (id : Nat) (b c : Option string_buffer) :
    (h.put id b).put id c = h.put id c := by
  simp [Heap.put]

theorem Heap.put_self (h : Heap) (id : Nat) (b : Option string_buffer) (hb : h.blocks id = b) :
    h.put id b = h := by
  subst hb
  simp [Heap.put]

theorem splice_nil (l : List char_type) (off : Nat) : splice l off [] = l := by
  simp [splice]

theorem splice_length (l : List char_type) (off : Nat) (t : List char_type)
    (h : off + t.length ≤ l.length) : (splice l off t).length = l.length := by
  simp [splice]; omega

theorem splice_cons (l : List char_type) (off : Nat) (c : char_type) (t : List char_type)
    (h : off < l.length) :
    splice (l.set off c) (off + 1) t = splice l off (c :: t) := by
  have hlen : (l.take off).length = off := by simp; omega
  have hset : l.set off c = l.take off ++ c :: l.drop (off + 1) := by
    rw [List.set_eq_take_append_cons_drop, if_pos h]
  have h1 : (l.set off c).take (off + 1) = l.take off ++ [c] := by
    rw [hset, List.take_append_eq_append_take, hlen]
    simp [List.take_take]
  have h2 : (l.set off c).drop (off + 1 + t.length) = l.drop (off + (c :: t).length) := by
    rw [List.drop_set_of_lt _ _ (by omega)]
    simp
    congr 1
    omega
  unfold splice
  rw [h1, h2]
  simp

theorem Heap.view_some (h : Heap) (p : CharPtr) (b : string_buffer) (hb : h.blocks p.blk = some b) :
    h.view (some p) = b.contents.drop p.off := by
  simp [Heap.view, hb]

theorem Heap.read_ok (h : Heap) (p : CharPtr) (c : char_type) (rest : List char_type)
    (hv : h.view (some p) = c :: rest) : h.read p = .ok c := by
  simp [Heap.read, hv]

theorem Heap.write_ok (h : Heap) (p : CharPtr) (c : char_type) (b : string_buffer)
    (hb : h.blocks p.blk = some b) (hoff : p.off < b.contents.length) :
    h.write p c = .ok (h.put p.blk (some { b with contents := b.contents.set p.off c })) := by
  simp [Heap.write, hb, hoff]

/-- A forward copy between ranges that do not overlap replaces the destination
range by the source characters. -/
theorem traits_type.copy_ok (n : Nat) : ∀ (h : Heap) (dest src : CharPtr) (bd : string_buffer)
    (t : List char_type),
    h.blocks dest.blk = some bd →
    (h.view (some src)).take n = t → t.length = n →
    dest.off + n ≤ bd.contents.length →
    (dest.blk ≠ src.blk ∨ dest.off + n ≤ src.off ∨ src.off + n ≤ dest.off) →
    traits_type.copy n h dest src
      = .ok (h.put dest.blk (some { bd with contents := splice bd.contents dest.off t })) := by
  induction n with
  | zero =>
    intro h dest src bd t hb _ ht _ _
    have : t = [] := List.length_eq_zero.mp ht
    subst this
    simp only [traits_type.copy, splice_nil]
    rw [Heap.put_self _ _ _ hb]
  | succ n ih =>
    intro h dest src bd t hb hv ht hfit hsep
    match t, ht with
    | c :: t1, ht =>
      have ht1 : t1.length = n := by simpa using ht
      -- the source block
      have hsrc : ∃ bs, h.blocks src.blk = some bs := by
        cases hs : h.blocks src.blk with
        | none => simp [Heap.view, hs] at hv
        | some bs => exact ⟨bs, rfl⟩
      obtain ⟨bs, hbs⟩ := hsrc
      rw [Heap.view_some h src bs hbs] at hv
      have hsrclen : src.off + (n + 1) ≤ bs.contents.length := by
        have := congrArg List.length hv
        simp at this
        omega
      have hdrop : bs.contents.drop src.off = c :: bs.contents.drop (src.off + 1) := by
        have h0 : src.off < bs.contents.length := by omega
        rw [List.drop_eq_getElem_cons h0]
        rw [List.drop_eq_getElem_cons h0, List.take_succ_cons] at hv
        rw [(List.cons.inj hv).1]
      have hv1 : (bs.contents.drop (src.off + 1)).take n = t1 := by
        rw [hdrop] at hv
        simpa using hv
      have hread : h.read src = .ok c :=
        Heap.read_ok h src c _ (by rw [Heap.view_some h src bs hbs, hdrop])
      have hwrite := Heap.write_ok h dest c bd hb (by omega)
      simp only [traits_type.copy, hread, hwrite, bind, Except.bind]
      have hb1 : (h.put dest.blk (some { bd with contents := bd.contents.set dest.off c })).blocks
          (dest.add 1).blk = some { bd with contents := bd.contents.set dest.off c } := by
        simp [CharPtr.add]
      have hview1 : ((h.put dest.blk (some { bd with contents := bd.contents.set dest.off c })).view
          (some (src.add 1))).take n = t1 := by
        by_cases hblk : dest.blk = src.blk
        · have hbb : bs = bd := by
            rw [hblk] at hb; rw [hb] at hbs; exact (Option.some.inj hbs).symm
          subst hbb
          have hsep2 : dest.off + (n + 1) ≤ src.off ∨ src.off + (n + 1) ≤ dest.off := by
            rcases hsep with h1 | h1
            · exact absurd hblk h1
            · exact h1
          simp only [Heap.view, CharPtr.add, ← hblk, Heap.put_blocks_same]
          rcases hsep2 with h1 | h1
          · rw [List.drop_set_of_lt _ _ (by omega)]
            exact hv1
          · rw [List.drop_set, if_neg (by omega), List.set_take,
              List.set_eq_of_length_le (by simp; omega)]
            exact hv1
        · have hne : (src.add 1).blk ≠ dest.blk := by
            simp [CharPtr.add]; exact fun e => hblk e.symm
          simp only [Heap.view, Heap.put_blocks_other _ _ _ _ hne]
          simp only [CharPtr.add, hbs]
          exact hv1
      have hsep1 : (dest.add 1).blk ≠ (src.add 1).blk ∨ (dest.add 1).off + n ≤ (src.add 1).off ∨
          (src.add 1).off + n ≤ (dest.add 1).off := by
        simp only [CharPtr.add]
        omega
      rw [ih _ (dest.add 1) (src.add 1) _ t1 hb1 hview1 ht1 (by simp [CharPtr.add]; omega) hsep1]
      simp only [CharPtr.add, Heap.put_put]
      rw [splice_cons _ _ _ _ (by omega)]

/-! ## Facts about the character traits -/

theorem traits_type.length_loop_ok (cs rest : List char_type) (hcs : NulFree cs) :
    traits_type.length_loop (cs ++ 0 :: rest) = .ok cs.length := by
  induction cs with
  | nil => simp [traits_type.length_loop]
  | cons c cs ih =>
    have hc : c ≠ 0 := hcs c (by simp)
    have hcs1 : NulFree cs := fun x hx => hcs x (by simp [hx])
    simp [traits_type.length_loop, hc, ih hcs1, Except.map]

theorem traits_type.length_max_loop_full (n : Nat) : ∀ (l t : List char_type),
    l.take n = t → t.length = n → NulFree t →
    traits_type.length_max_loop l n = .ok n := by
  induction n with
  | zero => intro l t _ _ _; cases l <;> simp [traits_type.length_max_loop]
  | succ n ih =>
    intro l t hl ht hnf
    cases l with
    | nil => simp at hl; subst hl; simp at ht
    | cons c l =>
      rw [List.take_succ_cons] at hl
      subst hl
      have hc : c ≠ 0 := hnf c (by simp)
      have hnf1 : NulFree (l.take n) := fun x hx => hnf x (by simp [hx])
      have ht1 : (l.take n).length = n := by simpa using ht
      simp [traits_type.length_max_loop, hc, ih l _ rfl ht1 hnf1, Except.map]

theorem traits_type.length_max_loop_nul (cs rest : List char_type) (hcs : NulFree cs) :
    ∀ n, cs.length ≤ n → traits_type.length_max_loop (cs ++ 0 :: rest) n = .ok cs.length := by
  induction cs with
  | nil => intro n _; cases n <;> simp [traits_type.length_max_loop]
  | cons c cs ih =>
    intro n hn
    have hc : c ≠ 0 := hcs c (by simp)
    have hcs1 : NulFree cs := fun x hx => hcs x (by simp [hx])
    cases n with
    | zero => simp at hn
    | succ n =>
      have hn1 : cs.length ≤ n := by simpa using hn
      simp [traits_type.length_max_loop, hc, ih hcs1 n hn1, Except.map]

/-! ## Facts about stored strings -/

theorem string_buffer.holds_contents (P : Platform) (b : string_buffer) (c : List char_type)
    (hb : b.holds P c) : b.contents = c ++ 0 :: b.contents.drop (c.length + 1) := by
  obtain ⟨_, _, _, _, htake, hnul⟩ := hb
  have hlt : c.length < b.contents.length := by
    rcases List.getElem?_eq_some.mp hnul with ⟨hlt, _⟩
    exact hlt
  have h0 : b.contents[c.length] = 0 := by
    rcases List.getElem?_eq_some.mp hnul with ⟨_, h0⟩
    exact h0
  conv => lhs; rw [← List.take_append_drop c.length b.contents]
  rw [htake, List.drop_eq_getElem_cons hlt, h0]

theorem Valid_none (P : Platform) (h : Heap) (c : List char_type) :
    Valid P h { m_buffer := none } c ↔ c = [] := by
  simp [Valid]

theorem Valid_some (P : Platform) (h : Heap) (id : Nat) (c : List char_type) :
    Valid P h { m_buffer := some id } c ↔
      0 < id ∧ id < h.next ∧ ∃ b, h.blocks id = some b ∧ b.holds P c := by
  simp only [Valid]
  cases hb : h.blocks id with
  | none => simp
  | some b => simp

/-! ## Allocation -/

theorem Platform.wrap_eq (P : Platform) (n : Nat) (h : n < 2 ^ P.size_bits) : P.wrap n = n :=
  Nat.mod_eq_of_lt h

theorem Platform.sub_eq (P : Platform) (a b : Nat) (ha : a < 2 ^ P.size_bits) (hb : b ≤ a) :
    P.sub a b = a - b := by
  unfold Platform.sub
  rw [P.wrap_eq a ha, P.wrap_eq b (by omega)]
  have : a + (2 ^ P.size_bits - b) = (a - b) + 2 ^ P.size_bits := by omega
  rw [this, Nat.add_mod_right]
  exact Nat.mod_eq_of_lt (by omega)

theorem Platform.pow_ge (P : Platform) (hw : 5 ≤ P.size_bits) : 32 ≤ 2 ^ P.size_bits := by
  calc (32 : Nat) = 2 ^ 5 := by norm_num
    _ ≤ 2 ^ P.size_bits := Nat.pow_le_pow_right (by norm_num) hw

/-- The total size `alloc_buffer_` asks the allocator for. -/
theorem rounded_total (P : Platform) (capacity : Nat) (hw : 5 ≤ P.size_bits)
    (hfit : capacity + P.members + 32 < 2 ^ P.size_bits) :
    Nat.land (P.wrap (alloc_quantum + P.wrap (P.wrap (capacity + 1) + P.members)))
        (P.compl alloc_quantum)
      = (capacity + P.members + 32) / 32 * 32 := by
  have h32 := P.pow_ge hw
  rw [P.wrap_eq (capacity + 1) (by omega), P.wrap_eq (capacity + 1 + P.members) (by omega)]
  unfold alloc_quantum
  rw [P.wrap_eq (31 + (capacity + 1 + P.members)) (by omega)]
  have hc : P.compl 31 = 2 ^ P.size_bits - 1 - 31 := by
    unfold Platform.compl Platform.size_max
    rw [P.wrap_eq 31 (by omega)]
  rw [hc, land_mask P.size_bits _ hw (by omega)]
  congr 2
  omega

theorem Heap.view_put_other (h : Heap) (id : Nat) (b : Option string_buffer) (p : CharPtr)
    (hp : p.blk ≠ id) : (h.put id b).view (some p) = h.view (some p) := by
  simp [Heap.view, Heap.put_blocks_other _ _ _ _ hp]

@[simp] theorem Heap.grow_blocks (h : Heap) : h.grow.blocks = h.blocks := rfl

@[simp] theorem Heap.grow_view (h : Heap) (p : Option CharPtr) : h.grow.view p = h.view p := rfl

@[simp] theorem Heap.grow_next (h : Heap) : h.grow.next = h.next + 1 := rfl

@[simp] theorem Heap.grow_fails (h : Heap) : h.grow.fails = h.fails := rfl

theorem Heap.fresh_length (h : Heap) (n : Nat) : (h.fresh n).contents.length = n := by
  simp [Heap.fresh]

/-- A successful `alloc_buffer_(s, capacity, length)` from a readable source
makes block number `next`, storing the `length` characters at `s`. -/
theorem alloc_buffer_ok (P : Platform) (h : Heap) (p : CharPtr) (capacity length : Nat)
    (t : List char_type) (hw : 5 ≤ P.size_bits)
    (hfit : capacity + P.members + 32 < 2 ^ P.size_bits)
    (hlen : length ≤ capacity) (halloc : h.fails h.next = false)
    (hp : p.blk < h.next) (hsrc : (h.view (some p)).take length = t) (ht : t.length = length) :
    ∃ b, alloc_buffer_ P h (some p) capacity length
          = .ok (h.grow.put h.next (some b), some h.next)
      ∧ b.holds P t ∧ b.capacity = (capacity + P.members + 32) / 32 * 32 - P.members := by
  have htot := rounded_total P capacity hw hfit
  have hge : capacity + 1 + P.members ≤ (capacity + P.members + 32) / 32 * 32 := by omega
  have hle : (capacity + P.members + 32) / 32 * 32 ≤ capacity + P.members + 32 := by omega
  generalize htotal : (capacity + P.members + 32) / 32 * 32 = total at htot hge hle
  have hpne : p.blk ≠ h.next := by omega
  have hfl : (h.fresh (total - P.members)).contents.length = total - P.members :=
    h.fresh_length _
  have hcopy : traits_type.copy length (h.grow.put h.next (some (h.fresh (total - P.members))))
      { blk := h.next, off := 0 } p
      = .ok (h.grow.put h.next (some { h.fresh (total - P.members) with
          contents := splice (h.fresh (total - P.members)).contents 0 t })) := by
    have := traits_type.copy_ok length (h.grow.put h.next (some (h.fresh (total - P.members))))
      { blk := h.next, off := 0 } p (h.fresh (total - P.members)) t
      (by simp) (by rw [Heap.view_put_other _ _ _ _ hpne]; simpa using hsrc) ht
      (by rw [hfl]; simp; omega) (Or.inl (by simpa using hpne.symm))
    simpa using this
  have hsl : (splice (h.fresh (total - P.members)).contents 0 t).length = total - P.members := by
    rw [splice_length _ _ _ (by rw [hfl]; omega), hfl]
  have hwrite := Heap.write_ok
    (h.grow.put h.next (some { h.fresh (total - P.members) with
          contents := splice (h.fresh (total - P.members)).contents 0 t }))
    { blk := h.next, off := length } 0
    { h.fresh (total - P.members) with
          contents := splice (h.fresh (total - P.members)).contents 0 t }
    (by simp) (by simp only [hsl]; omega)
  refine ⟨{ capacity := total - P.members, length := length,
            contents := (splice (h.fresh (total - P.members)).contents 0 t).set length 0 }, ?_, ?_, ?_⟩
  · unfold alloc_buffer_
    simp only [htot, Heap.allocate, halloc]
    simp only [Bool.false_eq_true, ↓reduceIte]
    rw [if_neg (by omega)]
    simp only [hcopy, bind, Except.bind, Heap.put_put, hwrite]
    simp only [Heap.set_header, Heap.put_blocks_same, Heap.put_put, pure, Except.pure]
    rw [P.sub_eq total P.members (by omega) (by omega)]
  · refine ⟨ht.symm, ?_, ?_, ?_, ?_, ?_⟩
    · show total - P.members = ((splice (h.fresh (total - P.members)).contents 0 t).set length 0).length
      rw [List.length_set, hsl]
    · show t.length < total - P.members
      omega
    · show total - P.members < 2 ^ P.size_bits
      omega
    · show ((splice (h.fresh (total - P.members)).contents 0 t).set length 0).take t.length = t
      rw [List.set_take, List.set_eq_of_length_le (by simp; omega)]
      simp [splice]
    · show ((splice (h.fresh (total - P.members)).contents 0 t).set length 0)[t.length]? = some 0
      rw [ht, List.getElem?_set_self (by rw [hsl]; omega)]
  · rfl

/-! ## Observations of a valid string -/

theorem size_of_valid (P : Platform) (h : Heap) (s : basic_simple_string) (c : List char_type)
    (hv : Valid P h s c) : s.size h = .ok c.length := by
  cases s with
  | mk m =>
    cases m with
    | none => rw [(Valid_none P h c).mp hv]; rfl
    | some id =>
      obtain ⟨_, _, b, hb, hh⟩ := (Valid_some P h id c).mp hv
      simp [size, Heap.buffer, hb, hh.1, bind, Except.bind, pure, Except.pure]

theorem content_of_valid (P : Platform) (h : Heap) (s : basic_simple_string) (c : List char_type)
    (hv : Valid P h s c) : content h s = .ok c := by
  unfold content
  rw [size_of_valid P h s c hv]
  cases s with
  | mk m =>
    cases m with
    | none =>
      rw [(Valid_none P h c).mp hv]
      simp [bind, Except.bind, pure, Except.pure]
    | some id =>
      obtain ⟨_, _, b, hb, hh⟩ := (Valid_some P h id c).mp hv
      simp [data, Heap.view, hb, hh.2.2.2.2.1, bind, Except.bind, pure, Except.pure]

theorem view_of_valid (P : Platform) (h : Heap) (id : Nat) (c : List char_type)
    (hv : Valid P h { m_buffer := some id } c) :
    ∃ rest, h.view (some { blk := id, off := 0 }) = c ++ 0 :: rest := by
  obtain ⟨_, _, b, hb, hh⟩ := (Valid_some P h id c).mp hv
  exact ⟨_, by rw [Heap.view_some h _ b hb]; exact string_buffer.holds_contents P b c hh⟩

/-! ## Validity is kept by changes elsewhere -/

theorem Valid_put_other (P : Platform) (h : Heap) (s : basic_simple_string) (c : List char_type)
    (j : Nat) (b : Option string_buffer) (hv : Valid P h s c) (hj : s.m_buffer ≠ some j) :
    Valid P (h.put j b) s c := by
  cases s with
  | mk m =>
    cases m with
    | none => exact hv
    | some id =>
      have hne : id ≠ j := fun e => hj (by rw [e])
      obtain ⟨hpos, hlt, b0, hb, hh⟩ := (Valid_some P h id c).mp hv
      exact (Valid_some P _ id c).mpr
        ⟨hpos, hlt, b0, by rw [Heap.put_blocks_other _ _ _ _ hne]; exact hb, hh⟩

theorem Valid_grow (P : Platform) (h : Heap) (s : basic_simple_string) (c : List char_type)
    (hv : Valid P h s c) : Valid P h.grow s c := by
  cases s with
  | mk m =>
    cases m with
    | none => exact hv
    | some id =>
      obtain ⟨hpos, hlt, b0, hb, hh⟩ := (Valid_some P h id c).mp hv
      exact (Valid_some P _ id c).mpr ⟨hpos, Nat.lt_succ_of_lt hlt, b0, hb, hh⟩

theorem Valid_put_same (P : Platform) (h : Heap) (id : Nat) (b : string_buffer)
    (c : List char_type) (hpos : 0 < id) (hlt : id < h.next) (hh : b.holds P c) :
    Valid P (h.put id (some b)) { m_buffer := some id } c :=
  (Valid_some P _ id c).mpr ⟨hpos, hlt, b, by simp, hh⟩

/-! ## Assignment -/

/-- The overlap test of `assign`, read on blocks and offsets. -/
theorem overlap_test (id : Nat) (p : CharPtr) (n : Nat) :
    (p.lt { blk := id, off := 0 } || CharPtr.lt { blk := id, off := n } p) = true
      ↔ (p.blk ≠ id ∨ n < p.off) := by
  simp only [CharPtr.lt, Bool.or_eq_true, Bool.and_eq_true, decide_eq_true_eq, beq_iff_eq]
  constructor
  · rintro ((h | ⟨_, h⟩) | (h | ⟨_, h⟩)) <;> omega
  · intro h
    by_cases e : p.blk = id
    · right; right; exact ⟨e.symm, by omega⟩
    · rcases Nat.lt_or_gt_of_ne e with h1 | h1
      · left; left; exact h1
      · right; left; exact h1

/-- The in-place branch of `assign`. -/
theorem assign_in_place (P : Platform) (h : Heap) (id : Nat) (b : string_buffer)
    (p : CharPtr) (n : Nat) (t : List char_type)
    (hb : h.blocks id = some b) (hcap : b.capacity = b.contents.length)
    (hn : n < b.capacity) (hsep : p.blk ≠ id ∨ n < p.off)
    (hsrc : (h.view (some p)).take n = t) (ht : t.length = n) :
    assign P h { m_buffer := some id } (some p) n
      = .ok (h.put id (some { capacity := b.capacity, length := n,
                              contents := (splice b.contents 0 t).set n 0 }),
             { m_buffer := some id }) := by
  have hcond : (decide (n < b.capacity) &&
      (p.lt { blk := id, off := 0 } || CharPtr.lt { blk := id, off := n } p)) = true := by
    rw [Bool.and_eq_true]
    exact ⟨by simpa using hn, (overlap_test id p n).mpr hsep⟩
  have hcopy : traits_type.copy n h { blk := id, off := 0 } p
      = .ok (h.put id (some { b with contents := splice b.contents 0 t })) := by
    have := traits_type.copy_ok n h { blk := id, off := 0 } p b t hb hsrc ht
      (by simp; omega) (by
        simp only []
        rcases hsep with h1 | h1
        · exact Or.inl (fun e => h1 e.symm)
        · exact Or.inr (Or.inl (by omega)))
    simpa using this
  have hsl : (splice b.contents 0 t).length = b.contents.length :=
    splice_length _ _ _ (by omega)
  have hwrite := Heap.write_ok (h.put id (some { b with contents := splice b.contents 0 t }))
    { blk := id, off := n } 0 { b with contents := splice b.contents 0 t }
    (by simp) (by simp only [hsl]; omega)
  unfold assign
  simp only [Heap.buffer, hb, bind, Except.bind, hcond, ↓reduceIte, hcopy, hwrite,
    Heap.set_length, Heap.put_blocks_same, Heap.put_put, pure, Except.pure]

theorem holds_of_splice (P : Platform) (b : string_buffer) (n : Nat) (t : List char_type)
    (hcap : b.capacity = b.contents.length) (hlt : b.capacity < 2 ^ P.size_bits)
    (hn : n < b.capacity) (ht : t.length = n) :
    string_buffer.holds P { capacity := b.capacity, length := n,
                            contents := (splice b.contents 0 t).set n 0 } t := by
  have hsl : (splice b.contents 0 t).length = b.contents.length :=
    splice_length _ _ _ (by omega)
  refine ⟨ht.symm, ?_, ?_, hlt, ?_, ?_⟩
  · show b.capacity = ((splice b.contents 0 t).set n 0).length
    rw [List.length_set, hsl, hcap]
  · show t.length < b.capacity
    omega
  · show ((splice b.contents 0 t).set n 0).take t.length = t
    rw [List.set_take, List.set_eq_of_length_le (by simp; omega)]
    simp [splice]
  · show ((splice b.contents 0 t).set n 0)[t.length]? = some 0
    rw [ht, List.getElem?_set_self (by rw [hsl]; omega)]

/-- The allocating branch of `assign`. -/
theorem assign_fresh (P : Platform) (h : Heap) (id : Nat) (b : string_buffer)
    (p : CharPtr) (n : Nat) (t : List char_type) (hw : 5 ≤ P.size_bits)
    (hb : h.blocks id = some b)
    (hcond : ¬ (n < b.capacity ∧ (p.blk ≠ id ∨ n < p.off)))
    (hfit : n + P.members + 32 < 2 ^ P.size_bits) (halloc : h.fails h.next = false)
    (hp : p.blk < h.next) (hsrc : (h.view (some p)).take n = t) (ht : t.length = n) :
    ∃ b1, assign P h { m_buffer := some id } (some p) n
        = .ok ((h.grow.put h.next (some b1)).put id none, { m_buffer := some h.next })
      ∧ b1.holds P t ∧ b1.capacity = (n + P.members + 32) / 32 * 32 - P.members := by
  obtain ⟨b1, hal, hh, hc⟩ := alloc_buffer_ok P h p n n t hw hfit (le_refl _) halloc hp hsrc ht
  refine ⟨b1, ?_, hh, hc⟩
  have hcond2 : (decide (n < b.capacity) &&
      (p.lt { blk := id, off := 0 } || CharPtr.lt { blk := id, off := n } p)) = false := by
    rw [Bool.eq_false_iff]
    intro hc2
    rw [Bool.and_eq_true] at hc2
    exact hcond ⟨by simpa using hc2.1, (overlap_test id p n).mp hc2.2⟩
  unfold assign
  simp only [Heap.buffer, hb, bind, Except.bind, hcond2, hal, destroy_buffer_, Heap.deallocate,
    pure, Except.pure]
  rfl

theorem Heap.later_refl (h : Heap) : h.later h := ⟨rfl, rfl, le_refl _⟩

theorem Heap.later_trans (h1 h2 h3 : Heap) (a : h1.later h2) (b : h2.later h3) : h1.later h3 :=
  ⟨b.1.trans a.1, b.2.1.trans a.2.1, le_trans a.2.2 b.2.2⟩

/-- Assignment to a string that holds a buffer: whatever the source, aliasing
the string or not, the string ends up storing the `n` source characters. -/
theorem assign_held (P : Platform) (h : Heap) (id : Nat) (c : List char_type)
    (p : CharPtr) (n : Nat) (t : List char_type) (hw : 5 ≤ P.size_bits)
    (hv : Valid P h { m_buffer := some id } c)
    (hfit : n + P.members + 32 < 2 ^ P.size_bits) (halloc : h.fails h.next = false)
    (hp : p.blk < h.next) (hsrc : (h.view (some p)).take n = t) (ht : t.length = n) :
    ∃ h1 s1, assign P h { m_buffer := some id } (some p) n = .ok (h1, s1)
      ∧ Valid P h1 s1 t ∧ h.later h1
      ∧ (∀ j, j < h.next → j ≠ id → h1.blocks j = h.blocks j)
      ∧ (s1.m_buffer = some id ∨ (s1.m_buffer = some h.next ∧ h1.blocks id = none)) := by
  obtain ⟨hpos, hlt, b, hb, hh⟩ := (Valid_some P h id c).mp hv
  by_cases hcond : n < b.capacity ∧ (p.blk ≠ id ∨ n < p.off)
  · refine ⟨_, _, assign_in_place P h id b p n t hb hh.2.1 hcond.1 hcond.2 hsrc ht, ?_, ?_, ?_, ?_⟩
    · exact Valid_put_same P h id _ t hpos hlt (holds_of_splice P b n t hh.2.1 hh.2.2.2.1 hcond.1 ht)
    · exact ⟨rfl, rfl, le_refl _⟩
    · intro j _ hj
      exact Heap.put_blocks_other _ _ _ _ hj
    · exact Or.inl rfl
  · obtain ⟨b1, has, hh1, _⟩ := assign_fresh P h id b p n t hw hb hcond hfit halloc hp hsrc ht
    have hne : h.next ≠ id := by omega
    refine ⟨_, _, has, ?_, ?_, ?_, ?_⟩
    · refine (Valid_some P _ _ t).mpr ⟨by omega, by simp, b1, ?_, hh1⟩
      rw [Heap.put_blocks_other _ _ _ _ hne]
      simp
    · exact ⟨rfl, rfl, by simp⟩
    · intro j hj hjid
      rw [Heap.put_blocks_other _ _ _ _ hjid, Heap.put_blocks_other _ _ _ _ (by omega)]
      rfl
    · exact Or.inr ⟨rfl, by simp⟩

/-- Assignment to a string that holds no buffer. -/
theorem assign_null (P : Platform) (h : Heap) (p : CharPtr) (n : Nat) (t : List char_type)
    (hw : 5 ≤ P.size_bits)
    (hfit : n + P.members + 32 < 2 ^ P.size_bits) (halloc : h.fails h.next = false)
    (hp : p.blk < h.next) (hsrc : (h.view (some p)).take n = t) (ht : t.length = n)
    (hnf : NulFree t) :
    ∃ h1 s1, assign P h { m_buffer := none } (some p) n = .ok (h1, s1)
      ∧ Valid P h1 s1 t ∧ h.later h1
      ∧ (∀ j, j < h.next → h1.blocks j = h.blocks j)
      ∧ (s1.m_buffer = none ∨ s1.m_buffer = some h.next) := by
  by_cases hn : n = 0
  · subst hn
    have : t = [] := List.length_eq_zero.mp ht
    subst this
    exact ⟨h, { m_buffer := none }, by simp [assign, pure, Except.pure], rfl,
      h.later_refl, fun _ _ => rfl, Or.inl rfl⟩
  · obtain ⟨b1, hal, hh, _⟩ := alloc_buffer_ok P h p n n t hw hfit (le_refl _) halloc hp hsrc ht
    have hlm : traits_type.length_max_null h (some p) n = .ok n :=
      traits_type.length_max_loop_full n _ t hsrc ht hnf
    refine ⟨h.grow.put h.next (some b1), { m_buffer := some h.next }, ?_, ?_,
      ⟨rfl, rfl, by simp⟩, ?_, Or.inr rfl⟩
    · simp [assign, hn, alloc_buffer_cch, hlm, bind, Except.bind, hal, pure, Except.pure]
    · exact (Valid_some P _ _ t).mpr ⟨by omega, by simp, b1, by simp, hh⟩
    · intro j hj
      rw [Heap.put_blocks_other _ _ _ _ (by omega)]
      rfl

/-! ## Appending -/

theorem holds_append (P : Platform) (b : string_buffer) (c t : List char_type) (n : Nat)
    (hh : b.holds P c) (hroom : c.length + n < b.capacity) (ht : t.length = n) :
    string_buffer.holds P
      ⟨b.capacity, c.length + n, (splice b.contents c.length t).set (c.length + n) 0⟩
      (c ++ t) := by
  obtain ⟨_, hcap, _, hlt, htake, _⟩ := hh
  have hsl : (splice b.contents c.length t).length = b.contents.length :=
    splice_length _ _ _ (by omega)
  have hlen : (c ++ t).length = c.length + n := by simp [ht]
  refine ⟨hlen.symm, ?_, ?_, hlt, ?_, ?_⟩
  · show b.capacity = ((splice b.contents c.length t).set (c.length + n) 0).length
    rw [List.length_set, hsl, hcap]
  · show (c ++ t).length < b.capacity
    omega
  · show ((splice b.contents c.length t).set (c.length + n) 0).take (c ++ t).length = c ++ t
    rw [hlen, List.set_take, List.set_eq_of_length_le (by simp)]
    unfold splice
    rw [htake, ← hlen, List.take_left]
  · show ((splice b.contents c.length t).set (c.length + n) 0)[(c ++ t).length]? = some 0
    rw [hlen, List.getElem?_set_self (by rw [hsl]; omega)]

/-- The branch of `append` that has room in the buffer. -/
theorem append_in_place (P : Platform) (h : Heap) (id : Nat) (b : string_buffer)
    (c : List char_type) (p : CharPtr) (n : Nat) (t : List char_type)
    (hb : h.blocks id = some b) (hh : b.holds P c) (hn : 0 < n)
    (hroom : c.length + n < b.capacity) (hsep : p.blk ≠ id ∨ p.off + n ≤ c.length)
    (hsrc : (h.view (some p)).take n = t) (ht : t.length = n) (hnf : NulFree t) :
    append P h { m_buffer := some id } (some p) n
      = .ok (h.put id (some
               ⟨b.capacity, c.length + n, (splice b.contents c.length t).set (c.length + n) 0⟩),
             { m_buffer := some id }) := by
  obtain ⟨hlen, hcap, hlc, hlt, htake, hnul⟩ := hh
  have hlm : traits_type.length_max h p n = .ok n :=
    traits_type.length_max_loop_full n _ t hsrc ht hnf
  have hsub : P.sub b.capacity c.length = b.capacity - c.length :=
    P.sub_eq _ _ hlt (by omega)
  have hwr : P.wrap (1 + n) = 1 + n := P.wrap_eq _ (by omega)
  have hcopy : traits_type.copy n h { blk := id, off := c.length } p
      = .ok (h.put id (some { b with contents := splice b.contents c.length t })) := by
    have := traits_type.copy_ok n h { blk := id, off := c.length } p b t hb hsrc ht
      (by simp; omega) (by
        simp only []
        rcases hsep with h1 | h1
        · exact Or.inl (fun e => h1 e.symm)
        · exact Or.inr (Or.inr h1))
    simpa using this
  have hsl : (splice b.contents c.length t).length = b.contents.length :=
    splice_length _ _ _ (by omega)
  have hwl : P.wrap (c.length + n) = c.length + n := P.wrap_eq _ (by omega)
  have hwrite := Heap.write_ok
    (h.put id (some ⟨b.capacity, c.length + n, splice b.contents c.length t⟩))
    { blk := id, off := c.length + n } 0
    ⟨b.capacity, c.length + n, splice b.contents c.length t⟩
    (by simp) (by simp only [hsl]; omega)
  unfold append
  simp only [if_neg (Nat.pos_iff_ne_zero.mp hn), hlm, bind, Except.bind, Heap.buffer, hb,
    lt_irrefl, ↓reduceIte, hsub, hwr, hlen]
  rw [if_neg (by omega)]
  simp only [pure, Except.pure, hcopy, Heap.put_blocks_same, hlen, hwl, Heap.set_length,
    Heap.put_put, hwrite]

/-- The branch of `append` that has to allocate. -/
theorem append_realloc (P : Platform) (h : Heap) (id : Nat) (b : string_buffer)
    (c : List char_type) (p : CharPtr) (n : Nat) (t : List char_type) (hw : 5 ≤ P.size_bits)
    (hb : h.blocks id = some b) (hh : b.holds P c) (hcnf : NulFree c) (hn : 0 < n)
    (hroom : ¬ c.length + n < b.capacity)
    (hfit : c.length + n + P.members + 32 < 2 ^ P.size_bits) (halloc : h.fails h.next = false)
    (hid : id < h.next) (hp : p.blk < h.next)
    (hsrc : (h.view (some p)).take n = t) (ht : t.length = n) (hnf : NulFree t) :
    ∃ b2, append P h { m_buffer := some id } (some p) n
        = .ok ((h.grow.put h.next (some b2)).put id none, { m_buffer := some h.next })
      ∧ b2.holds P (c ++ t)
      ∧ b2.capacity = (c.length + n + P.members + 32) / 32 * 32 - P.members := by
  have hcont := string_buffer.holds_contents P b c hh
  obtain ⟨hlen, hcap, hlc, hlt, htake, hnul⟩ := hh
  have hlm : traits_type.length_max h p n = .ok n :=
    traits_type.length_max_loop_full n _ t hsrc ht hnf
  have hsub : P.sub b.capacity c.length = b.capacity - c.length :=
    P.sub_eq _ _ hlt (by omega)
  have h32 := P.pow_ge hw
  have hwr : P.wrap (1 + n) = 1 + n := P.wrap_eq _ (by omega)
  have hwl : P.wrap (c.length + n) = c.length + n := P.wrap_eq _ (by omega)
  have hview0 : h.view (some { blk := id, off := 0 }) = b.contents := by
    rw [Heap.view_some h _ b hb]; rfl
  have hlmn : traits_type.length_max_null h (some { blk := id, off := 0 }) (c.length + n)
      = .ok c.length := by
    show traits_type.length_max_loop (h.view (some { blk := id, off := 0 })) (c.length + n) = _
    rw [hview0, hcont]
    exact traits_type.length_max_loop_nul c _ hcnf _ (by omega)
  obtain ⟨b1, hal, hh1, hc1⟩ := alloc_buffer_ok P h { blk := id, off := 0 } (c.length + n)
    c.length c hw hfit (by omega) halloc hid (by rw [hview0]; exact htake) rfl
  have hge : c.length + n + 1 + P.members ≤ (c.length + n + P.members + 32) / 32 * 32 := by omega
  have hroom1 : c.length + n < b1.capacity := by omega
  have hpne : p.blk ≠ h.next := by omega
  have hcopy : traits_type.copy n (h.grow.put h.next (some b1)) { blk := h.next, off := c.length } p
      = .ok (h.grow.put h.next (some { b1 with contents := splice b1.contents c.length t })) := by
    have := traits_type.copy_ok n (h.grow.put h.next (some b1)) { blk := h.next, off := c.length }
      p b1 t (by simp) (by rw [Heap.view_put_other _ _ _ _ hpne]; simpa using hsrc) ht
      (by simp only []; rw [← hh1.2.1]; omega) (Or.inl (by simpa using hpne.symm))
    simpa using this
  have hsl : (splice b1.contents c.length t).length = b1.contents.length :=
    splice_length _ _ _ (by rw [← hh1.2.1]; omega)
  have hwrite := Heap.write_ok
    (h.grow.put h.next (some ⟨b1.capacity, c.length + n, splice b1.contents c.length t⟩))
    { blk := h.next, off := c.length + n } 0
    ⟨b1.capacity, c.length + n, splice b1.contents c.length t⟩
    (by simp) (by simp only [hsl]; rw [← hh1.2.1]; omega)
  refine ⟨_, ?_, holds_append P b1 c t n hh1 hroom1 ht, hc1⟩
  unfold append
  simp only [if_neg (Nat.pos_iff_ne_zero.mp hn), hlm, bind, Except.bind, Heap.buffer, hb,
    lt_irrefl, ↓reduceIte, hsub, hwr, hlen]
  rw [if_pos (by omega)]
  simp only [hwl, alloc_buffer_cch, hlmn, bind, Except.bind, Nat.not_lt.mpr (Nat.le_add_right _ _),
    ↓reduceIte, hal, pure, Except.pure, hcopy, Heap.put_blocks_same, hh1.1, Heap.set_length,
    Heap.put_put, hwrite, destroy_buffer_, Heap.deallocate]

/-- Appending to a valid NUL-free string from a readable NUL-free source that
is outside the string or inside its current content. -/
theorem append_spec (P : Platform) (h : Heap) (x : basic_simple_string) (c : List char_type)
    (p : CharPtr) (n : Nat) (t : List char_type) (hw : 5 ≤ P.size_bits)
    (hv : Valid P h x c) (hcnf : NulFree c)
    (hfit : c.length + n + P.members + 32 < 2 ^ P.size_bits) (halloc : h.fails h.next = false)
    (hp : p.blk < h.next) (hsrc : (h.view (some p)).take n = t) (ht : t.length = n)
    (hnf : NulFree t)
    (hsep : ∀ id, x.m_buffer = some id → p.blk ≠ id ∨ p.off + n ≤ c.length) :
    ∃ h1 x1, append P h x (some p) n = .ok (h1, x1) ∧ Valid P h1 x1 (c ++ t) ∧ h.later h1
      ∧ (∀ j, j < h.next → x.m_buffer ≠ some j → h1.blocks j = h.blocks j)
      ∧ (x1.m_buffer = x.m_buffer ∨ x1.m_buffer = some h.next) := by
  cases x with
  | mk m =>
    cases m with
    | none =>
      have hc : c = [] := (Valid_none P h c).mp hv
      subst hc
      obtain ⟨h1, x1, ha, hv1, hl, hfr, hm⟩ :=
        assign_null P h p n t hw (by simpa using hfit) halloc hp hsrc ht hnf
      refine ⟨h1, x1, ?_, by simpa using hv1, hl, fun j hj _ => hfr j hj, ?_⟩
      · simpa [append] using ha
      · rcases hm with hm | hm
        · exact Or.inl hm
        · exact Or.inr hm
    | some id =>
      obtain ⟨hpos, hlt, b, hb, hh⟩ := (Valid_some P h id c).mp hv
      by_cases hn : n = 0
      · subst hn
        have : t = [] := List.length_eq_zero.mp ht
        subst this
        exact ⟨h, _, by simp [append, pure, Except.pure], by simpa using hv, h.later_refl,
          fun _ _ _ => rfl, Or.inl rfl⟩
      · have hn0 : 0 < n := Nat.pos_of_ne_zero hn
        by_cases hroom : c.length + n < b.capacity
        · refine ⟨_, _, append_in_place P h id b c p n t hb hh hn0 hroom (hsep id rfl) hsrc ht hnf,
            ?_, ⟨rfl, rfl, le_refl _⟩, ?_, Or.inl rfl⟩
          · exact Valid_put_same P h id _ _ hpos hlt (holds_append P b c t n hh hroom ht)
          · intro j _ hj
            exact Heap.put_blocks_other _ _ _ _ (fun e => hj (by rw [e]))
        · obtain ⟨b2, ha, hh2, _⟩ := append_realloc P h id b c p n t hw hb hh hcnf hn0 hroom
            hfit halloc hlt hp hsrc ht hnf
          have hne : h.next ≠ id := by omega
          refine ⟨_, _, ha, ?_, ⟨rfl, rfl, by simp⟩, ?_, Or.inr rfl⟩
          · refine (Valid_some P _ _ _).mpr ⟨by omega, by simp, b2, ?_, hh2⟩
            rw [Heap.put_blocks_other _ _ _ _ hne]
            simp
          · intro j hj hjid
            rw [Heap.put_blocks_other _ _ _ _ (fun e => hjid (by rw [e])),
              Heap.put_blocks_other _ _ _ _ (by omega)]
            rfl

theorem Heap.store_view (h : Heap) (cs : List char_type) :
    (h.store cs).1.view (some (h.store cs).2) = cs := by
  simp [Heap.store, Heap.view]

/-- One `push_back` of a character other than NUL. -/
theorem push_back_spec (P : Platform) (h : Heap) (x : basic_simple_string) (c : List char_type)
    (ch : char_type) (hw : 5 ≤ P.size_bits) (hv : Valid P h x c) (hcnf : NulFree c)
    (hch : ch ≠ 0) (hfit : c.length + 1 + P.members + 32 < 2 ^ P.size_bits)
    (halloc : h.fails (h.next + 1) = false) :
    ∃ h1 x1, push_back P h x ch = .ok (h1, x1) ∧ Valid P h1 x1 (c ++ [ch]) ∧ h.later h1
      ∧ (∀ j, j < h.next → x.m_buffer ≠ some j → h1.blocks j = h.blocks j) := by
  have hnf1 : NulFree [ch] := by
    intro y hy
    rw [List.mem_singleton] at hy
    rw [hy]; exact hch
  have hx : ∀ j, x.m_buffer = some j → j ≠ h.next := by
    intro j hj
    cases x with
    | mk m =>
      simp only at hj
      subst hj
      have := ((Valid_some P h j c).mp hv).2.1
      omega
  have hv0 : Valid P (h.store (List.replicate 1 ch)).1 x c :=
    Valid_put_other P _ x c _ _ (Valid_grow P h x c hv) (fun e => hx _ e rfl)
  obtain ⟨h1, x1, ha, hv1, hl, hfr, hm⟩ := append_spec P (h.store (List.replicate 1 ch)).1 x c
    (h.store (List.replicate 1 ch)).2 1 [ch] hw hv0 hcnf hfit halloc
    (by simp [Heap.store]) (by rw [Heap.store_view]; rfl) rfl hnf1
    (fun id hid => Or.inl (fun e => hx id hid (by simpa [Heap.store] using e.symm)))
  have hx1 : x1.m_buffer ≠ some h.next := by
    rcases hm with hm | hm
    · rw [hm]; exact fun e => hx _ e rfl
    · rw [hm]; simp [Heap.store]
  refine ⟨h1.deallocate h.next, x1, ?_, ?_, ?_, ?_⟩
  · cases x with
    | mk m =>
      cases m with
      | none =>
        have ha' : assign P (h.store (List.replicate 1 ch)).1 { m_buffer := none }
            (some (h.store (List.replicate 1 ch)).2) 1 = .ok (h1, x1) := by
          simpa [append] using ha
        simp only [push_back, append_fill, assign_fill, bind, Except.bind, ha', pure, Except.pure]
        rfl
      | some id =>
        simp only [push_back, append_fill, bind, Except.bind, ha, pure, Except.pure]
        rfl
  · exact Valid_put_other P h1 x1 _ _ _ hv1 hx1
  · exact ⟨hl.1, hl.2.1, by have := hl.2.2; simp [Heap.store] at this; simp [Heap.deallocate]; omega⟩
  · intro j hj hjx
    rw [Heap.deallocate, Heap.put_blocks_other _ _ _ _ (by omega),
      hfr j (by simp [Heap.store]; omega) hjx]
    simp [Heap.store, Heap.put_blocks_other _ _ _ _ (show j ≠ h.next by omega)]

/-! ## Reading a valid string -/

theorem read_of_valid (P : Platform) (h : Heap) (id : Nat) (c : List char_type)
    (hv : Valid P h { m_buffer := some id } c) (i : Nat) (hi : i < c.length) :
    h.read { blk := id, off := i } = .ok (c.get ⟨i, hi⟩) := by
  obtain ⟨_, _, b, hb, hh⟩ := (Valid_some P h id c).mp hv
  have hcont := string_buffer.holds_contents P b c hh
  have hlt : i < b.contents.length := by
    rw [hcont]; simp; omega
  have hget : b.contents[i] = c.get ⟨i, hi⟩ := by
    have h1 : b.contents[i]? = (c ++ 0 :: b.contents.drop (c.length + 1))[i]? := by rw [← hcont]
    rw [List.getElem?_append_left hi, List.getElem?_eq_getElem hlt,
      List.getElem?_eq_getElem hi] at h1
    simpa using h1
  apply Heap.read_ok h _ _ (b.contents.drop (i + 1))
  rw [Heap.view_some h _ b hb]
  show b.contents.drop i = _
  rw [List.drop_eq_getElem_cons hlt, hget]

theorem terminator_of_valid (P : Platform) (h : Heap) (id : Nat) (c : List char_type)
    (hv : Valid P h { m_buffer := some id } c) :
    h.read { blk := id, off := c.length } = .ok 0 := by
  obtain ⟨_, _, b, hb, hh⟩ := (Valid_some P h id c).mp hv
  have hnul := hh.2.2.2.2.2
  rcases List.getElem?_eq_some.mp hnul with ⟨hlt, h0⟩
  apply Heap.read_ok h _ _ (b.contents.drop (c.length + 1))
  rw [Heap.view_some h _ b hb]
  show b.contents.drop c.length = _
  rw [List.drop_eq_getElem_cons hlt, h0]

/-- The characters are at `data()[i]` for `i < size()`. -/
theorem read_at_of_valid (P : Platform) (h : Heap) (x : basic_simple_string)
    (c : List char_type) (hv : Valid P h x c) (i : Nat) (hi : i < c.length) :
    h.read (x.data.add i) = .ok (c.get ⟨i, hi⟩) := by
  cases x with
  | mk m =>
    cases m with
    | none =>
      have hc := (Valid_none P h c).mp hv
      subst hc
      simp at hi
    | some id =>
      have := read_of_valid P h id c hv i hi
      simpa [data, CharPtr.add] using this

/-- The terminator is at `data()[size()]`, also for a string without buffer. -/
theorem terminator_at_size (P : Platform) (h : Heap) (x : basic_simple_string)
    (c : List char_type) (hv : Valid P h x c) (hwf : h.wf) :
    h.read (x.data.add c.length) = .ok 0 := by
  cases x with
  | mk m =>
    cases m with
    | none =>
      rw [(Valid_none P h c).mp hv]
      obtain ⟨_, b, hb, hc⟩ := hwf
      apply Heap.read_ok h _ _ []
      simp [data, empty_string_, CharPtr.add, Heap.view, hb, hc]
    | some id =>
      have := terminator_of_valid P h id c hv
      simpa [data, CharPtr.add] using this

/-! ## Construction from a C string -/

theorem ctor_cstr_spec (P : Platform) (h : Heap) (p : CharPtr) (s rest : List char_type)
    (hw : 5 ≤ P.size_bits) (hs : h.view (some p) = s ++ 0 :: rest) (hnf : NulFree s)
    (hp : p.blk < h.next) (halloc : h.fails h.next = false)
    (hfit : s.length + P.members + 32 < 2 ^ P.size_bits) :
    ∃ b, ctor_cstr P h (some p) = .ok (h.grow.put h.next (some b), { m_buffer := some h.next })
      ∧ b.holds P s ∧ b.capacity = (s.length + P.members + 32) / 32 * 32 - P.members := by
  have hlen : traits_type.length h p = .ok s.length := by
    unfold traits_type.length
    rw [hs]
    exact traits_type.length_loop_ok s rest hnf
  obtain ⟨b, hal, hh, hc⟩ := alloc_buffer_ok P h p s.length s.length s hw hfit (le_refl _)
    halloc hp (by rw [hs]; simp) rfl
  exact ⟨b, by simp [ctor_cstr, alloc_buffer_cstr, hlen, hal, bind, Except.bind, pure, Except.pure],
    hh, hc⟩

/-- The example heap `heap_str` is what the constructor makes of "abc": the
same string handle, the same buffer block and the same next block number. -/
theorem heap_str_constructed :
    ∃ h1, ctor_cstr lp64 heap_abc (some ptr_abc) = .ok (h1, str_abc) ∧
      h1.blocks 2 = heap_str.blocks 2 ∧ h1.blocks 1 = heap_str.blocks 1 ∧
      h1.next = heap_str.next :=
  ⟨_, rfl, rfl, rfl, rfl⟩

/-- C1. Round trip of construction from a C string: if `p` points to the
characters `s` followed by a NUL, `s` holding no NUL, then (the allocation
succeeding and `len(s)` plus the header and rounding not wrapping) the string
constructed from `p` has `size() == len(s)`, `data()[i] == s[i]` for every
`i < len(s)` and the NUL at `data()[len(s)]`; constructing from the null
pointer allocates nothing and gives the empty string. -/
theorem C1_ctor_cstr_round_trip (P : Platform) (h : Heap) (p : CharPtr)
    (s rest : List char_type) (hw : 5 ≤ P.size_bits)
    (hs : h.view (some p) = s ++ 0 :: rest) (hnf : NulFree s)
    (hp : p.blk < h.next) (halloc : h.fails h.next = false)
    (hfit : s.length + P.members + 32 < 2 ^ P.size_bits) :
    (∃ h1 x, ctor_cstr P h (some p) = .ok (h1, x) ∧ Valid P h1 x s ∧
      x.size h1 = .ok s.length ∧
      (∀ i (hi : i < s.length), h1.read (x.data.add i) = .ok (s.get ⟨i, hi⟩)) ∧
      h1.read (x.data.add s.length) = .ok 0) ∧
    (∃ x, ctor_cstr P h none = .ok (h, x) ∧ x.m_buffer = none ∧ x.size h = .ok 0 ∧
      content h x = .ok []) := by
  constructor
  · obtain ⟨b, hc, hh, _⟩ := ctor_cstr_spec P h p s rest hw hs hnf hp halloc hfit
    have hv : Valid P (h.grow.put h.next (some b)) { m_buffer := some h.next } s :=
      (Valid_some P _ _ s).mpr ⟨by omega, by simp, b, by simp, hh⟩
    refine ⟨_, _, hc, hv, size_of_valid P _ _ s hv, ?_, ?_⟩
    · intro i hi
      exact read_at_of_valid P _ _ s hv i hi
    · have := terminator_of_valid P _ _ s hv
      simpa [data, CharPtr.add] using this
  · exact ⟨{ m_buffer := none }, rfl, rfl, rfl, rfl⟩

/-- C1 at "abc" on LP64. -/
theorem C1_ctor_cstr_round_trip_witness :
    ∃ h1 x, ctor_cstr lp64 heap_abc (some ptr_abc) = .ok (h1, x) ∧
      Valid lp64 h1 x [97, 98, 99] ∧ x.size h1 = .ok 3 :=
  let ⟨h1, x, hc, hv, hsz, _⟩ :=
    (C1_ctor_cstr_round_trip lp64 heap_abc ptr_abc [97, 98, 99] [] (by decide) rfl (by decide)
      (by decide) rfl (by decide)).1
  ⟨h1, x, hc, hv, hsz⟩

/-! ## `push_back` in a row -/

theorem push_back_all_spec (P : Platform) (hw : 5 ≤ P.size_bits) (cs : List char_type) :
    ∀ (h : Heap) (x : basic_simple_string) (c : List char_type),
    Valid P h x c → NulFree c → NulFree cs → (∀ k, h.fails k = false) →
    c.length + cs.length + P.members + 32 < 2 ^ P.size_bits →
    ∃ h1 x1, push_back_all P cs h x = .ok (h1, x1) ∧ Valid P h1 x1 (c ++ cs) ∧ h.later h1 := by
  induction cs with
  | nil =>
    intro h x c hv _ _ _ _
    exact ⟨h, x, rfl, by simpa using hv, h.later_refl⟩
  | cons ch cs ih =>
    intro h x c hv hcnf hnf halloc hfit
    have hch : ch ≠ 0 := hnf ch (by simp)
    have hnf1 : NulFree cs := fun y hy => hnf y (by simp [hy])
    obtain ⟨h1, x1, hpb, hv1, hl, _⟩ := push_back_spec P h x c ch hw hv hcnf hch
      (by simp at hfit; omega) (halloc _)
    have hcnf1 : NulFree (c ++ [ch]) := by
      intro y hy
      rcases List.mem_append.mp hy with hy | hy
      · exact hcnf y hy
      · rw [List.mem_singleton] at hy; rw [hy]; exact hch
    obtain ⟨h2, x2, hpa, hv2, hl2⟩ := ih h1 x1 (c ++ [ch]) hv1 hcnf1 hnf1
      (fun k => by rw [hl.1]; exact halloc k) (by simp at hfit ⊢; omega)
    refine ⟨h2, x2, ?_, by simpa using hv2, h.later_trans h1 h2 hl hl2⟩
    simp only [push_back_all, hpb, bind, Except.bind, hpa]

/-- C2, as it fails. One `push_back` of the NUL character on a
default-constructed string leaves `size() == 0`, not `1`. -/
theorem C2_push_back_nul_counterexample :
    (push_back lp64 heap0 ctor_default 0 >>= fun r => r.2.size r.1) = .ok 0 ∧
    (push_back lp64 heap0 ctor_default 0 >>= fun r => r.2.size r.1) ≠ .ok 1 := by
  have h : (push_back lp64 heap0 ctor_default 0 >>= fun r => r.2.size r.1) = .ok 0 := rfl
  refine ⟨h, ?_⟩
  rw [h]
  intro e
  cases e

/-- C2, amended. Append growth: for every finite sequence `cs` of characters
other than NUL, `push_back` of each of them in turn on a default-constructed
string results in `size() == len(cs)` and content `cs` (allocations
succeeding, sizes not wrapping), whatever reallocations happen on the way. -/
theorem C2_push_back_growth (P : Platform) (h : Heap) (cs : List char_type)
    (hw : 5 ≤ P.size_bits) (hnf : NulFree cs) (halloc : ∀ k, h.fails k = false)
    (hfit : cs.length + P.members + 32 < 2 ^ P.size_bits) :
    ∃ h1 x1, push_back_all P cs h ctor_default = .ok (h1, x1) ∧
      x1.size h1 = .ok cs.length ∧ content h1 x1 = .ok cs := by
  obtain ⟨h1, x1, hp, hv, _⟩ := push_back_all_spec P hw cs h ctor_default [] rfl
    (fun _ hy => by simp at hy) hnf halloc (by simpa using hfit)
  rw [List.nil_append] at hv
  exact ⟨h1, x1, hp, size_of_valid P h1 x1 cs hv, content_of_valid P h1 x1 cs hv⟩

/-- C2 (amended) at the two characters "AB" on LP64. -/
theorem C2_push_back_growth_witness :
    ∃ h1 x1, push_back_all lp64 [65, 66] heap0 ctor_default = .ok (h1, x1) ∧
      x1.size h1 = .ok 2 ∧ content h1 x1 = .ok [65, 66] :=
  C2_push_back_growth lp64 heap0 [65, 66] (by decide) (by decide) (fun _ => rfl) (by decide)

/-! ## The claims on `append` and `assign` -/

/-- C3. General append: for a string `x` with NUL-free content `c` and a
NUL-free source `t` of `n` characters at `p`, outside the buffer of `x`, after
`x.append(p, n)` the size is `len(c) + n`, the content is `c` followed by `t`
and the terminator is at the new size (allocation succeeding when one is
needed, sizes not wrapping).  The two branches are `append_in_place` and
`append_realloc`. -/
theorem C3_append_general (P : Platform) (h : Heap) (x : basic_simple_string)
    (c : List char_type) (p : CharPtr) (n : Nat) (t : List char_type)
    (hw : 5 ≤ P.size_bits) (hwf : h.wf) (hv : Valid P h x c) (hcnf : NulFree c)
    (hp : p.blk < h.next) (hsrc : (h.view (some p)).take n = t) (ht : t.length = n)
    (hnf : NulFree t) (halias : ∀ id, x.m_buffer = some id → p.blk ≠ id)
    (hfit : c.length + n + P.members + 32 < 2 ^ P.size_bits)
    (halloc : h.fails h.next = false) :
    ∃ h1 x1, append P h x (some p) n = .ok (h1, x1) ∧
      x1.size h1 = .ok (c.length + n) ∧ content h1 x1 = .ok (c ++ t) ∧
      h1.read (x1.data.add (c.length + n)) = .ok 0 := by
  obtain ⟨h1, x1, ha, hv1, hl, hfr, _⟩ := append_spec P h x c p n t hw hv hcnf hfit halloc hp
    hsrc ht hnf (fun id hid => Or.inl (halias id hid))
  have hwf1 : h1.wf := by
    obtain ⟨h0, b, hb, hc⟩ := hwf
    refine ⟨lt_of_lt_of_le h0 hl.2.2, b, ?_, hc⟩
    rw [hfr 0 h0 ?_]
    · exact hb
    · intro e
      cases x with
      | mk m =>
        simp only at e
        subst e
        have := ((Valid_some P h 0 c).mp hv).1
        omega
  have hsz := size_of_valid P h1 x1 _ hv1
  have htm := terminator_at_size P h1 x1 _ hv1 hwf1
  simp only [List.length_append, ht] at hsz htm
  exact ⟨h1, x1, ha, hsz, content_of_valid P h1 x1 _ hv1, htm⟩

/-- C3 on LP64: "abc" appended to the string "abc" from the caller's array. -/
theorem C3_append_general_witness :
    ∃ h1 x1, append lp64 heap_str str_abc (some ptr_abc) 3 = .ok (h1, x1) ∧
      x1.size h1 = .ok (3 + 3) ∧ content h1 x1 = .ok ([97, 98, 99] ++ [97, 98, 99]) ∧
      h1.read (x1.data.add (3 + 3)) = .ok 0 :=
  C3_append_general lp64 heap_str str_abc [97, 98, 99] ptr_abc 3 [97, 98, 99] (by decide)
    ⟨by decide, _, rfl, rfl⟩ (by decide) (by decide) (by decide) rfl rfl (by decide)
    (fun id hid e => by cases hid; cases e) (by decide) rfl

theorem view_data_of_valid (P : Platform) (h : Heap) (id : Nat) (c : List char_type)
    (hv : Valid P h { m_buffer := some id } c) (k n : Nat) (hkn : k + n ≤ c.length) :
    (h.view (some { blk := id, off := k })).take n = (c.drop k).take n := by
  obtain ⟨_, _, b, hb, hh⟩ := (Valid_some P h id c).mp hv
  have hcont := string_buffer.holds_contents P b c hh
  rw [Heap.view_some h _ b hb]
  show (b.contents.drop k).take n = _
  rw [hcont, List.drop_append_of_le_length (by omega),
    List.take_append_of_le_length (by simp; omega)]

/-- C4. Self-assign safety: for every non-empty string `s` with content `c`,
`s.assign(s.data(), s.size())` leaves `size()` and the content `c` unchanged
(the allocation it makes succeeding, sizes not wrapping). -/
theorem C4_self_assign (P : Platform) (h : Heap) (x : basic_simple_string)
    (c : List char_type) (hw : 5 ≤ P.size_bits) (hv : Valid P h x c) (hne : c ≠ [])
    (hfit : c.length + P.members + 32 < 2 ^ P.size_bits) (halloc : h.fails h.next = false) :
    ∃ h1 x1, (x.size h >>= fun n => assign P h x (some x.data) n) = .ok (h1, x1) ∧
      x1.size h1 = .ok c.length ∧ content h1 x1 = .ok c := by
  cases x with
  | mk m =>
    cases m with
    | none => exact absurd ((Valid_none P h c).mp hv) hne
    | some id =>
      have hlt := ((Valid_some P h id c).mp hv).2.1
      have hsrc := view_data_of_valid P h id c hv 0 c.length (by omega)
      rw [List.drop_zero, List.take_length] at hsrc
      obtain ⟨h1, x1, ha, hv1, _⟩ := assign_held P h id c { blk := id, off := 0 } c.length c hw hv
        hfit halloc hlt hsrc rfl
      refine ⟨h1, x1, ?_, size_of_valid P h1 x1 c hv1, content_of_valid P h1 x1 c hv1⟩
      rw [size_of_valid P h _ c hv]
      exact ha

/-- C4 on LP64 at the string "abc". -/
theorem C4_self_assign_witness :
    ∃ h1 x1, (str_abc.size heap_str >>= fun n =>
        assign lp64 heap_str str_abc (some str_abc.data) n) = .ok (h1, x1) ∧
      x1.size h1 = .ok 3 ∧ content h1 x1 = .ok [97, 98, 99] :=
  C4_self_assign lp64 heap_str str_abc [97, 98, 99] (by decide) (by decide) (by decide)
    (by decide) rfl

/-- C5. Assign from a sub-range of the string's own buffer: for a string `s`
with content `c` and `k + n <= len(c)`, `s.assign(s.data() + k, n)` leaves `s`
with `size() == n` and the old characters at positions `k .. k+n-1`; and when
the source pointer lies in `[contents, contents + n]` (that is `k <= n`) the
overlap test sends the call to the allocating branch: the result is a new
block and the old one is released only after the copy. -/
theorem C5_assign_own_subrange (P : Platform) (h : Heap) (x : basic_simple_string)
    (c : List char_type) (k n : Nat) (hw : 5 ≤ P.size_bits) (hv : Valid P h x c)
    (hkn : k + n ≤ c.length)
    (hfit : n + P.members + 32 < 2 ^ P.size_bits) (halloc : h.fails h.next = false) :
    ∃ h1 x1, assign P h x (some (x.data.add k)) n = .ok (h1, x1) ∧
      x1.size h1 = .ok n ∧ content h1 x1 = .ok ((c.drop k).take n) ∧
      (∀ id, x.m_buffer = some id → k ≤ n →
        x1.m_buffer = some h.next ∧ h1.blocks id = none ∧ h1.next = h.next + 1) := by
  have hlen : ((c.drop k).take n).length = n := by simp; omega
  cases x with
  | mk m =>
    cases m with
    | none =>
      have hc := (Valid_none P h c).mp hv
      subst hc
      have hn : n = 0 := by simp at hkn; exact hkn.2
      subst hn
      exact ⟨h, { m_buffer := none }, rfl, rfl, by simp [content, size, bind, Except.bind, pure,
        Except.pure], fun id hid => by cases hid⟩
    | some id =>
      obtain ⟨hpos, hlt, b, hb, hh⟩ := (Valid_some P h id c).mp hv
      have hsrc := view_data_of_valid P h id c hv k n hkn
      have hdata : (basic_simple_string.mk (some id)).data.add k = { blk := id, off := k } := by
        simp [data, CharPtr.add]
      rw [hdata]
      by_cases hk : k ≤ n
      · obtain ⟨b1, ha, hh1, _⟩ := assign_fresh P h id b { blk := id, off := k } n _ hw hb
          (by simp only [ne_eq, not_true_eq_false, false_or, not_and, not_lt]; intro _; exact hk)
          hfit halloc hlt hsrc hlen
        have hv1 : Valid P ((h.grow.put h.next (some b1)).put id none)
            { m_buffer := some h.next } ((c.drop k).take n) := by
          refine (Valid_some P _ _ _).mpr ⟨by omega, by simp, b1, ?_, hh1⟩
          rw [Heap.put_blocks_other _ _ _ _ (by omega)]
          simp
        have hsz := size_of_valid P _ _ _ hv1
        rw [hlen] at hsz
        exact ⟨_, _, ha, hsz, content_of_valid P _ _ _ hv1,
          fun j hj _ => by
            cases hj
            exact ⟨rfl, Heap.put_blocks_same _ _ _, rfl⟩⟩
      · obtain ⟨h1, x1, ha, hv1, _⟩ := assign_held P h id c { blk := id, off := k } n _ hw hv
          hfit halloc hlt hsrc hlen
        have hsz := size_of_valid P _ _ _ hv1
        rw [hlen] at hsz
        exact ⟨h1, x1, ha, hsz, content_of_valid P _ _ _ hv1, fun _ _ hk2 => absurd hk2 hk⟩

/-- C5 on LP64: the string "abc" assigned from its own characters 1 .. 2. -/
theorem C5_assign_own_subrange_witness :
    ∃ h1 x1, assign lp64 heap_str str_abc (some (str_abc.data.add 1)) 2 = .ok (h1, x1) ∧
      x1.size h1 = .ok 2 ∧ content h1 x1 = .ok [98, 99] ∧
      x1.m_buffer = some 3 ∧ h1.blocks 2 = none :=
  let ⟨h1, x1, ha, hsz, hc, hf⟩ :=
    C5_assign_own_subrange lp64 heap_str str_abc [97, 98, 99] 1 2 (by decide) (by decide)
      (by decide) (by decide) rfl
  ⟨h1, x1, ha, hsz, hc, (hf 2 rfl (by decide)).1, (hf 2 rfl (by decide)).2.1⟩

/-- C6. Self-append: for a non-empty string `s` with NUL-free content `c`,
after `s.append(s)` the size is `2 * len(c)` and the content is `c` followed by
`c`.  When `2 * len(c)` is below the capacity the buffer is kept; otherwise a
new block is made, the source is copied out of the old block while that is
still live, and the old block is released afterwards. -/
theorem C6_self_append (P : Platform) (h : Heap) (x : basic_simple_string)
    (c : List char_type) (hw : 5 ≤ P.size_bits) (hv : Valid P h x c) (hne : c ≠ [])
    (hcnf : NulFree c) (hfit : c.length + c.length + P.members + 32 < 2 ^ P.size_bits)
    (halloc : h.fails h.next = false) :
    ∃ h1 x1, append_str P h x x = .ok (h1, x1) ∧
      x1.size h1 = .ok (2 * c.length) ∧ content h1 x1 = .ok (c ++ c) ∧
      (∀ id b, x.m_buffer = some id → h.blocks id = some b →
        (c.length + c.length < b.capacity → x1 = x ∧ h1.next = h.next) ∧
        (¬ c.length + c.length < b.capacity →
          x1.m_buffer = some h.next ∧ h1.blocks id = none ∧ h1.next = h.next + 1)) := by
  cases x with
  | mk m =>
    cases m with
    | none => exact absurd ((Valid_none P h c).mp hv) hne
    | some id =>
      obtain ⟨hpos, hlt, b, hb, hh⟩ := (Valid_some P h id c).mp hv
      have hsrc := view_data_of_valid P h id c hv 0 c.length (by omega)
      rw [List.drop_zero, List.take_length] at hsrc
      have hn0 : 0 < c.length := List.length_pos.mpr hne
      have hcall : append_str P h { m_buffer := some id } { m_buffer := some id }
          = append P h { m_buffer := some id } (some { blk := id, off := 0 }) c.length := by
        have hsz : length h { m_buffer := some id } = .ok c.length := size_of_valid P h _ c hv
        simp [append_str, hsz, bind, Except.bind, char_pointer_from_member_pointer_]
      rw [hcall]
      by_cases hroom : c.length + c.length < b.capacity
      · have ha := append_in_place P h id b c { blk := id, off := 0 } c.length c hb hh hn0 hroom
          (Or.inr (by simp)) hsrc rfl hcnf
        have hv1 := Valid_put_same P h id _ _ hpos hlt (holds_append P b c c c.length hh hroom rfl)
        have hsz := size_of_valid P _ _ _ hv1
        rw [show (c ++ c).length = 2 * c.length by simp; omega] at hsz
        refine ⟨_, _, ha, hsz, content_of_valid P _ _ _ hv1, ?_⟩
        intro j b' hj hb'
        cases hj
        rw [hb] at hb'
        cases hb'
        exact ⟨fun _ => ⟨rfl, rfl⟩, fun hc => absurd hroom hc⟩
      · obtain ⟨b2, ha, hh2, _⟩ := append_realloc P h id b c { blk := id, off := 0 } c.length c
          hw hb hh hcnf hn0 hroom hfit halloc hlt hlt hsrc rfl hcnf
        have hv1 : Valid P ((h.grow.put h.next (some b2)).put id none)
            { m_buffer := some h.next } (c ++ c) := by
          refine (Valid_some P _ _ _).mpr ⟨by omega, by simp, b2, ?_, hh2⟩
          rw [Heap.put_blocks_other _ _ _ _ (by omega)]
          simp
        have hsz := size_of_valid P _ _ _ hv1
        rw [show (c ++ c).length = 2 * c.length by simp; omega] at hsz
        refine ⟨_, _, ha, hsz, content_of_valid P _ _ _ hv1, ?_⟩
        intro j b' hj hb'
        cases hj
        rw [hb] at hb'
        cases hb'
        exact ⟨fun hc => absurd hc hroom, fun _ => ⟨rfl, Heap.put_blocks_same _ _ _, rfl⟩⟩

/-- C6 on LP64 at the string "abc", which has room for the append. -/
theorem C6_self_append_witness :
    ∃ h1 x1, append_str lp64 heap_str str_abc str_abc = .ok (h1, x1) ∧
      x1.size h1 = .ok (2 * 3) ∧ content h1 x1 = .ok ([97, 98, 99] ++ [97, 98, 99]) :=
  let ⟨h1, x1, ha, hsz, hc, _⟩ :=
    C6_self_append lp64 heap_str str_abc [97, 98, 99] (by decide) (by decide) (by decide)
      (by decide) (by decide) rfl
  ⟨h1, x1, ha, hsz, hc⟩

/-- C10. Checked element access: for a string with content `c` and any index
`i`, `at(i)` throws `out_of_range` exactly when `i >= size()`, and otherwise
returns the character at position `i`. -/
theorem C10_at_checked (P : Platform) (h : Heap) (x : basic_simple_string)
    (c : List char_type) (i : Nat) (hv : Valid P h x c) :
    (at_ h x i = .error .out_of_range ↔ c.length ≤ i) ∧
    (∀ hi : i < c.length, at_ h x i = .ok (c.get ⟨i, hi⟩)) := by
  have hsz := size_of_valid P h x c hv
  have hget : ∀ hi : i < c.length, at_ h x i = .ok (c.get ⟨i, hi⟩) := by
    intro hi
    cases x with
    | mk m =>
      cases m with
      | none =>
        have hc := (Valid_none P h c).mp hv
        subst hc
        simp at hi
      | some id =>
        have hr := read_of_valid P h id c hv i hi
        simp only [at_, hsz, bind, Except.bind, ge_iff_le, if_neg (Nat.not_le.mpr hi),
          ptr_add, char_pointer_from_member_pointer_, Option.map, CharPtr.add, Nat.zero_add]
        exact hr
  refine ⟨⟨?_, ?_⟩, hget⟩
  · intro he
    by_contra hlt
    rw [hget (Nat.lt_of_not_le hlt)] at he
    cases he
  · intro hle
    simp only [at_, hsz, bind, Except.bind, ge_iff_le, if_pos hle]
    rfl

/-- C10 on LP64 at the string "abc": index 3 throws, index 1 gives `b`. -/
theorem C10_at_checked_witness :
    at_ heap_str str_abc 3 = .error .out_of_range ∧ at_ heap_str str_abc 1 = .ok 98 :=
  ⟨(C10_at_checked lp64 heap_str str_abc [97, 98, 99] 3 (by decide)).1.mpr (by decide),
   (C10_at_checked lp64 heap_str str_abc [97, 98, 99] 1 (by decide)).2 (by decide)⟩

/-! ## Comparison -/

theorem compare_loop_common (A : List char_type) : ∀ (B ra rb : List char_type),
    traits_type.compare_loop (A ++ ra) (B ++ rb) (min A.length B.length)
      = .ok (first_diff A B) := by
  induction A with
  | nil =>
    intro B ra rb
    cases B <;> simp [traits_type.compare_loop, first_diff]
  | cons a A ih =>
    intro B ra rb
    cases B with
    | nil => simp [traits_type.compare_loop, first_diff]
    | cons b B =>
      have hmin : min (a :: A).length (b :: B).length = min A.length B.length + 1 := by
        simp only [List.length_cons]
        omega
      rw [hmin]
      simp only [List.cons_append, traits_type.compare_loop, first_diff]
      by_cases hab : a = b
      · simp only [hab, ↓reduceIte]
        exact ih B ra rb
      · simp only [hab, ↓reduceIte]

theorem first_diff_range (A B : List char_type) :
    first_diff A B = -1 ∨ first_diff A B = 0 ∨ first_diff A B = 1 := by
  induction A generalizing B with
  | nil => right; left; cases B <;> rfl
  | cons a A ih =>
    cases B with
    | nil => right; left; rfl
    | cons b B =>
      simp only [first_diff]
      by_cases hab : a = b
      · simp only [hab, ↓reduceIte]; exact ih B
      · simp only [hab, ↓reduceIte]
        by_cases hlt : a < b
        · simp [hlt]
        · simp [hlt]

theorem sgn_neg (z : Int) (h : z < 0) : sgn z = -1 := by
  simp [sgn, h]

theorem sgn_pos (z : Int) (h : 0 < z) : sgn z = 1 := by
  have h1 : ¬ z < 0 := by omega
  have h2 : ¬ z = 0 := by omega
  simp [sgn, h1, h2]

theorem sgn_zero : sgn 0 = 0 := rfl

theorem lex_sign_eq (A B : List char_type) :
    lex_sign A B = if first_diff A B = 0 then sgn ((A.length : Int) - B.length)
      else first_diff A B := by
  induction A generalizing B with
  | nil =>
    cases B with
    | nil => simp [lex_sign, first_diff, sgn]
    | cons b B =>
      simp only [lex_sign, first_diff, List.length_nil, List.length_cons, ↓reduceIte]
      rw [sgn_neg _ (by omega)]
  | cons a A ih =>
    cases B with
    | nil =>
      simp only [lex_sign, first_diff, List.length_nil, List.length_cons, ↓reduceIte]
      rw [sgn_pos _ (by omega)]
    | cons b B =>
      simp only [lex_sign, first_diff]
      by_cases hab : a = b
      · simp only [hab, ↓reduceIte]
        rw [ih B]
        have : ((b :: A).length : Int) - ((b :: B).length : Int) = (A.length : Int) - B.length := by
          simp only [List.length_cons]
          omega
        rw [this]
      · simp only [hab, ↓reduceIte]
        by_cases hlt : a < b
        · simp [hlt]
        · simp [hlt]

theorem Platform.to_int_small (P : Platform) (z : Int) (hi : 0 < P.int_bits)
    (h1 : -(2 : Int) ^ (P.int_bits - 1) ≤ z) (h2 : z < (2 : Int) ^ (P.int_bits - 1)) :
    P.to_int z = z := by
  have hpow : (2 : Int) ^ P.int_bits = 2 * (2 : Int) ^ (P.int_bits - 1) := by
    have : P.int_bits = (P.int_bits - 1) + 1 := by omega
    conv => lhs; rw [this, pow_succ]
    ring
  have hpos : (0 : Int) < (2 : Int) ^ (P.int_bits - 1) := by positivity
  unfold Platform.to_int
  simp only
  by_cases hz : 0 ≤ z
  · have hm : z % (2 : Int) ^ P.int_bits = z := Int.emod_eq_of_lt hz (by omega)
    rw [hm, if_pos h2]
  · have hm : z % (2 : Int) ^ P.int_bits = z + (2 : Int) ^ P.int_bits := by
      have : z % (2 : Int) ^ P.int_bits = (z + (2 : Int) ^ P.int_bits) % (2 : Int) ^ P.int_bits := by
        simp
      rw [this]
      exact Int.emod_eq_of_lt (by omega) (by omega)
    rw [hm, if_neg (by omega)]
    omega

/-- The function `compare_` on two readable ranges: the first difference
decides, and without one the result is the difference of the two lengths, each
converted to `ss_int_t`. -/
theorem compare__spec (P : Platform) (h : Heap) (lhs rhs : Option CharPtr) (A B : List char_type)
    (ra rb : List char_type) (hl : h.view lhs = A ++ ra) (hr : h.view rhs = B ++ rb) :
    compare_ P h lhs A.length rhs B.length
      = .ok (if first_diff A B = 0 then
               P.to_int (P.to_int (A.length : Int) - P.to_int (B.length : Int))
             else first_diff A B) := by
  have hmin : (if A.length < B.length then A.length else B.length) = min A.length B.length := by
    by_cases hlt : A.length < B.length
    · rw [if_pos hlt]; omega
    · rw [if_neg hlt]; omega
  unfold compare_
  simp only [hmin, traits_type.compare, hl, hr, compare_loop_common, bind, Except.bind]
  by_cases hfd : first_diff A B = 0
  · simp [hfd, pure, Except.pure]
  · simp [hfd, pure, Except.pure]

/-- For lengths that fit the positive range of `ss_int_t` the result of
`compare_` has the sign of the prefix-then-length comparison. -/
theorem compare__sign (P : Platform) (h : Heap) (lhs rhs : Option CharPtr) (A B : List char_type)
    (ra rb : List char_type) (hl : h.view lhs = A ++ ra) (hr : h.view rhs = B ++ rb)
    (hi : 0 < P.int_bits) (hA : (A.length : Int) < (2 : Int) ^ (P.int_bits - 1))
    (hB : (B.length : Int) < (2 : Int) ^ (P.int_bits - 1)) :
    ∃ z, compare_ P h lhs A.length rhs B.length = .ok z ∧ sgn z = lex_sign A B := by
  refine ⟨_, compare__spec P h lhs rhs A B ra rb hl hr, ?_⟩
  have hpos : (0 : Int) < (2 : Int) ^ (P.int_bits - 1) := by positivity
  have e1 : P.to_int (A.length : Int) = A.length := P.to_int_small _ hi (by omega) hA
  have e2 : P.to_int (B.length : Int) = B.length := P.to_int_small _ hi (by omega) hB
  have e3 : P.to_int ((A.length : Int) - B.length) = (A.length : Int) - B.length :=
    P.to_int_small _ hi (by omega) (by omega)
  rw [e1, e2, e3, lex_sign_eq]
  by_cases hfd : first_diff A B = 0
  · simp only [hfd, ↓reduceIte]
  · simp only [hfd, ↓reduceIte]
    rcases first_diff_range A B with h1 | h1 | h1
    · rw [h1]; rfl
    · exact absurd h1 hfd
    · rw [h1]; rfl

theorem view_member_of_valid (P : Platform) (h : Heap) (x : basic_simple_string)
    (c : List char_type) (hv : Valid P h x c) :
    ∃ r, h.view (char_pointer_from_member_pointer_ x.m_buffer) = c ++ r := by
  cases x with
  | mk m =>
    cases m with
    | none => exact ⟨[], by rw [(Valid_none P h c).mp hv]; rfl⟩
    | some id =>
      obtain ⟨rest, hr⟩ := view_of_valid P h id c hv
      exact ⟨0 :: rest, hr⟩

theorem view_member_drop (P : Platform) (h : Heap) (x : basic_simple_string)
    (c : List char_type) (hv : Valid P h x c) (pos : Nat) (hpos : pos ≤ c.length) :
    ∃ r, h.view (ptr_add (char_pointer_from_member_pointer_ x.m_buffer) pos) = c.drop pos ++ r := by
  cases x with
  | mk m =>
    cases m with
    | none =>
      have hc := (Valid_none P h c).mp hv
      subst hc
      exact ⟨[], by simp [ptr_add, char_pointer_from_member_pointer_, Heap.view]⟩
    | some id =>
      obtain ⟨_, _, b, hb, hh⟩ := (Valid_some P h id c).mp hv
      have hcont := string_buffer.holds_contents P b c hh
      refine ⟨0 :: b.contents.drop (c.length + 1), ?_⟩
      simp only [ptr_add, char_pointer_from_member_pointer_, Option.map, CharPtr.add, Heap.view,
        hb, Nat.zero_add]
      conv => lhs; rw [hcont]
      rw [List.drop_append_of_le_length hpos]

/-- The method `compare(rhs)` on two valid strings whose lengths fit the
positive range of `ss_int_t`: the sign of the result is that of the
prefix-then-length comparison of the contents. -/
theorem compare_small (P : Platform) (h : Heap) (a b : basic_simple_string)
    (ca cb : List char_type) (hva : Valid P h a ca) (hvb : Valid P h b cb)
    (hi : 0 < P.int_bits) (hA : (ca.length : Int) < (2 : Int) ^ (P.int_bits - 1))
    (hB : (cb.length : Int) < (2 : Int) ^ (P.int_bits - 1)) :
    ∃ z, basic_simple_string.compare P h a b = .ok z ∧ sgn z = lex_sign ca cb := by
  obtain ⟨ra, hra⟩ := view_member_of_valid P h a ca hva
  obtain ⟨rb, hrb⟩ := view_member_of_valid P h b cb hvb
  obtain ⟨z, hz, hs⟩ := compare__sign P h _ _ ca cb ra rb hra hrb hi hA hB
  refine ⟨z, ?_, hs⟩
  have h1 : a.length h = .ok ca.length := size_of_valid P h a ca hva
  have h2 : b.length h = .ok cb.length := size_of_valid P h b cb hvb
  simp only [basic_simple_string.compare, h1, h2, bind, Except.bind]
  exact hz

theorem clamped_inside (c : List char_type) (pos cch : Nat) (hpos : pos ≤ c.length) :
    clamped c pos cch = (c.drop pos).take (min cch (c.length - pos)) := by
  unfold clamped
  rw [Nat.min_eq_left hpos]

/-- The method `compare(pos, cch, rhs)` with `pos` inside the string: the
result has the sign of the prefix-then-length comparison of the clamped range
with the C string. -/
theorem compare_pos_cstr_inside (P : Platform) (h : Heap) (x : basic_simple_string)
    (c : List char_type) (pos cch : Nat) (q : CharPtr) (r rest : List char_type)
    (hv : Valid P h x c) (hpos : pos < c.length)
    (hq : h.view (some q) = r ++ 0 :: rest) (hr : NulFree r)
    (hi : 0 < P.int_bits) (hA : (c.length : Int) < (2 : Int) ^ (P.int_bits - 1))
    (hB : (r.length : Int) < (2 : Int) ^ (P.int_bits - 1)) :
    ∃ z, compare_pos_cstr P h x pos cch (some q) = .ok z ∧
      sgn z = lex_sign (clamped c pos cch) r := by
  have hlt : c.length < 2 ^ P.size_bits := by
    cases x with
    | mk m =>
      cases m with
      | none => rw [(Valid_none P h c).mp hv] at hpos; simp at hpos
      | some id =>
        obtain ⟨_, _, b, _, hh⟩ := (Valid_some P h id c).mp hv
        have := hh.2.2.1
        have := hh.2.2.2.1
        omega
  obtain ⟨ra, hra⟩ := view_member_drop P h x c hv pos (le_of_lt hpos)
  have hcl := clamped_inside c pos cch (le_of_lt hpos)
  have hlen : (clamped c pos cch).length = min cch (c.length - pos) := by
    rw [hcl]; simp
  have hview : h.view (ptr_add (char_pointer_from_member_pointer_ x.m_buffer) pos)
      = clamped c pos cch ++ ((c.drop pos).drop (min cch (c.length - pos)) ++ ra) := by
    rw [hra, hcl, ← List.append_assoc, List.take_append_drop]
  obtain ⟨z, hz, hs⟩ := compare__sign P h _ (some q) (clamped c pos cch) r _ (0 :: rest)
    hview hq hi (by rw [hlen]; omega) hB
  refine ⟨z, ?_, hs⟩
  have h1 : x.length h = .ok c.length := size_of_valid P h x c hv
  have h2 : traits_type.length h q = .ok r.length := by
    unfold traits_type.length
    rw [hq]
    exact traits_type.length_loop_ok r rest hr
  have hsub : P.sub c.length pos = c.length - pos := P.sub_eq _ _ hlt (le_of_lt hpos)
  have hl2 : (if cch < c.length - pos then cch else c.length - pos)
      = (clamped c pos cch).length := by
    rw [hlen]
    by_cases hc : cch < c.length - pos
    · rw [if_pos hc]; omega
    · rw [if_neg hc]; omega
  simp only [compare_pos_cstr, h1, h2, bind, Except.bind, hpos, decide_True, Bool.not_true,
    Bool.false_eq_true, ↓reduceIte, hsub, hl2, pure, Except.pure]
  exact hz

theorem length_lt_of_valid (P : Platform) (h : Heap) (x : basic_simple_string)
    (c : List char_type) (hv : Valid P h x c) : c.length < 2 ^ P.size_bits := by
  cases x with
  | mk m =>
    cases m with
    | none => rw [(Valid_none P h c).mp hv]; exact Nat.pos_pow_of_pos _ (by norm_num)
    | some id =>
      obtain ⟨_, _, b, _, hh⟩ := (Valid_some P h id c).mp hv
      have := hh.2.2.1
      have := hh.2.2.2.1
      omega

/-- The length the five-argument `compare` arrives at for one operand, when
`pos` is inside the string and `pos + cch` does not wrap. -/
theorem five_arg_length (P : Platform) (len pos cch : Nat) (hlen : len < 2 ^ P.size_bits)
    (hpos : pos ≤ len) (hsum : pos + cch < 2 ^ P.size_bits) :
    (if cch < (if pos = len then 0 else if P.wrap (pos + cch) > len then P.sub len pos else len)
      then cch
      else (if pos = len then 0 else if P.wrap (pos + cch) > len then P.sub len pos else len))
      = min cch (len - pos) := by
  rw [P.wrap_eq _ hsum, P.sub_eq _ _ hlen hpos]
  split_ifs <;> omega

theorem view_clamped (P : Platform) (h : Heap) (x : basic_simple_string)
    (c : List char_type) (hv : Valid P h x c) (pos cch : Nat) (hpos : pos ≤ c.length) :
    ∃ r, h.view (ptr_add (char_pointer_from_member_pointer_ x.m_buffer) pos)
        = clamped c pos cch ++ r ∧ (clamped c pos cch).length = min cch (c.length - pos) := by
  obtain ⟨ra, hra⟩ := view_member_drop P h x c hv pos hpos
  have hcl := clamped_inside c pos cch hpos
  refine ⟨(c.drop pos).drop (min cch (c.length - pos)) ++ ra, ?_, by rw [hcl]; simp⟩
  rw [hra, hcl, ← List.append_assoc, List.take_append_drop]

/-- The method `compare(pos, cch, rhs, posRhs, cchRhs)` with both positions
inside their strings and neither `pos + cch` nor `posRhs + cchRhs` wrapping:
the result has the sign of the prefix-then-length comparison of the two
clamped ranges. -/
theorem compare_pos_str_pos_inside (P : Platform) (h : Heap) (x y : basic_simple_string)
    (cx cy : List char_type) (pos cch posRhs cchRhs : Nat)
    (hvx : Valid P h x cx) (hvy : Valid P h y cy)
    (hpos : pos ≤ cx.length) (hsum : pos + cch < 2 ^ P.size_bits)
    (hposR : posRhs ≤ cy.length) (hsumR : posRhs + cchRhs < 2 ^ P.size_bits)
    (hi : 0 < P.int_bits) (hA : (cx.length : Int) < (2 : Int) ^ (P.int_bits - 1))
    (hB : (cy.length : Int) < (2 : Int) ^ (P.int_bits - 1)) :
    ∃ z, compare_pos_str_pos P h x pos cch y posRhs cchRhs = .ok z ∧
      sgn z = lex_sign (clamped cx pos cch) (clamped cy posRhs cchRhs) := by
  obtain ⟨ra, hra, hla⟩ := view_clamped P h x cx hvx pos cch hpos
  obtain ⟨rb, hrb, hlb⟩ := view_clamped P h y cy hvy posRhs cchRhs hposR
  obtain ⟨z, hz, hs⟩ := compare__sign P h _ _ (clamped cx pos cch) (clamped cy posRhs cchRhs)
    ra rb hra hrb hi (by rw [hla]; omega) (by rw [hlb]; omega)
  refine ⟨z, ?_, hs⟩
  have h1 : x.length h = .ok cx.length := size_of_valid P h x cx hvx
  have h2 : y.length h = .ok cy.length := size_of_valid P h y cy hvy
  have e1 := five_arg_length P cx.length pos cch (length_lt_of_valid P h x cx hvx) hpos hsum
  have e2 := five_arg_length P cy.length posRhs cchRhs (length_lt_of_valid P h y cy hvy)
    hposR hsumR
  rw [← hla] at e1
  rw [← hlb] at e2
  simp only [compare_pos_str_pos, h1, h2, bind, Except.bind, pure, Except.pure, e1, e2]
  exact hz

theorem first_diff_self (A : List char_type) : first_diff A A = 0 := by
  induction A with
  | nil => rfl
  | cons a A ih => simp [first_diff, ih]

theorem first_diff_append_left (A R : List char_type) : first_diff A (A ++ R) = 0 := by
  induction A with
  | nil => cases R <;> rfl
  | cons a A ih => simp [first_diff, ih]

theorem first_diff_append_right (A R : List char_type) : first_diff (A ++ R) A = 0 := by
  induction A with
  | nil => cases R <;> rfl
  | cons a A ih => simp [first_diff, ih]

theorem lex_sign_self (A : List char_type) : lex_sign A A = 0 := by
  rw [lex_sign_eq, first_diff_self, if_pos rfl, Int.sub_self]
  rfl

theorem lex_sign_proper_left (A : List char_type) (b : char_type) (R : List char_type) :
    lex_sign A (A ++ b :: R) = -1 := by
  rw [lex_sign_eq, first_diff_append_left, if_pos rfl]
  exact sgn_neg _ (by simp; omega)

theorem lex_sign_proper_right (A : List char_type) (b : char_type) (R : List char_type) :
    lex_sign (A ++ b :: R) A = 1 := by
  rw [lex_sign_eq, first_diff_append_right, if_pos rfl]
  exact sgn_pos _ (by simp)

theorem Platform.to_int_zero (P : Platform) : P.to_int 0 = 0 := by
  unfold Platform.to_int
  simp only [Int.zero_emod]
  rw [if_pos (by positivity)]

/-- A string compares equal to itself, whatever its length. -/
theorem compare_self (P : Platform) (h : Heap) (a : basic_simple_string) (c : List char_type)
    (hv : Valid P h a c) : basic_simple_string.compare P h a a = .ok 0 := by
  obtain ⟨r, hr⟩ := view_member_of_valid P h a c hv
  have h1 : a.length h = .ok c.length := size_of_valid P h a c hv
  have hz := compare__spec P h _ _ c c r r hr hr
  rw [first_diff_self, if_pos rfl, Int.sub_self, P.to_int_zero] at hz
  simp only [basic_simple_string.compare, h1, bind, Except.bind]
  exact hz

/-- For two valid strings whose lengths fit the positive range of `ss_int_t`,
a proper prefix compares below the longer string, and the longer string above
the prefix. -/
theorem compare_proper_prefix_small (P : Platform) (h : Heap) (a b : basic_simple_string)
    (ca : List char_type) (x : char_type) (R : List char_type)
    (hva : Valid P h a ca) (hvb : Valid P h b (ca ++ x :: R))
    (hi : 0 < P.int_bits)
    (hB : ((ca ++ x :: R).length : Int) < (2 : Int) ^ (P.int_bits - 1)) :
    (∃ z, basic_simple_string.compare P h a b = .ok z ∧ z < 0) ∧
    (∃ z, basic_simple_string.compare P h b a = .ok z ∧ 0 < z) := by
  have hA : (ca.length : Int) < (2 : Int) ^ (P.int_bits - 1) := by
    simp only [List.length_append, List.length_cons] at hB
    omega
  obtain ⟨z1, hz1, hs1⟩ := compare_small P h a b ca _ hva hvb hi hA hB
  obtain ⟨z2, hz2, hs2⟩ := compare_small P h b a _ ca hvb hva hi hB hA
  rw [lex_sign_proper_left] at hs1
  rw [lex_sign_proper_right] at hs2
  refine ⟨⟨z1, hz1, ?_⟩, ⟨z2, hz2, ?_⟩⟩
  · unfold sgn at hs1
    by_contra hc
    rw [if_neg hc] at hs1
    split_ifs at hs1
  · unfold sgn at hs2
    by_contra hc
    by_cases h0 : z2 < 0
    · rw [if_pos h0] at hs2
      omega
    · rw [if_neg h0, if_pos (by omega)] at hs2
      omega

/-! ## The claims on comparison -/

theorem big_content_length : big_content.length = 2 ^ 32 :=
  List.length_replicate _ _

theorem valid_big : Valid lp64 heap_big str_big big_content := by
  refine (Valid_some lp64 _ _ _).mpr ⟨by decide, by decide, _, rfl, ?_⟩
  refine ⟨?_, ?_, ?_, ?_, ?_, ?_⟩
  · exact big_content_length.symm
  · show 2 ^ 32 + 16 = (big_content ++ List.replicate 16 0).length
    rw [List.length_append, big_content_length, List.length_replicate]
  · show big_content.length < 2 ^ 32 + 16
    rw [big_content_length]
    omega
  · show 2 ^ 32 + 16 < 2 ^ 64
    norm_num
  · show (big_content ++ List.replicate 16 0).take big_content.length = big_content
    exact List.take_left _ _
  · show (big_content ++ List.replicate 16 0)[big_content.length]? = some 0
    rw [List.getElem?_append_right (le_refl _), Nat.sub_self]
    rfl

/-- C7 at its failing input, on LP64: the empty string is a proper prefix of
the valid string of `2 ^ 32` characters, yet `compare` returns `0` in both
directions, because `compare_` converts each length to `ss_int_t` before
subtracting. -/
theorem C7_compare_tie_break_truncates :
    Valid lp64 heap_big ctor_default [] ∧
    Valid lp64 heap_big str_big big_content ∧ big_content.length = 2 ^ 32 ∧
    basic_simple_string.compare lp64 heap_big ctor_default str_big = .ok 0 ∧
    basic_simple_string.compare lp64 heap_big str_big ctor_default = .ok 0 :=
  ⟨rfl, valid_big, big_content_length, rfl, rfl⟩

/-- C8 at its failing input, on LP64: for the string "abc", `pos = 3`,
`cch = 1` and the empty C string, the clamped left range is empty and the
comparison asked for is that of two empty ranges, sign `0`; the code returns
`1`, having kept `lhs_len` at the full length when it clamped `pos`. -/
theorem C8_compare_pos_at_end :
    Valid lp64 heap_str str_abc [97, 98, 99] ∧
    heap_str.view (some empty_string_) = [0] ∧
    compare_pos_cstr lp64 heap_str str_abc 3 1 (some empty_string_) = .ok 1 ∧
    lex_sign (clamped [97, 98, 99] 3 1) [] = 0 := by
  refine ⟨by decide, rfl, rfl, rfl⟩

/-- C9 at two failing inputs, on LP64, for the strings "abc" and "bc".  With
`pos = 1` and `cch` the largest `size_type` value, `pos + cch` wraps, the left
length stays at `3` and the code compares "bc" followed by the terminator with
"bc": it returns `1` where the clamped ranges are equal.  With `pos = 5`,
beyond the size, the left range is not emptied and the code returns `2` against
an empty right range. -/
theorem C9_compare_five_args :
    Valid lp64 heap_two str_abc [97, 98, 99] ∧ Valid lp64 heap_two str_bc [98, 99] ∧
    compare_pos_str_pos lp64 heap_two str_abc 1 (2 ^ 64 - 1) str_bc 0 2 = .ok 1 ∧
    lex_sign (clamped [97, 98, 99] 1 (2 ^ 64 - 1)) (clamped [98, 99] 0 2) = 0 ∧
    compare_pos_str_pos lp64 heap_two str_abc 5 2 str_bc 2 0 = .ok 2 ∧
    lex_sign (clamped [97, 98, 99] 5 2) (clamped [98, 99] 2 0) = 0 := by
  refine ⟨by decide, by decide, rfl, rfl, rfl, rfl⟩

/-! ## Counted sources -/

theorem before_nul_nil : before_nul [] = [] := rfl

theorem before_nul_cons_zero (t : List char_type) : before_nul (0 :: t) = [] := by
  simp [before_nul]

theorem before_nul_cons (c : char_type) (t : List char_type) (hc : c ≠ 0) :
    before_nul (c :: t) = c :: before_nul t := by
  simp [before_nul, hc]

theorem before_nul_length_le (t : List char_type) : (before_nul t).length ≤ t.length := by
  induction t with
  | nil => simp [before_nul]
  | cons c t ih =>
    by_cases hc : c = 0
    · subst hc; rw [before_nul_cons_zero]; simp
    · rw [before_nul_cons c t hc]; simp; exact ih

theorem before_nul_take (t : List char_type) : t.take (before_nul t).length = before_nul t := by
  induction t with
  | nil => simp [before_nul]
  | cons c t ih =>
    by_cases hc : c = 0
    · subst hc; rw [before_nul_cons_zero]; simp
    · rw [before_nul_cons c t hc]; simp; exact ih

theorem before_nul_nulfree (t : List char_type) : NulFree (before_nul t) := by
  intro x hx
  have := List.mem_takeWhile_imp hx
  simpa using this

theorem before_nul_of_nulfree (t : List char_type) (ht : NulFree t) : before_nul t = t := by
  induction t with
  | nil => rfl
  | cons c t ih =>
    have hc : c ≠ 0 := ht c (by simp)
    rw [before_nul_cons c t hc, ih (fun x hx => ht x (by simp [hx]))]

/-- What `length_max` returns on `n` readable characters. -/
theorem traits_type.length_max_loop_counted (n : Nat) : ∀ (l t : List char_type),
    l.take n = t → t.length = n →
    traits_type.length_max_loop l n = .ok (before_nul t).length := by
  induction n with
  | zero =>
    intro l t hl ht
    have : t = [] := List.length_eq_zero.mp ht
    subst this
    cases l <;> simp [traits_type.length_max_loop, before_nul]
  | succ n ih =>
    intro l t hl ht
    cases l with
    | nil => simp at hl; subst hl; simp at ht
    | cons c l =>
      rw [List.take_succ_cons] at hl
      subst hl
      have ht1 : (l.take n).length = n := by simpa using ht
      by_cases hc : c = 0
      · subst hc
        simp [traits_type.length_max_loop, before_nul_cons_zero]
      · rw [before_nul_cons c _ hc]
        simp [traits_type.length_max_loop, hc, ih l _ rfl ht1, Except.map]

/-- A successful `alloc_buffer_(s, cch)` from `cch` readable characters stores
those before the first NUL, in a block of capacity above `cch`. -/
theorem alloc_buffer_cch_ok (P : Platform) (h : Heap) (p : CharPtr) (n : Nat)
    (t : List char_type) (hw : 5 ≤ P.size_bits)
    (hfit : n + P.members + 32 < 2 ^ P.size_bits) (halloc : h.fails h.next = false)
    (hp : p.blk < h.next) (hsrc : (h.view (some p)).take n = t) (ht : t.length = n) :
    ∃ b, alloc_buffer_cch P h (some p) n = .ok (h.grow.put h.next (some b), some h.next)
      ∧ b.holds P (before_nul t) ∧ b.capacity = (n + P.members + 32) / 32 * 32 - P.members := by
  have hm : (before_nul t).length ≤ n := by rw [← ht]; exact before_nul_length_le t
  have hlm : traits_type.length_max_null h (some p) n = .ok (before_nul t).length :=
    traits_type.length_max_loop_counted n _ t hsrc ht
  have hsrc2 : (h.view (some p)).take (before_nul t).length = before_nul t := by
    subst hsrc
    have e := before_nul_take ((h.view (some p)).take n)
    rw [List.take_take, Nat.min_eq_left hm] at e
    exact e
  obtain ⟨b, hal, hh, hc⟩ := alloc_buffer_ok P h p n (before_nul t).length (before_nul t) hw hfit
    hm halloc hp hsrc2 rfl
  refine ⟨b, ?_, hh, hc⟩
  simp only [alloc_buffer_cch, hlm, bind, Except.bind, if_neg (Nat.not_lt.mpr hm)]
  exact hal

theorem capacity_of_block (h : Heap) (id : Nat) (b : string_buffer)
    (hb : h.blocks id = some b) :
    capacity h { m_buffer := some id } = .ok b.capacity := by
  simp [capacity, Heap.buffer, hb, bind, Except.bind, pure, Except.pure]

/-- A new block leaves every valid string as it was. -/
theorem Valid_alloc (P : Platform) (h : Heap) (s : basic_simple_string) (c : List char_type)
    (b : Option string_buffer) (hv : Valid P h s c) : Valid P (h.grow.put h.next b) s c := by
  refine Valid_put_other P _ s c _ _ (Valid_grow P h s c hv) ?_
  intro e
  cases s with
  | mk m =>
    simp only at e
    subst e
    have := ((Valid_some P h _ c).mp hv).2.1
    omega

/-- The new block of an allocation holds the string it was given. -/
theorem Valid_new (P : Platform) (h : Heap) (b : string_buffer) (c : List char_type)
    (h0 : 0 < h.next) (hh : b.holds P c) :
    Valid P (h.grow.put h.next (some b)) { m_buffer := some h.next } c :=
  (Valid_some P _ _ c).mpr ⟨h0, by simp, b, by simp, hh⟩

/-- C16. Counted construction: for a character array of `n` readable
characters `t` at `p`, the string constructed with `(p, n)` has
`size() == min(n, m)`, where `m` counts the characters before the first NUL
among the `n`, its content is `p[0 .. size())`, and its `capacity()` is greater
than `n` (the allocation succeeding, sizes not wrapping). -/
theorem C16_counted_construction (P : Platform) (h : Heap) (p : CharPtr) (n : Nat)
    (t : List char_type) (hw : 5 ≤ P.size_bits) (hp : p.blk < h.next)
    (hsrc : (h.view (some p)).take n = t) (ht : t.length = n)
    (halloc : h.fails h.next = false) (hfit : n + P.members + 32 < 2 ^ P.size_bits) :
    ∃ h1 x cap, ctor_cstr_cch P h (some p) n = .ok (h1, x) ∧
      x.size h1 = .ok (min n (before_nul t).length) ∧
      content h1 x = .ok (t.take (min n (before_nul t).length)) ∧
      x.capacity h1 = .ok cap ∧ n < cap := by
  obtain ⟨b, hal, hh, hc⟩ := alloc_buffer_cch_ok P h p n t hw hfit halloc hp hsrc ht
  have hm : (before_nul t).length ≤ n := by rw [← ht]; exact before_nul_length_le t
  have hv := Valid_new P h b _ (by omega) hh
  refine ⟨h.grow.put h.next (some b), { m_buffer := some h.next }, b.capacity, ?_, ?_, ?_,
    capacity_of_block _ _ b (Heap.put_blocks_same _ _ _), ?_⟩
  · simp only [ctor_cstr_cch, hal, bind, Except.bind, pure, Except.pure]
  · rw [Nat.min_eq_right hm]
    exact size_of_valid P _ _ _ hv
  · rw [Nat.min_eq_right hm, before_nul_take]
    exact content_of_valid P _ _ _ hv
  · rw [hc]
    omega

/-- C16 on LP64: four characters counted from the array "abc\0" give "abc". -/
theorem C16_counted_construction_witness :
    ∃ h1 x cap, ctor_cstr_cch lp64 heap_abc (some ptr_abc) 4 = .ok (h1, x) ∧
      x.size h1 = .ok (min 4 (before_nul [97, 98, 99, 0]).length) ∧
      content h1 x = .ok ([97, 98, 99, 0].take (min 4 (before_nul [97, 98, 99, 0]).length)) ∧
      x.capacity h1 = .ok cap ∧ 4 < cap :=
  C16_counted_construction lp64 heap_abc ptr_abc 4 [97, 98, 99, 0] (by decide) (by decide)
    rfl rfl rfl (by decide)

/-- The method `substr(pos, cch)` of a NUL-free string for `pos` inside it. -/
theorem substr_spec (P : Platform) (h : Heap) (x : basic_simple_string) (c : List char_type)
    (pos cch : Nat) (hw : 5 ≤ P.size_bits) (hwf : h.wf) (hv : Valid P h x c) (hnf : NulFree c)
    (halloc : h.fails h.next = false) (hfit : c.length + P.members + 32 < 2 ^ P.size_bits)
    (hpos : pos ≤ c.length) :
    ∃ b, substr P h x pos cch = .ok (h.grow.put h.next (some b), { m_buffer := some h.next }) ∧
      b.holds P ((c.drop pos).take (min cch (c.length - pos))) := by
  have hlen := length_lt_of_valid P h x c hv
  have hsz : x.size h = .ok c.length := size_of_valid P h x c hv
  have hsz2 : x.length h = .ok c.length := hsz
  have hsub : P.sub c.length pos = c.length - pos := P.sub_eq _ _ hlen hpos
  have hcch : (if cch > c.length - pos then c.length - pos else cch) = min cch (c.length - pos) := by
    split_ifs <;> omega
  have hnft : NulFree ((c.drop pos).take (min cch (c.length - pos))) :=
    fun y hy => hnf y (List.mem_of_mem_drop (List.mem_of_mem_take hy))
  have htl : ((c.drop pos).take (min cch (c.length - pos))).length = min cch (c.length - pos) := by
    simp
  have hsrc : (h.view (some (x.data.add pos))).take (min cch (c.length - pos))
      = (c.drop pos).take (min cch (c.length - pos)) := by
    cases x with
    | mk m =>
      cases m with
      | none =>
        have hc := (Valid_none P h c).mp hv
        subst hc
        simp at hpos
        subst hpos
        simp
      | some id =>
        have := view_data_of_valid P h id c hv pos (min cch (c.length - pos)) (by omega)
        simpa [data, CharPtr.add] using this
  have hp : (x.data.add pos).blk < h.next := by
    cases x with
    | mk m =>
      cases m with
      | none => exact hwf.1
      | some id => exact ((Valid_some P h id c).mp hv).2.1
  obtain ⟨b, hal, hh, _⟩ := alloc_buffer_cch_ok P h (x.data.add pos) (min cch (c.length - pos)) _
    hw (by omega) halloc hp hsrc htl
  rw [before_nul_of_nulfree _ hnft] at hh
  refine ⟨b, ?_, hh⟩
  simp only [substr, hsz, hsz2, bind, Except.bind, gt_iff_lt, if_neg (Nat.not_lt.mpr hpos), hsub,
    hcch, ctor_cstr_cch, hal, pure, Except.pure]

/-- C11. Substring extraction: for a NUL-free string `s` with content `c` and
all `pos`, `cch`, `s.substr(pos, cch)` throws `out_of_range` exactly when
`pos > s.size()`; otherwise it returns a new string with content
`s[pos .. pos + min(cch, s.size() - pos))`, and `s` keeps its size and content
(the allocation succeeding, sizes not wrapping); `substr(pos)` returns the
characters from `pos` on, so that `substr(s.size())` is empty. -/
theorem C11_substr (P : Platform) (h : Heap) (x : basic_simple_string) (c : List char_type)
    (pos cch : Nat) (hw : 5 ≤ P.size_bits) (hwf : h.wf) (hv : Valid P h x c) (hnf : NulFree c)
    (halloc : h.fails h.next = false) (hfit : c.length + P.members + 32 < 2 ^ P.size_bits) :
    (substr P h x pos cch = .error .out_of_range ↔ c.length < pos) ∧
    (pos ≤ c.length → ∃ h1 y, substr P h x pos cch = .ok (h1, y) ∧
      y.size h1 = .ok (min cch (c.length - pos)) ∧
      content h1 y = .ok ((c.drop pos).take (min cch (c.length - pos))) ∧
      x.size h1 = .ok c.length ∧ content h1 x = .ok c) ∧
    (pos ≤ c.length → ∃ h1 y, substr_pos P h x pos = .ok (h1, y) ∧
      content h1 y = .ok (c.drop pos)) := by
  have hok : pos ≤ c.length → ∃ h1 y, substr P h x pos cch = .ok (h1, y) ∧
      y.size h1 = .ok (min cch (c.length - pos)) ∧
      content h1 y = .ok ((c.drop pos).take (min cch (c.length - pos))) ∧
      x.size h1 = .ok c.length ∧ content h1 x = .ok c := by
    intro hpos
    obtain ⟨b, hs, hh⟩ := substr_spec P h x c pos cch hw hwf hv hnf halloc hfit hpos
    have hvy := Valid_new P h b _ hwf.1 hh
    have hvx := Valid_alloc P h x c (some b) hv
    have hsz := size_of_valid P _ _ _ hvy
    rw [show ((c.drop pos).take (min cch (c.length - pos))).length = min cch (c.length - pos) by
      simp] at hsz
    exact ⟨_, _, hs, hsz, content_of_valid P _ _ _ hvy, size_of_valid P _ _ _ hvx,
      content_of_valid P _ _ _ hvx⟩
  refine ⟨⟨?_, ?_⟩, hok, ?_⟩
  rotate_left 2
  · intro hpos
    obtain ⟨b, hs, hh⟩ := substr_spec P h x c pos (c.length - pos) hw hwf hv hnf halloc hfit hpos
    rw [Nat.min_self, List.take_of_length_le (by simp)] at hh
    have hvy := Valid_new P h b _ hwf.1 hh
    refine ⟨_, _, ?_, content_of_valid P _ _ _ hvy⟩
    rw [← hs]
    have hsz : x.size h = .ok c.length := size_of_valid P h x c hv
    have hsz2 : x.length h = .ok c.length := hsz
    have hsub : P.sub c.length pos = c.length - pos :=
      P.sub_eq _ _ (length_lt_of_valid P h x c hv) hpos
    simp only [substr_pos, substr, hsz, hsz2, bind, Except.bind, hsub, gt_iff_lt, lt_irrefl,
      ↓reduceIte]
  · intro he
    by_contra hlt
    obtain ⟨h1, y, hs, _⟩ := hok (Nat.le_of_not_lt hlt)
    rw [hs] at he
    cases he
  · intro hlt
    have hsz : x.size h = .ok c.length := size_of_valid P h x c hv
    simp only [substr, hsz, bind, Except.bind, gt_iff_lt, if_pos hlt]
    rfl

/-- C11 on LP64 at the string "abc": `substr(1, 100)` is "bc", `substr(4, 1)`
throws. -/
theorem C11_substr_witness :
    (∃ h1 y, substr lp64 heap_str str_abc 1 100 = .ok (h1, y) ∧ content h1 y = .ok [98, 99]) ∧
    substr lp64 heap_str str_abc 4 1 = .error .out_of_range :=
  ⟨(let ⟨h1, y, hs, _, hc, _⟩ :=
      (C11_substr lp64 heap_str str_abc [97, 98, 99] 1 100 (by decide) ⟨by decide, _, rfl, rfl⟩
        (by decide) (by decide) rfl (by decide)).2.1 (by decide)
    ⟨h1, y, hs, hc⟩),
   (C11_substr lp64 heap_str str_abc [97, 98, 99] 4 1 (by decide) ⟨by decide, _, rfl, rfl⟩
      (by decide) (by decide) rfl (by decide)).1.mpr (by decide)⟩

/-! ## Fill construction -/

theorem nulfree_replicate (n : Nat) (ch : char_type) (hch : ch ≠ 0) :
    NulFree (List.replicate n ch) := by
  intro y hy
  rw [List.eq_of_mem_replicate hy]
  exact hch

/-- The constructor `(cch, ch)` for a character other than NUL. -/
theorem ctor_fill_spec (P : Platform) (h : Heap) (cch : Nat) (ch : char_type)
    (hw : 5 ≤ P.size_bits) (hch : ch ≠ 0)
    (hfit : cch + P.members + 32 < 2 ^ P.size_bits)
    (halloc : h.fails (h.next + 1) = false) :
    ∃ h1 x, ctor_fill P h cch ch = .ok (h1, x) ∧ Valid P h1 x (List.replicate cch ch)
      ∧ h.later h1 := by
  obtain ⟨h1, x1, ha, hv1, hl, _, hm⟩ := assign_null P (h.store (List.replicate cch ch)).1
    (h.store (List.replicate cch ch)).2 cch (List.replicate cch ch) hw hfit halloc
    (by simp [Heap.store]) (by rw [Heap.store_view]; simp) (by simp)
    (nulfree_replicate cch ch hch)
  have hx1 : x1.m_buffer ≠ some h.next := by
    rcases hm with hm | hm
    · rw [hm]; simp
    · rw [hm]; simp [Heap.store]
  refine ⟨h1.deallocate h.next, x1, ?_, Valid_put_other P h1 x1 _ _ _ hv1 hx1, ?_⟩
  · simp only [ctor_fill, assign_fill, bind, Except.bind, ha, pure, Except.pure]
    rfl
  · exact ⟨hl.1, hl.2.1, by
      have := hl.2.2
      simp [Heap.store] at this
      simp [Heap.deallocate]
      omega⟩

/-- C15, as it fails. The string constructed with `(1, NUL)` has `size() == 0`,
not `1`. -/
theorem C15_fill_nul_counterexample :
    (ctor_fill lp64 heap0 1 0 >>= fun r => r.2.size r.1) = .ok 0 ∧
    (ctor_fill lp64 heap0 1 0 >>= fun r => r.2.size r.1) ≠ .ok 1 := by
  have h : (ctor_fill lp64 heap0 1 0 >>= fun r => r.2.size r.1) = .ok 0 := rfl
  refine ⟨h, ?_⟩
  rw [h]
  intro e
  cases e

/-- C15, amended. Fill construction: for every count and every character `ch`
other than NUL, the string constructed with `(count, ch)` has
`size() == count` and its content is `ch` repeated `count` times (the
allocation succeeding, sizes not wrapping). -/
theorem C15_fill_construction (P : Platform) (h : Heap) (count : Nat) (ch : char_type)
    (hw : 5 ≤ P.size_bits) (hch : ch ≠ 0)
    (hfit : count + P.members + 32 < 2 ^ P.size_bits)
    (halloc : h.fails (h.next + 1) = false) :
    ∃ h1 x, ctor_fill P h count ch = .ok (h1, x) ∧ x.size h1 = .ok count ∧
      content h1 x = .ok (List.replicate count ch) := by
  obtain ⟨h1, x, hc, hv, _⟩ := ctor_fill_spec P h count ch hw hch hfit halloc
  have hsz := size_of_valid P h1 x _ hv
  rw [List.length_replicate] at hsz
  exact ⟨h1, x, hc, hsz, content_of_valid P h1 x _ hv⟩

/-- C15 (amended) on LP64: three times the character `A`. -/
theorem C15_fill_construction_witness :
    ∃ h1 x, ctor_fill lp64 heap0 3 65 = .ok (h1, x) ∧ x.size h1 = .ok 3 ∧
      content h1 x = .ok (List.replicate 3 65) :=
  C15_fill_construction lp64 heap0 3 65 (by decide) (by decide) (by decide) rfl

/-! ## Reserve -/

/-- A successful `alloc_buffer_(NULL, capacity, 0)` makes a block storing the
empty string. -/
theorem alloc_buffer_null_ok (P : Platform) (h : Heap) (capacity : Nat) (hw : 5 ≤ P.size_bits)
    (hfit : capacity + P.members + 32 < 2 ^ P.size_bits) (halloc : h.fails h.next = false) :
    ∃ b, alloc_buffer_ P h none capacity 0 = .ok (h.grow.put h.next (some b), some h.next)
      ∧ b.holds P [] ∧ b.capacity = (capacity + P.members + 32) / 32 * 32 - P.members := by
  have htot := rounded_total P capacity hw hfit
  have hge : capacity + 1 + P.members ≤ (capacity + P.members + 32) / 32 * 32 := by omega
  have hle : (capacity + P.members + 32) / 32 * 32 ≤ capacity + P.members + 32 := by omega
  generalize htotal : (capacity + P.members + 32) / 32 * 32 = total at htot hge hle
  have hfl : (h.fresh (total - P.members)).contents.length = total - P.members :=
    h.fresh_length _
  have hwrite := Heap.write_ok (h.grow.put h.next (some (h.fresh (total - P.members))))
    { blk := h.next, off := 0 } 0 (h.fresh (total - P.members)) (by simp)
    (by simp only [hfl]; omega)
  refine ⟨⟨total - P.members, 0, (h.fresh (total - P.members)).contents.set 0 0⟩, ?_, ?_, rfl⟩
  · unfold alloc_buffer_
    simp only [htot, Heap.allocate, halloc]
    simp only [Bool.false_eq_true, ↓reduceIte]
    rw [if_neg (by omega)]
    simp only [hwrite, bind, Except.bind, Heap.put_put]
    simp only [Heap.set_header, Heap.put_blocks_same, Heap.put_put, pure, Except.pure]
    rw [P.sub_eq total P.members (by omega) (by omega)]
  · refine ⟨rfl, ?_, ?_, ?_, rfl, ?_⟩
    · show total - P.members = ((h.fresh (total - P.members)).contents.set 0 0).length
      rw [List.length_set, hfl]
    · show 0 < total - P.members
      omega
    · show total - P.members < 2 ^ P.size_bits
      omega
    · show ((h.fresh (total - P.members)).contents.set 0 0)[0]? = some 0
      rw [List.getElem?_set_self (by rw [hfl]; omega)]

/-- The method `reserve(cch)` when it has to make a buffer or a larger one. -/
theorem reserve_grow (P : Platform) (h : Heap) (x : basic_simple_string) (c : List char_type)
    (cch : Nat) (hw : 5 ≤ P.size_bits) (hv : Valid P h x c)
    (halloc : h.fails h.next = false) (hfit : cch + P.members + 32 < 2 ^ P.size_bits)
    (hlen : c.length < cch)
    (hcap : ∀ id b, x.m_buffer = some id → h.blocks id = some b → b.capacity < cch) :
    ∃ h1 b, reserve P h x cch = .ok (h1, { m_buffer := some h.next }) ∧
      h1.blocks h.next = some b ∧ b.holds P c ∧
      b.capacity = (cch + P.members + 32) / 32 * 32 - P.members ∧
      h1.next = h.next + 1 ∧ h.later h1 ∧
      (∀ j, j < h.next → x.m_buffer ≠ some j → h1.blocks j = h.blocks j) := by
  have hsz : x.length h = .ok c.length := size_of_valid P h x c hv
  cases x with
  | mk m =>
    cases m with
    | none =>
      have hc := (Valid_none P h c).mp hv
      subst hc
      obtain ⟨b, hal, hh, hcb⟩ := alloc_buffer_null_ok P h cch hw hfit halloc
      have hlen0 : 0 < cch := by simpa using hlen
      refine ⟨h.grow.put h.next (some b), b, ?_, Heap.put_blocks_same _ _ _, hh, hcb, rfl,
        ⟨rfl, rfl, by simp⟩, ?_⟩
      · simp only [reserve, hsz, bind, Except.bind, List.length_nil, if_pos hlen0, hal, pure,
          Except.pure]
      · intro j hj _
        rw [Heap.put_blocks_other _ _ _ _ (by omega)]
        rfl
    | some id =>
      obtain ⟨hpos, hlt, b0, hb, hh0⟩ := (Valid_some P h id c).mp hv
      have hcap0 := hcap id b0 rfl hb
      have hsrc := view_data_of_valid P h id c hv 0 c.length (by omega)
      rw [List.drop_zero, List.take_length] at hsrc
      obtain ⟨b, hal, hh, hcb⟩ := alloc_buffer_ok P h { blk := id, off := 0 } cch c.length c hw
        hfit (le_of_lt hlen) halloc hlt hsrc rfl
      refine ⟨(h.grow.put h.next (some b)).put id none, b, ?_, ?_, hh, hcb, rfl,
        ⟨rfl, rfl, by simp⟩, ?_⟩
      · simp only [reserve, hsz, bind, Except.bind, if_pos hlen, Heap.buffer, hb,
          if_neg (Nat.not_le.mpr hcap0), c_str, hal, pure, Except.pure, destroy_buffer_,
          Heap.deallocate]
      · rw [Heap.put_blocks_other _ _ _ _ (by omega)]
        simp
      · intro j hj hjx
        rw [Heap.put_blocks_other _ _ _ _ (fun e => hjx (by rw [e])),
          Heap.put_blocks_other _ _ _ _ (by omega)]
        rfl

/-- The method `reserve(cch)` when it has nothing to do. -/
theorem reserve_noop (P : Platform) (h : Heap) (x : basic_simple_string) (c : List char_type)
    (cch : Nat) (hv : Valid P h x c)
    (hno : cch ≤ c.length ∨ ∃ id b, x.m_buffer = some id ∧ h.blocks id = some b ∧
      cch ≤ b.capacity) :
    reserve P h x cch = .ok (h, x) := by
  have hsz : x.length h = .ok c.length := size_of_valid P h x c hv
  by_cases hlen : c.length < cch
  · rcases hno with hno | ⟨id, b, hm, hb, hcap⟩
    · omega
    · cases x with
      | mk m =>
        simp only at hm
        subst hm
        simp only [reserve, hsz, bind, Except.bind, if_pos hlen, Heap.buffer, hb, if_pos hcap,
          pure, Except.pure]
  · simp only [reserve, hsz, bind, Except.bind, if_neg hlen, pure, Except.pure]

/-- The contract of `reserve` for requests whose rounding does not wrap: for a
string `s` with content `c` and `cch + header + 32 < 2 ^ size_bits`, after
`s.reserve(cch)` (allocation succeeding) `capacity() >= cch` and `size()` and
the content are unchanged; if `cch <= s.size()`, or a buffer is held whose
capacity is already `>= cch`, the call changes nothing at all. -/
theorem reserve_contract (P : Platform) (h : Heap) (x : basic_simple_string) (c : List char_type)
    (cch : Nat) (hw : 5 ≤ P.size_bits) (hwf : h.wf) (hv : Valid P h x c)
    (halloc : h.fails h.next = false) (hfit : cch + P.members + 32 < 2 ^ P.size_bits) :
    (∃ h1 x1 cap, reserve P h x cch = .ok (h1, x1) ∧ x1.capacity h1 = .ok cap ∧ cch ≤ cap ∧
      x1.size h1 = .ok c.length ∧ content h1 x1 = .ok c) ∧
    (cch ≤ c.length → reserve P h x cch = .ok (h, x)) ∧
    (∀ id b, x.m_buffer = some id → h.blocks id = some b → cch ≤ b.capacity →
      reserve P h x cch = .ok (h, x)) := by
  refine ⟨?_, fun hle => reserve_noop P h x c cch hv (Or.inl hle),
    fun id b hm hb hcap => reserve_noop P h x c cch hv (Or.inr ⟨id, b, hm, hb, hcap⟩)⟩
  by_cases hno : cch ≤ c.length ∨ ∃ id b, x.m_buffer = some id ∧ h.blocks id = some b ∧
      cch ≤ b.capacity
  · have hr := reserve_noop P h x c cch hv hno
    cases x with
    | mk m =>
      cases m with
      | none =>
        have hc := (Valid_none P h c).mp hv
        subst hc
        rcases hno with hno | ⟨id, b, hm, _⟩
        · exact ⟨h, _, 0, hr, rfl, by simpa using hno, rfl, content_of_valid P h _ _ hv⟩
        · cases hm
      | some id =>
        obtain ⟨_, _, b0, hb, hh0⟩ := (Valid_some P h id c).mp hv
        refine ⟨h, _, b0.capacity, hr, capacity_of_block h id b0 hb, ?_,
          size_of_valid P h _ c hv, content_of_valid P h _ c hv⟩
        rcases hno with hno | ⟨id', b, hm, hb', hcap⟩
        · have := hh0.2.2.1
          omega
        · cases hm
          rw [hb] at hb'
          cases hb'
          exact hcap
  · have hlen : c.length < cch := by
      by_contra hc
      exact hno (Or.inl (Nat.le_of_not_lt hc))
    have hcap : ∀ id b, x.m_buffer = some id → h.blocks id = some b → b.capacity < cch := by
      intro id b hm hb
      by_contra hc
      exact hno (Or.inr ⟨id, b, hm, hb, Nat.le_of_not_lt hc⟩)
    obtain ⟨h1, b, hr, hb1, hh, hcb, hn1, _, _⟩ :=
      reserve_grow P h x c cch hw hv halloc hfit hlen hcap
    have hv1 : Valid P h1 { m_buffer := some h.next } c :=
      (Valid_some P _ _ c).mpr ⟨hwf.1, by rw [hn1]; omega, b, hb1, hh⟩
    refine ⟨h1, _, b.capacity, hr, capacity_of_block h1 _ b hb1, ?_, size_of_valid P h1 _ c hv1,
      content_of_valid P h1 _ c hv1⟩
    rw [hcb]
    omega

/-- On LP64, `reserve(17)` at the string "abc" (capacity 16). -/
theorem reserve_contract_witness :
    ∃ h1 x1 cap, reserve lp64 heap_str str_abc 17 = .ok (h1, x1) ∧ x1.capacity h1 = .ok cap ∧
      17 ≤ cap ∧ x1.size h1 = .ok 3 ∧ content h1 x1 = .ok [97, 98, 99] :=
  (reserve_contract lp64 heap_str str_abc [97, 98, 99] 17 (by decide) ⟨by decide, _, rfl, rfl⟩
    (by decide) rfl (by decide)).1

/-! ## Allocation failure -/

/-- When the allocator reports failure `alloc_buffer_` returns null and
leaves the heap as it was. -/
theorem alloc_buffer_fails (P : Platform) (h : Heap) (s : Option CharPtr) (capacity length : Nat)
    (hf : h.fails h.next = true) : alloc_buffer_ P h s capacity length = .ok (h, none) := by
  simp [alloc_buffer_, Heap.allocate, hf]

/-- The counting `length_max` ends at a NUL it meets, whatever the limit. -/
theorem traits_type.length_max_loop_total : ∀ (l : List char_type) (k limit : Nat),
    l[k]? = some 0 → ∃ m, traits_type.length_max_loop l limit = .ok m := by
  intro l
  induction l with
  | nil => intro k limit hk; simp at hk
  | cons c l ih =>
    intro k limit hk
    cases limit with
    | zero => exact ⟨0, rfl⟩
    | succ limit =>
      by_cases hc : c = 0
      · exact ⟨0, by simp [traits_type.length_max_loop, hc]⟩
      · cases k with
        | zero => simp at hk; exact absurd hk hc
        | succ k =>
          obtain ⟨m, hm⟩ := ih k limit (by simpa using hk)
          exact ⟨m + 1, by simp [traits_type.length_max_loop, hc, hm, Except.map]⟩

/-- The method `append` from a readable source when the buffer has to grow and
the allocator reports failure: heap and string are left as they were. -/
theorem append_failed (P : Platform) (h : Heap) (id : Nat) (b : string_buffer)
    (c : List char_type) (p : CharPtr) (n : Nat)
    (hb : h.blocks id = some b) (hh : b.holds P c)
    (hread : n ≤ (h.view (some p)).length) (hn : n + 1 < 2 ^ P.size_bits)
    (hfail : h.fails h.next = true)
    (hgrow : ¬ c.length + (before_nul ((h.view (some p)).take n)).length < b.capacity) :
    append P h { m_buffer := some id } (some p) n = .ok (h, { m_buffer := some id }) := by
  obtain ⟨hlen, hcap, hlc, hlt, htake, hnul⟩ := hh
  have htl : ((h.view (some p)).take n).length = n := by
    rw [List.length_take]; omega
  have hk := before_nul_length_le ((h.view (some p)).take n)
  rw [htl] at hk
  generalize hkdef : (before_nul ((h.view (some p)).take n)).length = k at hk hgrow
  have hlm : traits_type.length_max h p n = .ok k := by
    rw [← hkdef]
    exact traits_type.length_max_loop_counted n _ _ rfl htl
  have hn0 : n ≠ 0 := by
    intro e
    subst e
    omega
  have hcch : (if k < n then k else n) = k := by
    split
    · rfl
    · omega
  have hsub : P.sub b.capacity c.length = b.capacity - c.length :=
    P.sub_eq _ _ hlt (by omega)
  have hwr : P.wrap (1 + k) = 1 + k := P.wrap_eq _ (by omega)
  have hview0 : h.view (some { blk := id, off := 0 }) = b.contents := by
    rw [Heap.view_some h _ b hb]; rfl
  obtain ⟨m, hm⟩ := traits_type.length_max_loop_total b.contents c.length
    (P.wrap (c.length + k)) hnul
  have hlmn : traits_type.length_max_null h (some { blk := id, off := 0 })
      (P.wrap (c.length + k)) = .ok m := by
    show traits_type.length_max_loop (h.view (some { blk := id, off := 0 })) _ = _
    rw [hview0]
    exact hm
  have hw0 : P.wrap (c.length + 0) = c.length := P.wrap_eq _ (by omega)
  have hself : h.put id (some { b with length := c.length }) = h := by
    apply Heap.put_self
    rw [hb, ← hlen]
  have hset : b.contents.set c.length 0 = b.contents := by
    apply List.ext_getElem?
    intro i
    by_cases hi : i = c.length
    · subst hi
      rw [List.getElem?_set_self (by omega), hnul]
    · rw [List.getElem?_set_ne (fun e => hi e.symm)]
  have hwrite : h.write { blk := id, off := c.length } 0 = .ok h := by
    rw [Heap.write_ok h _ 0 b hb (by simp only []; omega)]
    simp only [hset]
    rw [Heap.put_self h id _ hb]
  unfold append
  simp only [if_neg hn0, hlm, bind, Except.bind, Heap.buffer, hb, hcch, hsub, hwr, hlen]
  rw [if_pos (by omega)]
  simp only [alloc_buffer_cch, hlmn, bind, Except.bind, alloc_buffer_fails _ _ _ _ _ hfail, pure,
    Except.pure, traits_type.copy, hb, hlen, hw0, Heap.set_length, hself, hwrite]

/-- C14. Append under allocation failure: for every string `s` with content
`c` and every readable source `(p, cch)`, if the buffer has to grow for the
characters of the source before its first NUL and the allocator reports
failure, then `s.append(p, cch)` returns with heap and string exactly as
before, so that `size()`, `capacity()` and the content are unchanged. -/
theorem C14_append_allocation_failure (P : Platform) (h : Heap) (x : basic_simple_string)
    (c : List char_type) (p : CharPtr) (n cap : Nat) (hv : Valid P h x c)
    (hread : n ≤ (h.view (some p)).length) (hn : n + 1 < 2 ^ P.size_bits)
    (hfail : h.fails h.next = true) (hc : x.capacity h = .ok cap)
    (hgrow : ¬ c.length + (before_nul ((h.view (some p)).take n)).length < cap) :
    append P h x (some p) n = .ok (h, x) ∧ x.size h = .ok c.length ∧
      x.capacity h = .ok cap ∧ content h x = .ok c := by
  refine ⟨?_, size_of_valid P h x c hv, hc, content_of_valid P h x c hv⟩
  cases x with
  | mk m =>
    cases m with
    | none =>
      by_cases hn0 : n = 0
      · simp [append, assign, hn0, pure, Except.pure]
      · have htl : ((h.view (some p)).take n).length = n := by
          rw [List.length_take]; omega
        have hlm : traits_type.length_max_null h (some p) n
            = .ok (before_nul ((h.view (some p)).take n)).length :=
          traits_type.length_max_loop_counted n _ _ rfl htl
        simp only [append, assign, if_neg hn0, alloc_buffer_cch, hlm, bind, Except.bind,
          alloc_buffer_fails _ _ _ _ _ hfail, pure, Except.pure]
    | some id =>
      obtain ⟨_, _, b, hb, hh⟩ := (Valid_some P h id c).mp hv
      have hcb := capacity_of_block h id b hb
      rw [hc] at hcb
      cases hcb
      exact append_failed P h id b c p n hb hh hread hn hfail hgrow

/-- C14 on LP64 at the full 15-character string, appended to itself by one
character while the allocator reports failure. -/
theorem C14_append_allocation_failure_witness :
    append lp64 heap_full str_full (some str_full.data) 1 = .ok (heap_full, str_full) ∧
      str_full.size heap_full = .ok 15 ∧ str_full.capacity heap_full = .ok 16 ∧
      content heap_full str_full
        = .ok [97, 97, 97, 97, 97, 97, 97, 97, 97, 97, 97, 97, 97, 97, 97] :=
  C14_append_allocation_failure lp64 heap_full str_full
    [97, 97, 97, 97, 97, 97, 97, 97, 97, 97, 97, 97, 97, 97, 97] str_full.data 1 16
    (by decide) (by decide) (by decide) rfl rfl (by decide)

/-- The branch of `assign` that allocates, when the allocator reports failure:
the old buffer is released and the string is left without a buffer. -/
theorem assign_fresh_failed (P : Platform) (h : Heap) (id : Nat) (b : string_buffer)
    (p : CharPtr) (cch : Nat) (hb : h.blocks id = some b)
    (htest : (decide (cch < b.capacity) &&
      (p.lt { blk := id, off := 0 } || CharPtr.lt { blk := id, off := cch } p)) = false)
    (hfail : h.fails h.next = true) :
    assign P h { m_buffer := some id } (some p) cch = .ok (h.put id none, { m_buffer := none }) := by
  unfold assign
  simp only [bind, Except.bind, Heap.buffer, hb, htest, alloc_buffer_fails _ _ _ _ _ hfail,
    pure, Except.pure, destroy_buffer_, Heap.deallocate]
  rfl

/-- C13 at a failing input, on LP64: the string of 15 characters `a` is
assigned its own content, `s.assign(s.data(), 15)`, which has to allocate,
while the allocator reports failure.  The call releases the buffer and leaves
the string with no buffer: its size is `0` and its content empty, where both
were to stay as before the call. -/
theorem C13_assign_allocation_failure :
    Valid lp64 heap_full str_full
      [97, 97, 97, 97, 97, 97, 97, 97, 97, 97, 97, 97, 97, 97, 97] ∧
    heap_full.fails heap_full.next = true ∧
    str_full.size heap_full = .ok 15 ∧
    assign lp64 heap_full str_full (some str_full.data) 15
      = .ok (heap_full.put 1 none, { m_buffer := none }) ∧
    size (heap_full.put 1 none) { m_buffer := none } = .ok 0 ∧
    content (heap_full.put 1 none) { m_buffer := none } = .ok [] :=
  ⟨by decide, rfl, rfl, rfl, rfl, rfl⟩

/-! ## Leading characters -/

theorem first_diff_eq_zero_iff : ∀ (A B : List char_type), A.length = B.length →
    (first_diff A B = 0 ↔ A = B) := by
  intro A
  induction A with
  | nil =>
    intro B hl
    cases B with
    | nil => simp [first_diff]
    | cons b B => simp at hl
  | cons a A ih =>
    intro B hl
    cases B with
    | nil => simp at hl
    | cons b B =>
      have hl1 : A.length = B.length := by simpa using hl
      by_cases hab : a = b
      · subst hab
        simp [first_diff, ih B hl1]
      · by_cases hlt : a < b
        · simp [first_diff, hab, hlt]
        · simp [first_diff, hab, hlt]

/-- The first `d.length` characters of `c` are `d` exactly when `d` is no
longer than `c` and agrees with it at every index of `d`. -/
theorem take_eq_iff (c d : List char_type) :
    c.take d.length = d ↔ d.length ≤ c.length ∧ ∀ i, i < d.length → (c)[i]? = (d)[i]? := by
  constructor
  · intro h
    have hl : (c.take d.length).length = d.length := by rw [h]
    rw [List.length_take] at hl
    refine ⟨by omega, fun i hi => ?_⟩
    have e := List.getElem?_take_of_lt (l := c) hi
    rw [h] at e
    exact e.symm
  · rintro ⟨hl, hi⟩
    apply List.ext_getElem?
    intro i
    by_cases hlt : i < d.length
    · rw [List.getElem?_take_of_lt hlt, hi i hlt]
    · rw [List.getElem?_eq_none (by rw [List.length_take]; omega),
        List.getElem?_eq_none (by omega)]

/-- The function `starts_with_(s, n)` on `n` readable characters `d`. -/
theorem starts_with__spec (P : Platform) (h : Heap) (x : basic_simple_string)
    (c : List char_type) (s : Option CharPtr) (d r : List char_type) (hv : Valid P h x c)
    (hs : h.view (ptr_add s 0) = d ++ r) :
    starts_with_ P h x s d.length = .ok (decide (c.take d.length = d)) := by
  cases x with
  | mk m =>
    cases m with
    | none =>
      have hc := (Valid_none P h c).mp hv
      subst hc
      cases d with
      | nil => simp [starts_with_, pure, Except.pure]
      | cons a d => simp [starts_with_, pure, Except.pure]
    | some id =>
      obtain ⟨_, _, b, hb, hh⟩ := (Valid_some P h id c).mp hv
      obtain ⟨rest, hview⟩ := view_of_valid P h id c hv
      by_cases hlt : c.length < d.length
      · have hne : ¬ c.take d.length = d := by
          intro e
          have := congrArg List.length e
          rw [List.length_take] at this
          omega
        simp [starts_with_, Heap.buffer, hb, hh.1, hlt, hne, bind, Except.bind, pure,
          Except.pure]
      · have hA : (c.take d.length).length = d.length := by
          rw [List.length_take]; omega
        have hl : h.view (some { blk := id, off := 0 })
            = c.take d.length ++ (c.drop d.length ++ 0 :: rest) := by
          rw [hview, ← List.append_assoc, List.take_append_drop]
        have hz := compare__spec P h _ _ (c.take d.length) d _ r hl hs
        rw [hA, Int.sub_self, P.to_int_zero] at hz
        simp only [starts_with_, Heap.buffer, hb, hh.1, if_neg hlt, hz, bind, Except.bind, pure,
          Except.pure]
        by_cases hfd : first_diff (c.take d.length) d = 0
        · rw [if_pos hfd, decide_eq_true rfl,
            decide_eq_true ((first_diff_eq_zero_iff _ _ hA).mp hfd)]
        · have hne : ¬ c.take d.length = d := fun e => hfd ((first_diff_eq_zero_iff _ _ hA).mpr e)
          have h0 : ¬ (0 : Int) = first_diff (c.take d.length) d := fun e => hfd e.symm
          rw [if_neg hfd, decide_eq_false h0, decide_eq_false hne]

/-- The method `starts_with(ch)`. -/
theorem starts_with_ch_spec (P : Platform) (h : Heap) (x : basic_simple_string)
    (c : List char_type) (ch : char_type) (hv : Valid P h x c) :
    starts_with_ch h x ch = .ok (decide (c ≠ [] ∧ (c)[0]? = some ch)) := by
  have hsz : x.length h = .ok c.length := size_of_valid P h x c hv
  cases c with
  | nil => simp [starts_with_ch, empty, hsz, bind, Except.bind, pure, Except.pure]
  | cons a c =>
    cases x with
    | mk m =>
      cases m with
      | none => exact absurd ((Valid_none P h _).mp hv) (by simp)
      | some id =>
        have hr := read_of_valid P h id (a :: c) hv 0 (by simp)
        have hr0 : h.read { blk := id, off := 0 + 0 } = .ok a := by simpa using hr
        simp [starts_with_ch, empty, hsz, bind, Except.bind, pure, Except.pure, front,
          index_const, ptr_add, char_pointer_from_member_pointer_, CharPtr.add, hr0]
        rw [Bool.eq_iff_iff]
        simp

/-- C20. The method `starts_with` decides the relation "begins with": for a
string `s` with content `c` and `p` with content `d`, given as a string or as
a C string, `s.starts_with(p)` returns, and returns true if and only if
`p.size() <= s.size()` and `s[i] == p[i]` for every `i < p.size()`; every
string, the empty one included, starts with the empty string (also given as a
null pointer); and `s.starts_with(ch)` is true iff `s` is non-empty and
`s[0] == ch`. -/
theorem C20_starts_with (P : Platform) (h : Heap) (x : basic_simple_string)
    (c : List char_type) (hv : Valid P h x c) :
    (∀ y d, Valid P h y d → ∃ r, starts_with P h x y = .ok r ∧
      (r = true ↔ d.length ≤ c.length ∧ ∀ i, i < d.length → (c)[i]? = (d)[i]?)) ∧
    (∀ q d rest, h.view (some q) = d ++ 0 :: rest → NulFree d →
      ∃ r, starts_with_cstr P h x (some q) = .ok r ∧
        (r = true ↔ d.length ≤ c.length ∧ ∀ i, i < d.length → (c)[i]? = (d)[i]?)) ∧
    (∀ y, Valid P h y [] → starts_with P h x y = .ok true) ∧
    starts_with_cstr P h x none = .ok true ∧
    (∀ ch, ∃ r, starts_with_ch h x ch = .ok r ∧ (r = true ↔ c ≠ [] ∧ (c)[0]? = some ch)) := by
  have hstr : ∀ y d, Valid P h y d →
      starts_with P h x y = .ok (decide (c.take d.length = d)) := by
    intro y d hy
    have hsz : y.size h = .ok d.length := size_of_valid P h y d hy
    obtain ⟨r, hr⟩ : ∃ r, h.view (ptr_add (some y.data) 0) = d ++ r := by
      cases y with
      | mk m =>
        cases m with
        | none =>
          have hd := (Valid_none P h d).mp hy
          subst hd
          exact ⟨_, (List.nil_append _).symm⟩
        | some id =>
          obtain ⟨rest, hview⟩ := view_of_valid P h id d hy
          exact ⟨0 :: rest, by simpa [ptr_add, data, CharPtr.add] using hview⟩
    simp only [starts_with, hsz, bind, Except.bind]
    exact starts_with__spec P h x c _ d r hv hr
  refine ⟨?_, ?_, ?_, ?_, ?_⟩
  · intro y d hy
    exact ⟨_, hstr y d hy, by rw [decide_eq_true_iff]; exact take_eq_iff c d⟩
  · intro q d rest hq hd
    have hlen : traits_type.length h q = .ok d.length := by
      unfold traits_type.length
      rw [hq]
      exact traits_type.length_loop_ok d rest hd
    have hs : h.view (ptr_add (some q) 0) = d ++ 0 :: rest := by
      simpa [ptr_add, CharPtr.add] using hq
    refine ⟨decide (c.take d.length = d), ?_, by rw [decide_eq_true_iff]; exact take_eq_iff c d⟩
    simp only [starts_with_cstr, hlen, bind, Except.bind]
    exact starts_with__spec P h x c _ d _ hv hs
  · intro y hy
    simpa using hstr y [] hy
  · have := starts_with__spec P h x c none [] [] hv rfl
    simpa [starts_with_cstr, bind, Except.bind, pure, Except.pure] using this
  · intro ch
    exact ⟨decide (c ≠ [] ∧ (c)[0]? = some ch), starts_with_ch_spec P h x c ch hv,
      decide_eq_true_iff⟩

/-- C20 on LP64: the string "abc" starts with the string "abc" itself, and
with the empty C string. -/
theorem C20_starts_with_witness :
    (∃ r, starts_with lp64 heap_str str_abc str_abc = .ok r ∧
      (r = true ↔ [97, 98, 99].length ≤ [97, 98, 99].length ∧
        ∀ i, i < [97, 98, 99].length → [97, 98, 99][i]? = [97, 98, 99][i]?)) ∧
    starts_with_cstr lp64 heap_str str_abc none = .ok true :=
  ⟨(C20_starts_with lp64 heap_str str_abc [97, 98, 99] (by decide)).1 str_abc [97, 98, 99]
      (by decide),
   (C20_starts_with lp64 heap_str str_abc [97, 98, 99] (by decide)).2.2.2.1⟩

/-! ## The substring constructor -/

/-- C17 at a failing input, on LP64: from the valid NUL-free string of 16
characters `a`, `basic_simple_string(s, 0, cch)` with `cch` the largest
`size_type` value.  The capacity asked of `alloc_buffer_` is `cch`, `cch + 1`
wraps to `0`, and the block made has 16 character slots; the copy of the 16
characters fills it and the terminator is written outside the block.  The
content claimed is all 16 characters, with a capacity above 16. -/
theorem C17_substring_constructor_overflow :
    Valid lp64 heap_sixteen str_sixteen (List.replicate 16 97) ∧
    NulFree (List.replicate 16 97) ∧
    (((List.replicate 16 97).drop 0).take (min (2 ^ 64 - 1) (16 - 0))).length = 16 ∧
    ctor_str_pos_cch lp64 heap_sixteen str_sixteen 0 (2 ^ 64 - 1)
      = .error Fault.access_violation ∧
    (∃ h1, alloc_buffer_ lp64 heap_sixteen none (2 ^ 64 - 1) 0 = .ok (h1, some 2) ∧
      capacity h1 { m_buffer := some 2 } = .ok 16) :=
  ⟨by decide, by decide, rfl, rfl, _, rfl, rfl⟩

/-- C12 at a failing input, on LP64: the valid string "abc" has capacity 16 and
`resize(17, 'x')` grows it past that.  The method expands by
`assign(c_str(), 17)`, which copies 17 characters out of the old block of 16
slots: the read leaves the block. -/
theorem C12_resize_past_capacity :
    Valid lp64 heap_str str_abc [97, 98, 99] ∧
    str_abc.capacity heap_str = .ok 16 ∧
    heap_str.fails heap_str.next = false ∧
    resize lp64 heap_str str_abc 17 120 = .error Fault.access_violation ∧
    assign lp64 heap_str str_abc (some str_abc.c_str) 17 = .error Fault.access_violation :=
  ⟨by decide, rfl, rfl, rfl, rfl⟩

/-! ## Clearing -/

/-- One `push_back` of a character other than NUL into a buffer with room:
the buffer is kept and so is its capacity. -/
theorem push_back_in_place (P : Platform) (h : Heap) (id : Nat) (b : string_buffer)
    (c : List char_type) (ch : char_type) (hb : h.blocks id = some b) (hh : b.holds P c)
    (hid : id < h.next) (hroom : c.length + 1 < b.capacity) (hch : ch ≠ 0) :
    ∃ h2 b2, push_back P h { m_buffer := some id } ch = .ok (h2, { m_buffer := some id }) ∧
      h2.blocks id = some b2 ∧ b2.holds P (c ++ [ch]) ∧ b2.capacity = b.capacity ∧
      h2.next = h.next + 1 ∧ h.later h2 ∧
      (∀ j, j < h.next → j ≠ id → h2.blocks j = h.blocks j) := by
  have hnf1 : NulFree [ch] := by
    intro y hy
    rw [List.mem_singleton] at hy
    rw [hy]; exact hch
  have hne : id ≠ h.next := by omega
  have hb0 : (h.store (List.replicate 1 ch)).1.blocks id = some b := by
    simp only [Heap.store]
    rw [Heap.put_blocks_other _ _ _ _ hne]
    exact hb
  have ha := append_in_place P (h.store (List.replicate 1 ch)).1 id b c
    (h.store (List.replicate 1 ch)).2 1 [ch] hb0 hh (by omega) hroom
    (Or.inl (by simpa [Heap.store] using hne.symm)) (by rw [Heap.store_view]; rfl) rfl hnf1
  refine ⟨((h.store (List.replicate 1 ch)).1.put id (some
      ⟨b.capacity, c.length + 1, (splice b.contents c.length [ch]).set (c.length + 1) 0⟩)).deallocate
      h.next,
    ⟨b.capacity, c.length + 1, (splice b.contents c.length [ch]).set (c.length + 1) 0⟩,
    ?_, ?_, holds_append P b c [ch] 1 hh hroom rfl, rfl, ?_, ?_, ?_⟩
  · simp only [push_back, append_fill, bind, Except.bind, ha, pure, Except.pure]
    rfl
  · rw [Heap.deallocate, Heap.put_blocks_other _ _ _ _ hne]
    simp
  · simp [Heap.deallocate, Heap.store]
  · exact ⟨rfl, rfl, by simp [Heap.deallocate, Heap.store]⟩
  · intro j hj hjid
    rw [Heap.deallocate, Heap.put_blocks_other _ _ _ _ (by omega),
      Heap.put_blocks_other _ _ _ _ hjid]
    simp [Heap.store, Heap.put_blocks_other _ _ _ _ (show j ≠ h.next by omega)]

/-- The method `clear()` on a string that holds a buffer: the buffer is kept,
with its capacity, and stores the empty string. -/
theorem clear_held (P : Platform) (h : Heap) (id : Nat) (b : string_buffer)
    (c : List char_type) (hb : h.blocks id = some b) (hh : b.holds P c) :
    ∃ b2, clear h { m_buffer := some id } = .ok (h.put id (some b2), { m_buffer := some id }) ∧
      b2.holds P [] ∧ b2.capacity = b.capacity := by
  obtain ⟨hlen, hcap, hlc, hlt, htake, hnul⟩ := hh
  have hwrite := Heap.write_ok (h.put id (some ⟨b.capacity, 0, b.contents⟩))
    { blk := id, off := 0 } 0 ⟨b.capacity, 0, b.contents⟩ (by simp)
    (by simp only []; omega)
  refine ⟨⟨b.capacity, 0, b.contents.set 0 0⟩, ?_, ?_, rfl⟩
  · simp only [clear, Heap.set_length, hb, bind, Except.bind, hwrite, Heap.put_put, pure,
      Except.pure]
  · refine ⟨rfl, ?_, ?_, hlt, rfl, ?_⟩
    · show b.capacity = (b.contents.set 0 0).length
      rw [List.length_set, hcap]
    · show 0 < b.capacity
      omega
    · show (b.contents.set 0 0)[0]? = some 0
      rw [List.getElem?_set_self (by omega)]

/-- An append that fits in the buffer: the buffer is kept, with its capacity,
and stores the old content followed by the source. -/
theorem append_fits (P : Platform) (h : Heap) (id : Nat) (b : string_buffer)
    (c : List char_type) (p : CharPtr) (t : List char_type)
    (hb : h.blocks id = some b) (hh : b.holds P c)
    (hroom : c.length + t.length < b.capacity) (hsep : p.blk ≠ id)
    (hsrc : (h.view (some p)).take t.length = t) (hnf : NulFree t) :
    ∃ b2, append P h { m_buffer := some id } (some p) t.length
        = .ok (h.put id (some b2), { m_buffer := some id }) ∧
      b2.holds P (c ++ t) ∧ b2.capacity = b.capacity := by
  by_cases hn : t.length = 0
  · have ht : t = [] := List.length_eq_zero.mp hn
    subst ht
    refine ⟨b, ?_, by simpa using hh, rfl⟩
    rw [Heap.put_self h id _ hb]
    simp [append, pure, Except.pure]
  · exact ⟨_, append_in_place P h id b c p t.length t hb hh (Nat.pos_of_ne_zero hn) hroom
      (Or.inl hsep) hsrc rfl hnf, holds_append P b c t t.length hh hroom rfl, rfl⟩

/-- The method `clear()` retains the capacity, for requests whose rounding does
not wrap: from a default-constructed string, for every `n >= 1` with
`n + header + 32 < 2 ^ size_bits` and every character `ch` other than NUL,
`reserve(n)`, `push_back(ch)` and `clear()` run in turn (the one allocation
succeeding);
after `clear()` the size is `0` and `capacity()` is what it was before it, at
least `n`; and an append of `k <= n` NUL-free characters `t` from a caller's
array that follows keeps the buffer and its capacity and yields exactly `t`. -/
theorem clear_retains_capacity (P : Platform) (h : Heap) (n : Nat) (ch : char_type)
    (hw : 5 ≤ P.size_bits) (hwf : h.wf) (hn : 1 ≤ n) (hch : ch ≠ 0)
    (hfit : n + P.members + 32 < 2 ^ P.size_bits) (halloc : h.fails h.next = false) :
    ∃ h1 x1 h2 x2 h3 x3 cap,
      reserve P h ctor_default n = .ok (h1, x1) ∧
      push_back P h1 x1 ch = .ok (h2, x2) ∧ x2.capacity h2 = .ok cap ∧ n ≤ cap ∧
      clear h2 x2 = .ok (h3, x3) ∧ x3.size h3 = .ok 0 ∧ x3.capacity h3 = .ok cap ∧
      ∀ (p : CharPtr) (t : List char_type), p.blk < h.next →
        (h.view (some p)).take t.length = t → NulFree t → t.length ≤ n →
        (h3.view (some p)).take t.length = t ∧
        ∃ h4 x4, append P h3 x3 (some p) t.length = .ok (h4, x4) ∧
          x4.m_buffer = x3.m_buffer ∧ x4.capacity h4 = .ok cap ∧
          x4.size h4 = .ok t.length ∧ content h4 x4 = .ok t := by
  obtain ⟨h1, b1, hr, hb1, hh1, hc1, hn1, _, hfr1⟩ :=
    reserve_grow P h ctor_default [] n hw (Valid_none P h [] |>.mpr rfl) halloc hfit
      (by simpa using hn) (by intro id b hm; cases hm)
  have hge : n + 1 + P.members ≤ (n + P.members + 32) / 32 * 32 := by omega
  have hcap1 : n < b1.capacity := by omega
  obtain ⟨h2, b2, hp, hb2, hh2, hc2, hn2, _, hfr2⟩ :=
    push_back_in_place P h1 h.next b1 [] ch hb1 hh1 (by omega) (by simpa using by omega) hch
  obtain ⟨b3, hcl, hh3, hc3⟩ := clear_held P h2 h.next b2 _ hb2 hh2
  have hb3 : (h2.put h.next (some b3)).blocks h.next = some b3 := Heap.put_blocks_same _ _ _
  refine ⟨h1, _, h2, _, h2.put h.next (some b3), _, b1.capacity, hr, hp, ?_, le_of_lt hcap1,
    hcl, ?_, ?_, ?_⟩
  · rw [capacity_of_block h2 _ b2 hb2, hc2]
  · simp [size, Heap.buffer, hb3, hh3.1, bind, Except.bind, pure, Except.pure]
  · rw [capacity_of_block _ _ b3 hb3, hc3, hc2]
  · intro p t hp0 hsrc hnf hk
    have hpne : p.blk ≠ h.next := by omega
    have hblk : (h2.put h.next (some b3)).blocks p.blk = h.blocks p.blk := by
      rw [Heap.put_blocks_other _ _ _ _ hpne, hfr2 p.blk (by omega) hpne,
        hfr1 p.blk hp0 (by simp [ctor_default])]
    have hview : (h2.put h.next (some b3)).view (some p) = h.view (some p) := by
      simp only [Heap.view, hblk]
    refine ⟨by rw [hview]; exact hsrc, ?_⟩
    obtain ⟨b4, ha, hh4, hc4⟩ := append_fits P (h2.put h.next (some b3)) h.next b3 [] p t hb3 hh3
      (by simp only [List.length_nil]; omega) hpne (by rw [hview]; exact hsrc) hnf
    have hb4 : ((h2.put h.next (some b3)).put h.next (some b4)).blocks h.next = some b4 :=
      Heap.put_blocks_same _ _ _
    have hh4t : b4.holds P t := by simpa using hh4
    have hv4 : Valid P ((h2.put h.next (some b3)).put h.next (some b4))
        { m_buffer := some h.next } t :=
      (Valid_some P _ _ t).mpr ⟨hwf.1, by simp only [Heap.put_next, hn2, hn1]; omega, b4, hb4, hh4t⟩
    refine ⟨_, _, ha, rfl, ?_, size_of_valid P _ _ t hv4, content_of_valid P _ _ t hv4⟩
    rw [capacity_of_block _ _ b4 hb4, hc4, hc3, hc2]

/-- On LP64, `reserve(3)`, `push_back('A')` and `clear()` from the heap in
which a caller holds "abc". -/
theorem clear_retains_capacity_witness :
    ∃ h1 x1 h2 x2 h3 x3 cap,
      reserve lp64 heap_abc ctor_default 3 = .ok (h1, x1) ∧
      push_back lp64 h1 x1 65 = .ok (h2, x2) ∧ x2.capacity h2 = .ok cap ∧ 3 ≤ cap ∧
      clear h2 x2 = .ok (h3, x3) ∧ x3.size h3 = .ok 0 ∧ x3.capacity h3 = .ok cap ∧
      ∀ (p : CharPtr) (t : List char_type), p.blk < heap_abc.next →
        (heap_abc.view (some p)).take t.length = t → NulFree t → t.length ≤ 3 →
        (h3.view (some p)).take t.length = t ∧
        ∃ h4 x4, append lp64 h3 x3 (some p) t.length = .ok (h4, x4) ∧
          x4.m_buffer = x3.m_buffer ∧ x4.capacity h4 = .ok cap ∧
          x4.size h4 = .ok t.length ∧ content h4 x4 = .ok t :=
  clear_retains_capacity lp64 heap_abc 3 65 (by decide) ⟨by decide, _, rfl, rfl⟩
    (by decide) (by decide) (by decide) rfl

/-! ## Resizing -/

/-- A fill inside a block replaces the destination range by copies of the
character. -/
theorem traits_type.assign_ok (n : Nat) (ch : char_type) : ∀ (h : Heap) (dest : CharPtr)
    (bd : string_buffer),
    h.blocks dest.blk = some bd → dest.off + n ≤ bd.contents.length →
    traits_type.assign n h dest ch
      = .ok (h.put dest.blk
          (some { bd with contents := splice bd.contents dest.off (List.replicate n ch) })) := by
  induction n with
  | zero =>
    intro h dest bd hb _
    simp only [traits_type.assign, List.replicate_zero, splice_nil]
    rw [Heap.put_self _ _ _ hb]
  | succ n ih =>
    intro h dest bd hb hfit
    have hwrite := Heap.write_ok h dest ch bd hb (by omega)
    have hb1 : (h.put dest.blk (some { bd with contents := bd.contents.set dest.off ch })).blocks
        (dest.add 1).blk = some { bd with contents := bd.contents.set dest.off ch } := by
      simp [CharPtr.add]
    simp only [traits_type.assign, hwrite, bind, Except.bind]
    rw [ih _ (dest.add 1) _ hb1 (by simp [CharPtr.add]; omega)]
    simp only [CharPtr.add, Heap.put_put, List.replicate_succ]
    rw [splice_cons _ _ _ _ (by omega)]

/-- The tail of `resize` when it grows: the fill from the old length on, the
new length and the terminator, in a block that has the old content in front
and room for `cch` characters and the terminator. -/
theorem resize_fill (P : Platform) (h : Heap) (id : Nat) (b : string_buffer)
    (c : List char_type) (cch : Nat) (ch : char_type) (hb : h.blocks id = some b)
    (hcap : b.capacity = b.contents.length) (hlt : b.capacity < 2 ^ P.size_bits)
    (htake : b.contents.take c.length = c) (hlen : c.length < cch) (hroom : cch < b.capacity) :
    ∃ ha h2 b2,
      traits_type.assign (P.sub cch c.length) h { blk := id, off := 0 + c.length } ch = .ok ha ∧
      ha.set_length id cch = .ok h2 ∧
      h2.write { blk := id, off := cch } 0 = .ok (h.put id (some b2)) ∧
      b2.holds P (c ++ List.replicate (cch - c.length) ch) ∧ b2.capacity = b.capacity := by
  have hsub : P.sub cch c.length = cch - c.length :=
    P.sub_eq _ _ (by omega) (le_of_lt hlen)
  have hfill := traits_type.assign_ok (cch - c.length) ch h { blk := id, off := 0 + c.length } b
    hb (by simp only []; omega)
  have hsl : (splice b.contents (0 + c.length) (List.replicate (cch - c.length) ch)).length
      = b.contents.length := splice_length _ _ _ (by simp; omega)
  have hwrite := Heap.write_ok
    (h.put id (some ⟨b.capacity, cch,
      splice b.contents (0 + c.length) (List.replicate (cch - c.length) ch)⟩))
    { blk := id, off := cch } 0
    ⟨b.capacity, cch, splice b.contents (0 + c.length) (List.replicate (cch - c.length) ch)⟩
    (by simp) (by simp only [hsl]; omega)
  have hl2 : (c ++ List.replicate (cch - c.length) ch).length = cch := by
    simp; omega
  refine ⟨h.put id (some ⟨b.capacity, b.length,
      splice b.contents (0 + c.length) (List.replicate (cch - c.length) ch)⟩),
    h.put id (some ⟨b.capacity, cch,
      splice b.contents (0 + c.length) (List.replicate (cch - c.length) ch)⟩),
    ⟨b.capacity, cch,
      (splice b.contents (0 + c.length) (List.replicate (cch - c.length) ch)).set cch 0⟩,
    by rw [hsub]; exact hfill, ?_, ?_, ?_, rfl⟩
  · simp only [Heap.set_length, Heap.put_blocks_same, Heap.put_put]
  · rw [hwrite]
    simp only [Heap.put_put]
  · refine ⟨hl2.symm, ?_, ?_, hlt, ?_, ?_⟩
    · show b.capacity = ((splice b.contents (0 + c.length) _).set cch 0).length
      rw [List.length_set, hsl, hcap]
    · show (c ++ List.replicate (cch - c.length) ch).length < b.capacity
      omega
    · show ((splice b.contents (0 + c.length) (List.replicate (cch - c.length) ch)).set cch
        0).take (c ++ List.replicate (cch - c.length) ch).length = _
      rw [hl2, List.set_take, List.set_eq_of_length_le (by simp)]
      unfold splice
      rw [Nat.zero_add, htake]
      have e := List.take_left (c ++ List.replicate (cch - c.length) ch)
        (b.contents.drop (c.length + (List.replicate (cch - c.length) ch).length))
      rw [hl2] at e
      exact e
    · show ((splice b.contents (0 + c.length) (List.replicate (cch - c.length) ch)).set cch
        0)[(c ++ List.replicate (cch - c.length) ch).length]? = some 0
      rw [hl2, List.getElem?_set_self (by rw [hsl]; omega)]

/-- The method `resize` when it shrinks. -/
theorem resize_shrink (P : Platform) (h : Heap) (id : Nat) (b : string_buffer)
    (c : List char_type) (cch : Nat) (ch : char_type) (hb : h.blocks id = some b)
    (hh : b.holds P c) (hlen : cch < c.length) :
    ∃ b2, resize P h { m_buffer := some id } cch ch
        = .ok (h.put id (some b2), { m_buffer := some id }) ∧
      b2.holds P (c.take cch) ∧ b2.capacity = b.capacity := by
  obtain ⟨hl, hcap, hlc, hlt, htake, hnul⟩ := hh
  have hsz : length h { m_buffer := some id } = .ok c.length := by
    simp [length, size, Heap.buffer, hb, hl, bind, Except.bind, pure, Except.pure]
  have hwrite := Heap.write_ok (h.put id (some ⟨b.capacity, cch, b.contents⟩))
    { blk := id, off := cch } 0 ⟨b.capacity, cch, b.contents⟩ (by simp)
    (by simp only []; omega)
  have hl2 : (c.take cch).length = cch := by
    rw [List.length_take]; omega
  refine ⟨⟨b.capacity, cch, b.contents.set cch 0⟩, ?_, ?_, rfl⟩
  · unfold resize
    simp only [hsz, bind, Except.bind]
    rw [if_pos (by omega), if_neg (by omega)]
    simp only [pure, Except.pure, Heap.set_length, hb, hwrite, Heap.put_put]
  · refine ⟨hl2.symm, ?_, ?_, hlt, ?_, ?_⟩
    · show b.capacity = (b.contents.set cch 0).length
      rw [List.length_set, hcap]
    · show (c.take cch).length < b.capacity
      omega
    · show (b.contents.set cch 0).take (c.take cch).length = c.take cch
      rw [hl2, List.set_take, List.set_eq_of_length_le (by simp)]
      conv => rhs; rw [← htake]
      rw [List.take_take, Nat.min_eq_left (le_of_lt hlen)]
    · show (b.contents.set cch 0)[(c.take cch).length]? = some 0
      rw [hl2, List.getElem?_set_self (by omega)]

/-- The method `resize` when it grows a string that holds a buffer to no more
than the capacity of that buffer. -/
theorem resize_grow_held (P : Platform) (h : Heap) (id : Nat) (b : string_buffer)
    (c : List char_type) (cch : Nat) (ch : char_type) (hw : 5 ≤ P.size_bits)
    (hb : h.blocks id = some b) (hh : b.holds P c) (hid : id < h.next)
    (hlen : c.length < cch) (hcapb : cch ≤ b.capacity)
    (hfit : cch + P.members + 32 < 2 ^ P.size_bits) (halloc : h.fails h.next = false) :
    ∃ h1 b2, resize P h { m_buffer := some id } cch ch = .ok (h1, { m_buffer := some h.next }) ∧
      h1.blocks h.next = some b2 ∧ h1.next = h.next + 1 ∧
      b2.holds P (c ++ List.replicate (cch - c.length) ch) := by
  obtain ⟨hl, hcap, hlc, hlt, htake, hnul⟩ := hh
  have hsz : length h { m_buffer := some id } = .ok c.length := by
    simp [length, size, Heap.buffer, hb, hl, bind, Except.bind, pure, Except.pure]
  have hview0 : h.view (some { blk := id, off := 0 }) = b.contents := by
    rw [Heap.view_some h _ b hb]; rfl
  have htl : (b.contents.take cch).length = cch := by
    rw [List.length_take]; omega
  obtain ⟨b1, hassign, hh1, hc1⟩ := assign_fresh P h id b { blk := id, off := 0 } cch
    (b.contents.take cch) hw hb (by simp) hfit halloc hid (by rw [hview0]) htl
  have hne : h.next ≠ id := by omega
  have hb1 : ((h.grow.put h.next (some b1)).put id none).blocks h.next = some b1 := by
    rw [Heap.put_blocks_other _ _ _ _ hne]
    simp
  obtain ⟨hl1, hcap1, hlc1, hlt1, htake1, _⟩ := hh1
  rw [htl] at hlc1 htake1
  have htake2 : b1.contents.take c.length = c := by
    have e := congrArg (List.take c.length) htake1
    rw [List.take_take, List.take_take, Nat.min_eq_left (le_of_lt hlen)] at e
    rw [e, htake]
  obtain ⟨ha, h2, b2, hfill, hset, hwrite, hh2, _⟩ :=
    resize_fill P _ h.next b1 c cch ch hb1 hcap1 hlt1 htake2 hlen hlc1
  refine ⟨((h.grow.put h.next (some b1)).put id none).put h.next (some b2), b2, ?_,
    Heap.put_blocks_same _ _ _, rfl, hh2⟩
  unfold resize
  simp only [hsz, bind, Except.bind]
  rw [if_pos (by omega), if_pos hlen]
  simp only [c_str, hassign, ptr_add, char_pointer_from_member_pointer_, Option.map, CharPtr.add,
    hfill, pure, Except.pure, hset, hwrite]

/-- The method `resize` when it grows a string that holds no buffer. -/
theorem resize_grow_null (P : Platform) (h : Heap) (cch : Nat) (ch : char_type)
    (hw : 5 ≤ P.size_bits) (hwf : h.wf) (hlen : 0 < cch)
    (hfit : cch + P.members + 32 < 2 ^ P.size_bits) (halloc : h.fails h.next = false) :
    ∃ h1 b2, resize P h { m_buffer := none } cch ch = .ok (h1, { m_buffer := some h.next }) ∧
      h1.blocks h.next = some b2 ∧ h1.next = h.next + 1 ∧
      b2.holds P (List.replicate cch ch) := by
  obtain ⟨h0, b0, hb0, hc0⟩ := hwf
  have hview0 : h.view (some empty_string_) = [0] := by
    rw [Heap.view_some h _ b0 hb0, hc0]; rfl
  have hlm : traits_type.length_max_null h (some empty_string_) cch = .ok 0 := by
    show traits_type.length_max_loop (h.view (some empty_string_)) cch = _
    rw [hview0]
    cases cch with
    | zero => rfl
    | succ n => simp [traits_type.length_max_loop]
  obtain ⟨b1, hal, hh1, hc1⟩ := alloc_buffer_ok P h empty_string_ cch 0 [] hw hfit (Nat.zero_le _)
    halloc h0 (by simp) rfl
  have hge : cch + 1 + P.members ≤ (cch + P.members + 32) / 32 * 32 := by omega
  have hb1 : (h.grow.put h.next (some b1)).blocks h.next = some b1 := Heap.put_blocks_same _ _ _
  obtain ⟨hl1, hcap1, hlc1, hlt1, htake1, _⟩ := hh1
  obtain ⟨ha, h2, b2, hfill, hset, hwrite, hh2, _⟩ :=
    resize_fill P _ h.next b1 [] cch ch hb1 hcap1 hlt1 (by simp) (by simpa using hlen)
      (by omega)
  refine ⟨(h.grow.put h.next (some b1)).put h.next (some b2), b2, ?_,
    Heap.put_blocks_same _ _ _, rfl, by simpa using hh2⟩
  simp only [List.length_nil, Nat.add_zero] at hfill
  unfold resize
  simp only [length, size, bind, Except.bind, pure, Except.pure]
  rw [if_pos (by omega), if_pos hlen]
  simp only [c_str, assign, if_neg (Nat.pos_iff_ne_zero.mp hlen), alloc_buffer_cch, hlm, bind,
    Except.bind, Nat.not_lt_zero, ↓reduceIte, hal, pure, Except.pure, ptr_add,
    char_pointer_from_member_pointer_, Option.map, CharPtr.add, Nat.add_zero, hfill, hset, hwrite]

/-- The method `resize(cch, ch)` on a valid string with content `c`, when it
does not have to read past the buffer it holds: the result has the first
`min(len, cch)` characters of `c` followed by `cch - len` copies of `ch`. -/
theorem resize_spec (P : Platform) (h : Heap) (x : basic_simple_string) (c : List char_type)
    (cch : Nat) (ch : char_type) (hw : 5 ≤ P.size_bits) (hwf : h.wf) (hv : Valid P h x c)
    (hfit : cch + P.members + 32 < 2 ^ P.size_bits) (halloc : h.fails h.next = false)
    (hcap : ∀ id b, x.m_buffer = some id → h.blocks id = some b → cch ≤ b.capacity) :
    ∃ h1 x1, resize P h x cch ch = .ok (h1, x1) ∧
      Valid P h1 x1 (c.take cch ++ List.replicate (cch - c.length) ch) := by
  have hsz : x.length h = .ok c.length := size_of_valid P h x c hv
  rcases Nat.lt_trichotomy c.length cch with hlt | heq | hgt
  · rw [List.take_of_length_le (le_of_lt hlt)]
    cases x with
    | mk m =>
      cases m with
      | none =>
        have hc := (Valid_none P h c).mp hv
        subst hc
        obtain ⟨h1, b2, hr, hb2, hn, hh2⟩ :=
          resize_grow_null P h cch ch hw hwf (by simpa using hlt) hfit halloc
        exact ⟨h1, _, hr, (Valid_some P _ _ _).mpr ⟨hwf.1, by omega, b2, hb2,
          by simpa using hh2⟩⟩
      | some id =>
        obtain ⟨_, hid, b, hb, hh⟩ := (Valid_some P h id c).mp hv
        obtain ⟨h1, b2, hr, hb2, hn, hh2⟩ := resize_grow_held P h id b c cch ch hw hb hh hid hlt
          (hcap id b rfl hb) hfit halloc
        exact ⟨h1, _, hr, (Valid_some P _ _ _).mpr ⟨hwf.1, by omega, b2, hb2, hh2⟩⟩
  · subst heq
    refine ⟨h, x, ?_, by simpa using hv⟩
    simp [resize, hsz, bind, Except.bind, pure, Except.pure]
  · rw [Nat.sub_eq_zero_of_le (le_of_lt hgt), List.replicate_zero, List.append_nil]
    cases x with
    | mk m =>
      cases m with
      | none =>
        have hc := (Valid_none P h c).mp hv
        subst hc
        simp at hgt
      | some id =>
        obtain ⟨hpos, hid, b, hb, hh⟩ := (Valid_some P h id c).mp hv
        obtain ⟨b2, hr, hh2, _⟩ := resize_shrink P h id b c cch ch hb hh hgt
        exact ⟨_, _, hr, Valid_put_same P h id b2 _ hpos hid hh2⟩

/-! ## Move construction -/

/-- C24. Move leaves the source empty: for every string `a` with content `c`,
after move-constructing `b` from `a`, `a` holds no buffer, `a.empty()` is true,
`a.size() == 0` and `a.capacity() == 0`, and `b` has size `len(c)`, content `c`
and the capacity `a` had; the heap is not touched. -/
theorem C24_move_leaves_source_empty (P : Platform) (h : Heap) (a : basic_simple_string)
    (c : List char_type) (hv : Valid P h a c) :
    (ctor_move a).2.m_buffer = none ∧
    (ctor_move a).2.empty h = .ok true ∧
    (ctor_move a).2.size h = .ok 0 ∧
    (ctor_move a).2.capacity h = .ok 0 ∧
    Valid P h (ctor_move a).1 c ∧
    (ctor_move a).1.size h = .ok c.length ∧
    content h (ctor_move a).1 = .ok c ∧
    (ctor_move a).1.capacity h = a.capacity h := by
  have hb : (ctor_move a).1 = a := rfl
  rw [hb]
  exact ⟨rfl, rfl, rfl, rfl, hv, size_of_valid P h a c hv, content_of_valid P h a c hv, rfl⟩

/-- C24 on LP64 at the string "abc". -/
theorem C24_move_leaves_source_empty_witness :
    (ctor_move str_abc).2.m_buffer = none ∧
    (ctor_move str_abc).2.empty heap_str = .ok true ∧
    (ctor_move str_abc).2.size heap_str = .ok 0 ∧
    (ctor_move str_abc).2.capacity heap_str = .ok 0 ∧
    Valid lp64 heap_str (ctor_move str_abc).1 [97, 98, 99] ∧
    (ctor_move str_abc).1.size heap_str = .ok [97, 98, 99].length ∧
    content heap_str (ctor_move str_abc).1 = .ok [97, 98, 99] ∧
    (ctor_move str_abc).1.capacity heap_str = str_abc.capacity heap_str :=
  C24_move_leaves_source_empty lp64 heap_str str_abc [97, 98, 99] (by decide)

/-! ## Trailing characters -/

/-- The last `d.length` characters of `c` are `d` exactly when `d` agrees with
`c` at every index of `d`, shifted by the difference of the lengths. -/
theorem drop_eq_iff (c d : List char_type) (hl : d.length ≤ c.length) :
    c.drop (c.length - d.length) = d ↔
      ∀ i, i < d.length → (c)[c.length - d.length + i]? = (d)[i]? := by
  constructor
  · intro h i _
    rw [← List.getElem?_drop, h]
  · intro hi
    apply List.ext_getElem?
    intro i
    rw [List.getElem?_drop]
    by_cases hlt : i < d.length
    · exact hi i hlt
    · rw [List.getElem?_eq_none (by omega), List.getElem?_eq_none (by omega)]

/-- The function `ends_with_(s, n)` on `n` readable characters `d`. -/
theorem ends_with__spec (P : Platform) (h : Heap) (x : basic_simple_string)
    (c : List char_type) (s : Option CharPtr) (d r : List char_type) (hv : Valid P h x c)
    (hs : h.view (ptr_add s 0) = d ++ r) :
    ends_with_ P h x s d.length
      = .ok (decide (d.length ≤ c.length ∧ c.drop (c.length - d.length) = d)) := by
  cases x with
  | mk m =>
    cases m with
    | none =>
      have hc := (Valid_none P h c).mp hv
      subst hc
      cases d with
      | nil => simp [ends_with_, pure, Except.pure]
      | cons a d => simp [ends_with_, pure, Except.pure]
    | some id =>
      obtain ⟨_, _, b, hb, hh⟩ := (Valid_some P h id c).mp hv
      have hcont := string_buffer.holds_contents P b c hh
      by_cases hlt : c.length < d.length
      · have hne : ¬ (d.length ≤ c.length ∧ c.drop (c.length - d.length) = d) := by
          intro e
          omega
        simp only [ends_with_, Heap.buffer, hb, hh.1, if_pos hlt, bind, Except.bind, pure,
          Except.pure, decide_eq_false hne]
      · have hle : d.length ≤ c.length := Nat.le_of_not_lt hlt
        have hsub : P.sub c.length d.length = c.length - d.length :=
          P.sub_eq _ _ (by have := hh.2.2.1; have := hh.2.2.2.1; omega) hle
        have hA : (c.drop (c.length - d.length)).length = d.length := by
          rw [List.length_drop]; omega
        have hl : h.view (some { blk := id, off := 0 + (c.length - d.length) })
            = c.drop (c.length - d.length) ++ 0 :: b.contents.drop (c.length + 1) := by
          rw [Heap.view_some h _ b hb]
          show b.contents.drop (0 + (c.length - d.length)) = _
          rw [Nat.zero_add]
          conv => lhs; rw [hcont]
          rw [List.drop_append_of_le_length (by omega)]
        have hz := compare__spec P h _ _ (c.drop (c.length - d.length)) d _ r hl hs
        rw [hA, Int.sub_self, P.to_int_zero] at hz
        simp only [ends_with_, Heap.buffer, hb, hh.1, if_neg hlt, hsub, hz, bind, Except.bind,
          pure, Except.pure]
        by_cases hfd : first_diff (c.drop (c.length - d.length)) d = 0
        · rw [if_pos hfd, decide_eq_true rfl,
            decide_eq_true ⟨hle, (first_diff_eq_zero_iff _ _ hA).mp hfd⟩]
        · have hne : ¬ (d.length ≤ c.length ∧ c.drop (c.length - d.length) = d) :=
            fun e => hfd ((first_diff_eq_zero_iff _ _ hA).mpr e.2)
          have h0 : ¬ (0 : Int) = first_diff (c.drop (c.length - d.length)) d :=
            fun e => hfd e.symm
          rw [if_neg hfd, decide_eq_false h0, decide_eq_false hne]

/-- The method `ends_with(ch)`. -/
theorem ends_with_ch_spec (P : Platform) (h : Heap) (x : basic_simple_string)
    (c : List char_type) (ch : char_type) (hv : Valid P h x c) :
    ends_with_ch P h x ch = .ok (decide (c ≠ [] ∧ (c)[c.length - 1]? = some ch)) := by
  have hsz : x.length h = .ok c.length := size_of_valid P h x c hv
  by_cases hc : c = []
  · subst hc
    simp [ends_with_ch, empty, hsz, bind, Except.bind, pure, Except.pure]
  · have hpos : 0 < c.length := List.length_pos.mpr hc
    cases x with
    | mk m =>
      cases m with
      | none => exact absurd ((Valid_none P h _).mp hv) hc
      | some id =>
        have hlt := length_lt_of_valid P h _ c hv
        have hsub : P.sub c.length 1 = c.length - 1 := P.sub_eq _ _ hlt hpos
        have hr := read_of_valid P h id c hv (c.length - 1) (by omega)
        have hr0 : h.read { blk := id, off := 0 + (c.length - 1) }
            = .ok (c.get ⟨c.length - 1, by omega⟩) := by
          rw [Nat.zero_add]; exact hr
        have hget : (c)[c.length - 1]? = some (c.get ⟨c.length - 1, by omega⟩) := by
          rw [List.getElem?_eq_getElem (by omega)]
          rfl
        have he : (0 == c.length) = false := by
          rw [beq_eq_false_iff_ne]; omega
        simp only [ends_with_ch, empty, hsz, bind, Except.bind, pure, Except.pure, he, back,
          hsub, index_const, ptr_add, char_pointer_from_member_pointer_, Option.map, CharPtr.add,
          hr0, hget]
        generalize c.get ⟨c.length - 1, by omega⟩ = a
        rw [if_neg Bool.false_ne_true]
        congr 1
        rw [Bool.eq_iff_iff]
        simp [hc]

/-- C21. The method `ends_with` decides the relation "ends with": for a string
`s` with content `c` and `p` with content `d`, given as a string or as a C
string, `s.ends_with(p)` returns, and returns true if and only if
`p.size() <= s.size()` and `s[s.size() - p.size() + i] == p[i]` for every
`i < p.size()`; and `s.ends_with(ch)` is true iff `s` is non-empty and its last
character is `ch`. -/
theorem C21_ends_with (P : Platform) (h : Heap) (x : basic_simple_string)
    (c : List char_type) (hv : Valid P h x c) :
    (∀ y d, Valid P h y d → ∃ r, ends_with P h x y = .ok r ∧
      (r = true ↔ d.length ≤ c.length ∧
        ∀ i, i < d.length → (c)[c.length - d.length + i]? = (d)[i]?)) ∧
    (∀ q d rest, h.view (some q) = d ++ 0 :: rest → NulFree d →
      ∃ r, ends_with_cstr P h x (some q) = .ok r ∧
        (r = true ↔ d.length ≤ c.length ∧
          ∀ i, i < d.length → (c)[c.length - d.length + i]? = (d)[i]?)) ∧
    (∀ ch, ∃ r, ends_with_ch P h x ch = .ok r ∧
      (r = true ↔ c ≠ [] ∧ (c)[c.length - 1]? = some ch)) := by
  have key : ∀ d : List char_type,
      (decide (d.length ≤ c.length ∧ c.drop (c.length - d.length) = d) = true ↔
        d.length ≤ c.length ∧
          ∀ i, i < d.length → (c)[c.length - d.length + i]? = (d)[i]?) := by
    intro d
    rw [decide_eq_true_iff]
    constructor
    · rintro ⟨hl, he⟩
      exact ⟨hl, (drop_eq_iff c d hl).mp he⟩
    · rintro ⟨hl, he⟩
      exact ⟨hl, (drop_eq_iff c d hl).mpr he⟩
  refine ⟨?_, ?_, ?_⟩
  · intro y d hy
    have hsz : y.size h = .ok d.length := size_of_valid P h y d hy
    obtain ⟨r, hr⟩ : ∃ r, h.view (ptr_add (some y.data) 0) = d ++ r := by
      cases y with
      | mk m =>
        cases m with
        | none =>
          have hd := (Valid_none P h d).mp hy
          subst hd
          exact ⟨_, (List.nil_append _).symm⟩
        | some id =>
          obtain ⟨rest, hview⟩ := view_of_valid P h id d hy
          exact ⟨0 :: rest, by simpa [ptr_add, data, CharPtr.add] using hview⟩
    refine ⟨decide (d.length ≤ c.length ∧ c.drop (c.length - d.length) = d), ?_, key d⟩
    simp only [ends_with, hsz, bind, Except.bind]
    exact ends_with__spec P h x c _ d r hv hr
  · intro q d rest hq hd
    have hlen : traits_type.length h q = .ok d.length := by
      unfold traits_type.length
      rw [hq]
      exact traits_type.length_loop_ok d rest hd
    have hs : h.view (ptr_add (some q) 0) = d ++ 0 :: rest := by
      simpa [ptr_add, CharPtr.add] using hq
    refine ⟨decide (d.length ≤ c.length ∧ c.drop (c.length - d.length) = d), ?_, key d⟩
    simp only [ends_with_cstr, hlen, bind, Except.bind]
    exact ends_with__spec P h x c _ d _ hv hs
  · intro ch
    exact ⟨decide (c ≠ [] ∧ (c)[c.length - 1]? = some ch), ends_with_ch_spec P h x c ch hv,
      decide_eq_true_iff⟩

/-- C21 on LP64: whether the string "abc" of `heap_two` ends with the string
"bc", and with the character `c`. -/
theorem C21_ends_with_witness :
    (∃ r, ends_with lp64 heap_two str_abc str_bc = .ok r ∧
      (r = true ↔ [98, 99].length ≤ [97, 98, 99].length ∧
        ∀ i, i < [98, 99].length →
          ([97, 98, 99] : List char_type)[[97, 98, 99].length - [98, 99].length + i]?
            = ([98, 99] : List char_type)[i]?)) ∧
    (∃ r, ends_with_ch lp64 heap_two str_abc 99 = .ok r ∧
      (r = true ↔ ([97, 98, 99] : List char_type) ≠ [] ∧
        ([97, 98, 99] : List char_type)[[97, 98, 99].length - 1]? = some 99)) :=
  ⟨(C21_ends_with lp64 heap_two str_abc [97, 98, 99] (by decide)).1 str_bc [98, 99] (by decide),
   (C21_ends_with lp64 heap_two str_abc [97, 98, 99] (by decide)).2.2 99⟩

/-! ## Removing the last character -/

/-- The method `pop_back()` on a non-empty string: the buffer is kept, with its
capacity, and stores the content without its last character. -/
theorem pop_back_held (P : Platform) (h : Heap) (id : Nat) (b : string_buffer)
    (c : List char_type) (hb : h.blocks id = some b) (hh : b.holds P c) (hne : c ≠ []) :
    ∃ b2, pop_back P h { m_buffer := some id }
        = .ok (h.put id (some b2), { m_buffer := some id }) ∧
      b2.holds P c.dropLast ∧ b2.capacity = b.capacity := by
  obtain ⟨hl, hcap, hlc, hlt, htake, hnul⟩ := hh
  have hpos : 0 < c.length := List.length_pos.mpr hne
  have hsub : P.sub c.length 1 = c.length - 1 := P.sub_eq _ _ (by omega) hpos
  have hwrite := Heap.write_ok (h.put id (some ⟨b.capacity, c.length - 1, b.contents⟩))
    { blk := id, off := c.length - 1 } 0 ⟨b.capacity, c.length - 1, b.contents⟩ (by simp)
    (by simp only []; omega)
  have hl2 : c.dropLast.length = c.length - 1 := List.length_dropLast c
  refine ⟨⟨b.capacity, c.length - 1, b.contents.set (c.length - 1) 0⟩, ?_, ?_, rfl⟩
  · unfold pop_back
    simp only [size, Heap.buffer, hb, hl, bind, Except.bind, pure, Except.pure]
    rw [if_pos (by omega)]
    simp only [hsub, Heap.set_length, hb, hwrite, Heap.put_put]
  · refine ⟨hl2.symm, ?_, ?_, hlt, ?_, ?_⟩
    · show b.capacity = (b.contents.set (c.length - 1) 0).length
      rw [List.length_set, hcap]
    · show c.dropLast.length < b.capacity
      omega
    · show (b.contents.set (c.length - 1) 0).take c.dropLast.length = c.dropLast
      have e := congrArg (List.take (c.length - 1)) htake
      rw [List.take_take, Nat.min_eq_left (by omega)] at e
      rw [hl2, List.set_take, List.set_eq_of_length_le (by simp), List.dropLast_eq_take]
      exact e
    · show (b.contents.set (c.length - 1) 0)[c.dropLast.length]? = some 0
      rw [hl2, List.getElem?_set_self (by omega)]

/-- The method `pop_back()` on a valid string with content `c`: size, content,
terminator and capacity after the call; an empty string is left as it is. -/
theorem pop_back_spec (P : Platform) (h : Heap) (x : basic_simple_string) (c : List char_type)
    (hv : Valid P h x c) :
    (c ≠ [] → ∃ h1, pop_back P h x = .ok (h1, x) ∧ Valid P h1 x c.dropLast ∧
      x.size h1 = .ok (c.length - 1) ∧ content h1 x = .ok c.dropLast ∧
      index_const h1 x (c.length - 1) = .ok 0 ∧ x.capacity h1 = x.capacity h) ∧
    (c = [] → pop_back P h x = .ok (h, x)) := by
  have hsz : x.size h = .ok c.length := size_of_valid P h x c hv
  refine ⟨fun hne => ?_, fun he => ?_⟩
  · cases x with
    | mk m =>
      cases m with
      | none => exact absurd ((Valid_none P h _).mp hv) hne
      | some id =>
        obtain ⟨hpos, hid, b, hb, hh⟩ := (Valid_some P h id c).mp hv
        obtain ⟨b2, hp, hh2, hc2⟩ := pop_back_held P h id b c hb hh hne
        have hv2 := Valid_put_same P h id b2 _ hpos hid hh2
        have hsz2 := size_of_valid P _ _ _ hv2
        have hterm := terminator_of_valid P _ id _ hv2
        rw [List.length_dropLast] at hsz2 hterm
        refine ⟨_, hp, hv2, hsz2, content_of_valid P _ _ _ hv2, ?_, ?_⟩
        · simpa [index_const, ptr_add, char_pointer_from_member_pointer_, CharPtr.add] using hterm
        · rw [capacity_of_block _ id b2 (Heap.put_blocks_same _ _ _), capacity_of_block h id b hb,
            hc2]
  · subst he
    simp [pop_back, hsz, bind, Except.bind, pure, Except.pure]

/-- For a NUL-free string and a character other than NUL, `push_back(ch)`
followed by `pop_back()` gives the content back. -/
theorem push_back_pop_back (P : Platform) (h : Heap) (x : basic_simple_string)
    (c : List char_type) (ch : char_type) (hw : 5 ≤ P.size_bits) (hv : Valid P h x c)
    (hcnf : NulFree c) (hch : ch ≠ 0) (hfit : c.length + 1 + P.members + 32 < 2 ^ P.size_bits)
    (halloc : h.fails (h.next + 1) = false) :
    ∃ h1 x1 h2, push_back P h x ch = .ok (h1, x1) ∧ pop_back P h1 x1 = .ok (h2, x1) ∧
      Valid P h2 x1 c := by
  obtain ⟨h1, x1, hp, hv1, _, _⟩ := push_back_spec P h x c ch hw hv hcnf hch hfit halloc
  obtain ⟨h2, hq, hv2, _⟩ := (pop_back_spec P h1 x1 _ hv1).1 (by simp)
  rw [List.dropLast_concat] at hv2
  exact ⟨h1, x1, h2, hp, hq, hv2⟩

/-- C22 at a failing input, on LP64: the valid string of 15 NUL characters in
a buffer of capacity 16, the content `resize(15, NUL)` gives a
default-constructed string.  Then `push_back('x')` has to reallocate; its
`alloc_buffer_(contents, 16)` measures the old content up to its first NUL and
takes over none of it, and `pop_back()` leaves the empty string, not the 15
characters there were. -/
theorem C22_push_back_pop_back_loses_content :
    (∃ h1 s1, resize lp64 heap0 ctor_default 15 0 = .ok (h1, s1) ∧
      Valid lp64 h1 s1 (List.replicate 15 0)) ∧
    Valid lp64 heap_nuls str_nuls (List.replicate 15 0) ∧
    is_valid heap_nuls str_nuls = .ok true ∧
    str_nuls.capacity heap_nuls = .ok 16 ∧
    (push_back lp64 heap_nuls str_nuls 120 >>= fun r => r.2.size r.1) = .ok 1 ∧
    (push_back lp64 heap_nuls str_nuls 120 >>= fun r => pop_back lp64 r.1 r.2 >>=
      fun r => r.2.size r.1) = .ok 0 ∧
    (push_back lp64 heap_nuls str_nuls 120 >>= fun r => pop_back lp64 r.1 r.2 >>=
      fun r => content r.1 r.2) = .ok [] := by
  refine ⟨?_, by decide, rfl, rfl, rfl, rfl, rfl⟩
  obtain ⟨h1, s1, hr, hv⟩ := resize_spec lp64 heap0 ctor_default [] 15 0 (by decide)
    ⟨by decide, _, rfl, rfl⟩ rfl (by decide) rfl (by intro id b hm; cases hm)
  exact ⟨h1, s1, hr, hv⟩

/-! ## The invariant checker -/

/-- On characters that include a NUL, `traits_type::length` counts those
before the first NUL. -/
theorem traits_type.length_loop_before_nul : ∀ (l : List char_type), 0 ∈ l →
    traits_type.length_loop l = .ok (before_nul l).length := by
  intro l
  induction l with
  | nil => intro h0; simp at h0
  | cons c l ih =>
    intro h0
    by_cases hc : c = 0
    · subst hc
      simp [traits_type.length_loop, before_nul_cons_zero]
    · have h1 : 0 ∈ l := by
        rcases List.mem_cons.mp h0 with e | e
        · exact absurd e.symm hc
        · exact e
      rw [before_nul_cons c l hc]
      simp [traits_type.length_loop, hc, ih h1, Except.map]

/-- C26, as it fails. On LP64 the checker accepts the string of 15 NUL
characters, whose stored run before the first NUL has length `0`, less than
its length; and it rejects the block of capacity 16 and length 3 that stores
"abcde", whose run of 5 is at least the length. -/
theorem C26_is_valid_counterexample :
    is_valid heap_nuls str_nuls = .ok true ∧
    str_nuls.capacity heap_nuls = .ok 16 ∧ str_nuls.size heap_nuls = .ok 15 ∧
    traits_type.length heap_nuls { blk := 1, off := 0 } = .ok 0 ∧
    is_valid heap_run str_run = .ok false ∧
    str_run.capacity heap_run = .ok 16 ∧ str_run.size heap_run = .ok 3 ∧
    traits_type.length heap_run { blk := 1, off := 0 } = .ok 5 :=
  ⟨rfl, rfl, rfl, rfl, rfl, rfl, rfl, rfl⟩

/-- C26, amended. The invariant checker accepts a string that holds a buffer
in which a NUL is stored exactly when `capacity >= 1`, `length <= capacity` and
the number of stored characters before the first NUL is at most `length`; a
string holding no buffer is always accepted. -/
theorem C26_is_valid (h : Heap) (id : Nat) (b : string_buffer) (hb : h.blocks id = some b)
    (hnul : 0 ∈ b.contents) :
    is_valid h { m_buffer := some id }
      = .ok (decide (1 ≤ b.capacity ∧ b.length ≤ b.capacity ∧
          (before_nul b.contents).length ≤ b.length)) ∧
    is_valid h { m_buffer := none } = .ok true := by
  refine ⟨?_, rfl⟩
  have hlen : traits_type.length h { blk := id, off := 0 }
      = .ok (before_nul b.contents).length := by
    unfold traits_type.length
    rw [Heap.view_some h _ b hb]
    exact traits_type.length_loop_before_nul _ hnul
  simp only [is_valid, Heap.buffer, hb, bind, Except.bind, pure, Except.pure]
  by_cases h1 : b.capacity < 1
  · rw [if_pos h1, decide_eq_false (by omega)]
  · rw [if_neg h1]
    by_cases h2 : b.capacity < b.length
    · rw [if_pos h2, decide_eq_false (by omega)]
    · rw [if_neg h2]
      simp only [hlen]
      by_cases h3 : b.length < (before_nul b.contents).length
      · rw [if_pos h3, decide_eq_false (by omega)]
      · rw [if_neg h3, decide_eq_true (by omega)]

/-- C26 (amended) on LP64 at the string "abc". -/
theorem C26_is_valid_witness :
    is_valid heap_str str_abc = .ok true ∧ is_valid heap_str ctor_default = .ok true :=
  C26_is_valid heap_str 2
    { capacity := 16, length := 3,
      contents := [97, 98, 99, 0, 7, 7, 7, 7, 7, 7, 7, 7, 7, 7, 7, 7] } rfl (by decide)

/-! ## The rounding of allocations -/

/-- The rounded size written with the mask, as the source has it. -/
theorem rounded_mask (P : Platform) (capacity : Nat) (hw : 5 ≤ P.size_bits)
    (hfit : capacity + P.members + 32 < 2 ^ P.size_bits) :
    Nat.land (capacity + 1 + P.members + 31) (P.compl 31)
      = (capacity + P.members + 32) / 32 * 32 := by
  have h32 := P.pow_ge hw
  have hc : P.compl 31 = 2 ^ P.size_bits - 1 - 31 := by
    unfold Platform.compl Platform.size_max
    rw [P.wrap_eq 31 (by omega)]
  rw [hc, land_mask P.size_bits _ hw (by omega)]
  have : capacity + 1 + P.members + 31 = capacity + P.members + 32 := by omega
  rw [this]

/-- C27, as it fails. On LP64 (header of 16 units) a request for capacity 16
gives a block whose stored capacity is 48, so 64 units in all, where
`(16 + 16 + 31) & ~31` is 32 and would leave a capacity of 16. -/
theorem C27_rounding_counterexample :
    (alloc_buffer_ lp64 heap0 none 16 0 >>= fun r => capacity r.1 { m_buffer := r.2 }) = .ok 48 ∧
    (alloc_buffer_ lp64 heap0 none 16 0 >>= fun r =>
      pure ((r.1.view (char_pointer_from_member_pointer_ r.2)).length + lp64.members)) = .ok 64 ∧
    Nat.land (16 + lp64.members + 31) (lp64.compl 31) = 32 :=
  ⟨rfl, rfl, rfl⟩

/-- C27, amended. Allocation rounding: for every requested capacity `c` (with
no wrap-around, the allocation succeeding), the block allocated by
`alloc_buffer_` has exactly `(c + 1 + overhead + 31) & ~31` character units in
all, one more than the request being counted for the terminator, where
`overhead` is the header size in character units, and the capacity stored in
the header is that total minus `overhead`; with a null source and with a
source of `len <= c` readable characters. -/
theorem C27_allocation_rounding (P : Platform) (h : Heap) (c : Nat) (hw : 5 ≤ P.size_bits)
    (hfit : c + P.members + 32 < 2 ^ P.size_bits) (halloc : h.fails h.next = false) :
    (∃ b, alloc_buffer_ P h none c 0 = .ok (h.grow.put h.next (some b), some h.next) ∧
      b.contents.length + P.members = Nat.land (c + 1 + P.members + 31) (P.compl 31) ∧
      b.capacity = Nat.land (c + 1 + P.members + 31) (P.compl 31) - P.members) ∧
    (∀ (p : CharPtr) (len : Nat), p.blk < h.next → len ≤ c →
      len ≤ (h.view (some p)).length →
      ∃ b, alloc_buffer_ P h (some p) c len = .ok (h.grow.put h.next (some b), some h.next) ∧
        b.contents.length + P.members = Nat.land (c + 1 + P.members + 31) (P.compl 31) ∧
        b.capacity = Nat.land (c + 1 + P.members + 31) (P.compl 31) - P.members) := by
  have hm := rounded_mask P c hw hfit
  have hge : c + 1 + P.members ≤ (c + P.members + 32) / 32 * 32 := by omega
  constructor
  · obtain ⟨b, hal, hh, hcb⟩ := alloc_buffer_null_ok P h c hw hfit halloc
    refine ⟨b, hal, ?_, by rw [hm]; exact hcb⟩
    rw [hm, ← hh.2.1, hcb]
    omega
  · intro p len hp hlen hread
    obtain ⟨b, hal, hh, hcb⟩ := alloc_buffer_ok P h p c len _ hw hfit hlen halloc hp rfl
      (by rw [List.length_take]; omega)
    refine ⟨b, hal, ?_, by rw [hm]; exact hcb⟩
    rw [hm, ← hh.2.1, hcb]
    omega

/-- C27 (amended) on LP64: a request for capacity 16 with a null source. -/
theorem C27_allocation_rounding_witness :
    ∃ b, alloc_buffer_ lp64 heap0 none 16 0
        = .ok (heap0.grow.put heap0.next (some b), some heap0.next) ∧
      b.contents.length + lp64.members = Nat.land (16 + 1 + lp64.members + 31) (lp64.compl 31) ∧
      b.capacity = Nat.land (16 + 1 + lp64.members + 31) (lp64.compl 31) - lp64.members :=
  (C27_allocation_rounding lp64 heap0 16 (by decide) (by decide) rfl).1

/-! ## Equality -/

theorem lex_sign_eq_zero_iff : ∀ (A B : List char_type), lex_sign A B = 0 ↔ A = B := by
  intro A
  induction A with
  | nil =>
    intro B
    cases B with
    | nil => simp [lex_sign]
    | cons b B => simp [lex_sign]
  | cons a A ih =>
    intro B
    cases B with
    | nil => simp [lex_sign]
    | cons b B =>
      by_cases hab : a = b
      · subst hab
        simp [lex_sign, ih B]
      · by_cases hlt : a < b
        · simp [lex_sign, hab, hlt]
        · simp [lex_sign, hab, hlt]

theorem sgn_eq_zero_iff (z : Int) : sgn z = 0 ↔ z = 0 := by
  unfold sgn
  split_ifs with h1 h2
  · constructor
    · intro e; simp at e
    · intro e; omega
  · simp [h2]
  · constructor
    · intro e; simp at e
    · intro e; exact absurd e h2

/-- For strings whose lengths fit the positive range of `ss_int_t`,
`a.compare(b) == 0`, and so `a == b`, exactly when the contents are equal. -/
theorem operator_eq_small (P : Platform) (h : Heap) (a b : basic_simple_string)
    (ca cb : List char_type) (hva : Valid P h a ca) (hvb : Valid P h b cb)
    (hi : 0 < P.int_bits) (hA : (ca.length : Int) < (2 : Int) ^ (P.int_bits - 1))
    (hB : (cb.length : Int) < (2 : Int) ^ (P.int_bits - 1)) :
    operator_eq P h a b = .ok (decide (ca = cb)) := by
  obtain ⟨z, hz, hs⟩ := compare_small P h a b ca cb hva hvb hi hA hB
  simp only [operator_eq, hz, bind, Except.bind, pure, Except.pure]
  congr 1
  have hiff : (0 = z) ↔ ca = cb := by
    rw [← lex_sign_eq_zero_iff, ← hs, sgn_eq_zero_iff]
    exact eq_comm
  by_cases he : ca = cb
  · rw [decide_eq_true he, decide_eq_true (hiff.mpr he)]
  · rw [decide_eq_false he, decide_eq_false (fun e => he (hiff.mp e))]

/-- C30 at a failing input, on LP64 (64-bit `size_type`, 32-bit `ss_int_t`):
the empty string and the valid string of `2 ^ 32` characters have different
sizes, yet `compare` returns `0` and `operator ==` returns true, because the
tie-break of `compare_` subtracts the lengths after converting each to
`ss_int_t`, which takes `2 ^ 32` to `0`. -/
theorem C30_equality_truncates :
    Valid lp64 heap_big ctor_default [] ∧ Valid lp64 heap_big str_big big_content ∧
    ctor_default.size heap_big = .ok 0 ∧ str_big.size heap_big = .ok (2 ^ 32) ∧
    lp64.to_int ((2 : Int) ^ 32) = 0 ∧
    basic_simple_string.compare lp64 heap_big str_big ctor_default = .ok 0 ∧
    operator_eq lp64 heap_big str_big ctor_default = .ok true ∧
    operator_eq lp64 heap_big ctor_default str_big = .ok true :=
  ⟨rfl, valid_big, rfl, rfl, rfl, rfl, rfl, rfl⟩

/-! ## Assignment in place or to a fresh buffer -/

/-- C28. In-place assign: for a string that holds a buffer of capacity `cap`
and a source `p` of `cch` readable characters `t`: if `cch < cap` and `p` lies
outside `[contents, contents + cch]`, then `s.assign(p, cch)` allocates
nothing, keeps the buffer and its capacity, and sets the size to `cch` and the
content to `t`; otherwise (the allocation succeeding, sizes not wrapping) a
fresh buffer is allocated, the old one is released, and the result has size
`cch` and content `t`. -/
theorem C28_assign_in_place_or_fresh (P : Platform) (h : Heap) (id : Nat) (c : List char_type)
    (p : CharPtr) (n : Nat) (t : List char_type) (cap : Nat) (hw : 5 ≤ P.size_bits)
    (hv : Valid P h { m_buffer := some id } c)
    (hcap : capacity h { m_buffer := some id } = .ok cap)
    (hp : p.blk < h.next) (hsrc : (h.view (some p)).take n = t) (ht : t.length = n) :
    (n < cap ∧ (p.blk ≠ id ∨ n < p.off) →
      ∃ h1, assign P h { m_buffer := some id } (some p) n = .ok (h1, { m_buffer := some id }) ∧
        h1.next = h.next ∧ capacity h1 { m_buffer := some id } = .ok cap ∧
        size h1 { m_buffer := some id } = .ok n ∧ content h1 { m_buffer := some id } = .ok t) ∧
    (¬ (n < cap ∧ (p.blk ≠ id ∨ n < p.off)) → n + P.members + 32 < 2 ^ P.size_bits →
      h.fails h.next = false →
      ∃ h1, assign P h { m_buffer := some id } (some p) n
          = .ok (h1, { m_buffer := some h.next }) ∧
        h1.next = h.next + 1 ∧ h1.blocks id = none ∧
        size h1 { m_buffer := some h.next } = .ok n ∧
        content h1 { m_buffer := some h.next } = .ok t) := by
  obtain ⟨hpos, hlt, b, hb, hh⟩ := (Valid_some P h id c).mp hv
  have hcb := capacity_of_block h id b hb
  rw [hcap] at hcb
  cases hcb
  constructor
  · rintro ⟨hn, hsep⟩
    have ha := assign_in_place P h id b p n t hb hh.2.1 hn hsep hsrc ht
    have hv1 := Valid_put_same P h id _ t hpos hlt
      (holds_of_splice P b n t hh.2.1 hh.2.2.2.1 hn ht)
    have hsz := size_of_valid P _ _ t hv1
    rw [ht] at hsz
    exact ⟨_, ha, rfl,
      capacity_of_block _ id ⟨b.capacity, n, (splice b.contents 0 t).set n 0⟩
        (Heap.put_blocks_same _ _ _), hsz, content_of_valid P _ _ t hv1⟩
  · intro hcond hfit halloc
    obtain ⟨b1, ha, hh1, _⟩ := assign_fresh P h id b p n t hw hb hcond hfit halloc hp hsrc ht
    have hne : h.next ≠ id := by omega
    have hv1 : Valid P ((h.grow.put h.next (some b1)).put id none) { m_buffer := some h.next } t := by
      refine (Valid_some P _ _ t).mpr ⟨by omega, by simp, b1, ?_, hh1⟩
      rw [Heap.put_blocks_other _ _ _ _ hne]
      simp
    have hsz := size_of_valid P _ _ t hv1
    rw [ht] at hsz
    exact ⟨_, ha, rfl, Heap.put_blocks_same _ _ _, hsz, content_of_valid P _ _ t hv1⟩

/-- C28 on LP64: "abc" of the caller assigned to the string "abc" (in place),
and the string assigned its own first two characters (fresh buffer). -/
theorem C28_assign_in_place_or_fresh_witness :
    (∃ h1, assign lp64 heap_str str_abc (some ptr_abc) 3 = .ok (h1, { m_buffer := some 2 }) ∧
        h1.next = heap_str.next ∧ capacity h1 { m_buffer := some 2 } = .ok 16 ∧
        size h1 { m_buffer := some 2 } = .ok 3 ∧
        content h1 { m_buffer := some 2 } = .ok [97, 98, 99]) ∧
    (∃ h1, assign lp64 heap_str str_abc (some { blk := 2, off := 0 }) 2
          = .ok (h1, { m_buffer := some heap_str.next }) ∧
        h1.next = heap_str.next + 1 ∧ h1.blocks 2 = none ∧
        size h1 { m_buffer := some heap_str.next } = .ok 2 ∧
        content h1 { m_buffer := some heap_str.next } = .ok [97, 98]) :=
  ⟨(C28_assign_in_place_or_fresh lp64 heap_str 2 [97, 98, 99] ptr_abc 3 [97, 98, 99] 16
      (by decide) (by decide) rfl (by decide) rfl rfl).1 (by decide),
   (C28_assign_in_place_or_fresh lp64 heap_str 2 [97, 98, 99] { blk := 2, off := 0 } 2 [97, 98] 16
      (by decide) (by decide) rfl (by decide) rfl rfl).2 (by decide) (by decide) rfl⟩

/-! ## Appending to any valid string -/

/-- On a stored string, `length_max` with a limit that reaches the terminator
counts the characters before the first NUL of the content. -/
theorem traits_type.length_max_loop_terminated : ∀ (c rest : List char_type) (limit : Nat),
    c.length ≤ limit →
    traits_type.length_max_loop (c ++ 0 :: rest) limit = .ok (before_nul c).length := by
  intro c
  induction c with
  | nil =>
    intro rest limit _
    cases limit <;> simp [traits_type.length_max_loop, before_nul]
  | cons a c ih =>
    intro rest limit hl
    cases limit with
    | zero => simp at hl
    | succ limit =>
      by_cases ha : a = 0
      · subst ha
        simp [traits_type.length_max_loop, before_nul_cons_zero]
      · rw [before_nul_cons a c ha]
        simp [traits_type.length_max_loop, ha, ih rest limit (by simpa using hl), Except.map]

/-- A block with its terminator in place stores the characters in front of
the terminator. -/
theorem holds_of_terminated (P : Platform) (b : string_buffer)
    (hcap : b.capacity = b.contents.length) (hlt : b.capacity < 2 ^ P.size_bits)
    (hlen : b.length < b.capacity) (hnul : b.contents[b.length]? = some 0) :
    b.holds P (b.contents.take b.length) := by
  have hl : (b.contents.take b.length).length = b.length := by
    rw [List.length_take]; omega
  refine ⟨hl.symm, hcap, by rw [hl]; exact hlen, hlt, by rw [hl], by rw [hl]; exact hnul⟩

/-- The branch of `append` that has to allocate, for any stored content: the
new block has the rounded capacity for `size() + cch` and is left with its
terminator in place. -/
theorem append_realloc_any (P : Platform) (h : Heap) (id : Nat) (b : string_buffer)
    (c : List char_type) (p : CharPtr) (n : Nat) (t : List char_type) (hw : 5 ≤ P.size_bits)
    (hb : h.blocks id = some b) (hh : b.holds P c) (hn : 0 < n)
    (hroom : ¬ c.length + n < b.capacity)
    (hfit : c.length + n + P.members + 32 < 2 ^ P.size_bits) (halloc : h.fails h.next = false)
    (hid : id < h.next) (hp : p.blk < h.next)
    (hsrc : (h.view (some p)).take n = t) (ht : t.length = n) (hnf : NulFree t) :
    ∃ b2 c2, append P h { m_buffer := some id } (some p) n
        = .ok ((h.grow.put h.next (some b2)).put id none, { m_buffer := some h.next })
      ∧ b2.holds P c2
      ∧ b2.capacity = (c.length + n + P.members + 32) / 32 * 32 - P.members := by
  have hcont := string_buffer.holds_contents P b c hh
  obtain ⟨hlen, hcap, hlc, hlt, htake, hnul⟩ := hh
  have hlm : traits_type.length_max h p n = .ok n :=
    traits_type.length_max_loop_full n _ t hsrc ht hnf
  have hsub : P.sub b.capacity c.length = b.capacity - c.length :=
    P.sub_eq _ _ hlt (by omega)
  have h32 := P.pow_ge hw
  have hwr : P.wrap (1 + n) = 1 + n := P.wrap_eq _ (by omega)
  have hwl : P.wrap (c.length + n) = c.length + n := P.wrap_eq _ (by omega)
  have hview0 : h.view (some { blk := id, off := 0 }) = b.contents := by
    rw [Heap.view_some h _ b hb]; rfl
  have hk := before_nul_length_le c
  generalize hkdef : (before_nul c).length = k at hk
  have hlmn : traits_type.length_max_null h (some { blk := id, off := 0 }) (c.length + n)
      = .ok k := by
    show traits_type.length_max_loop (h.view (some { blk := id, off := 0 })) (c.length + n) = _
    rw [hview0, hcont, ← hkdef]
    exact traits_type.length_max_loop_terminated c _ _ (by omega)
  have htk : (c.take k).length = k := by
    rw [List.length_take]; omega
  have hsrc0 : (h.view (some { blk := id, off := 0 })).take k = c.take k := by
    rw [hview0]
    have e := congrArg (List.take k) htake
    rw [List.take_take, Nat.min_eq_left hk] at e
    exact e
  obtain ⟨b1, hal, hh1, hc1⟩ := alloc_buffer_ok P h { blk := id, off := 0 } (c.length + n)
    k (c.take k) hw hfit (by omega) halloc hid hsrc0 htk
  have hge : c.length + n + 1 + P.members ≤ (c.length + n + P.members + 32) / 32 * 32 := by omega
  have hroom1 : c.length + n < b1.capacity := by omega
  have hpne : p.blk ≠ h.next := by omega
  obtain ⟨hl1, hcap1, _, hlt1, _, _⟩ := hh1
  rw [htk] at hl1
  have hcopy : traits_type.copy n (h.grow.put h.next (some b1)) { blk := h.next, off := c.length } p
      = .ok (h.grow.put h.next (some { b1 with contents := splice b1.contents c.length t })) := by
    have := traits_type.copy_ok n (h.grow.put h.next (some b1)) { blk := h.next, off := c.length }
      p b1 t (by simp) (by rw [Heap.view_put_other _ _ _ _ hpne]; simpa using hsrc) ht
      (by simp only []; rw [← hcap1]; omega) (Or.inl (by simpa using hpne.symm))
    simpa using this
  have hsl : (splice b1.contents c.length t).length = b1.contents.length :=
    splice_length _ _ _ (by rw [← hcap1]; omega)
  have hwk : P.wrap (k + n) = k + n := P.wrap_eq _ (by omega)
  have hwrite := Heap.write_ok
    (h.grow.put h.next (some ⟨b1.capacity, k + n, splice b1.contents c.length t⟩))
    { blk := h.next, off := k + n } 0
    ⟨b1.capacity, k + n, splice b1.contents c.length t⟩
    (by simp) (by simp only [hsl]; rw [← hcap1]; omega)
  refine ⟨⟨b1.capacity, k + n, (splice b1.contents c.length t).set (k + n) 0⟩, _, ?_,
    holds_of_terminated P _ ?_ hlt1 ?_ ?_, hc1⟩
  · unfold append
    simp only [if_neg (Nat.pos_iff_ne_zero.mp hn), hlm, bind, Except.bind, Heap.buffer, hb,
      lt_irrefl, ↓reduceIte, hsub, hwr, hlen]
    rw [if_pos (by omega)]
    simp only [hwl, alloc_buffer_cch, hlmn, bind, Except.bind,
      if_neg (show ¬ c.length + n < k by omega), hal, pure, Except.pure, hcopy,
      Heap.put_blocks_same, hl1, hwk, Heap.set_length, Heap.put_put, hwrite, destroy_buffer_,
      Heap.deallocate]
  · show b1.capacity = ((splice b1.contents c.length t).set (k + n) 0).length
    rw [List.length_set, hsl, hcap1]
  · show k + n < b1.capacity
    omega
  · show ((splice b1.contents c.length t).set (k + n) 0)[k + n]? = some 0
    rw [List.getElem?_set_self (by rw [hsl, ← hcap1]; omega)]

/-- The method `append` counts the source up to its first NUL: a call with
`n` readable characters does what the call with the characters before the
first NUL among them does. -/
theorem append_cut (P : Platform) (h : Heap) (id : Nat) (b : string_buffer)
    (c : List char_type) (p : CharPtr) (n : Nat) (t : List char_type)
    (hb : h.blocks id = some b) (hh : b.holds P c)
    (hsrc : (h.view (some p)).take n = t) (ht : t.length = n) :
    append P h { m_buffer := some id } (some p) n
      = append P h { m_buffer := some id } (some p) (before_nul t).length := by
  have hk := before_nul_length_le t
  rw [ht] at hk
  generalize hkdef : (before_nul t).length = k at hk
  by_cases hkn : k = n
  · rw [hkn]
  have hn0 : n ≠ 0 := by omega
  have hlm : traits_type.length_max h p n = .ok k := by
    rw [← hkdef]
    exact traits_type.length_max_loop_counted n _ _ hsrc ht
  have hcch : (if k < n then k else n) = k := by
    rw [if_pos (by omega)]
  by_cases hk0 : k = 0
  · subst hk0
    obtain ⟨hlen, hcap, hlc, hlt, htake, hnul⟩ := hh
    have hsub : P.sub b.capacity c.length = b.capacity - c.length :=
      P.sub_eq _ _ hlt (by omega)
    have h1 : (1 : Nat) < 2 ^ P.size_bits := by omega
    have hwr : P.wrap (1 + 0) = 1 := P.wrap_eq _ h1
    have hw0 : P.wrap (c.length + 0) = c.length := P.wrap_eq _ (by omega)
    have hself : h.put id (some { b with length := c.length }) = h := by
      apply Heap.put_self
      rw [hb, ← hlen]
    have hset : b.contents.set c.length 0 = b.contents := by
      apply List.ext_getElem?
      intro i
      by_cases hi : i = c.length
      · subst hi
        rw [List.getElem?_set_self (by omega), hnul]
      · rw [List.getElem?_set_ne (fun e => hi e.symm)]
    have hwrite : h.write { blk := id, off := c.length } 0 = .ok h := by
      rw [Heap.write_ok h _ 0 b hb (by simp only []; omega)]
      simp only [hset]
      rw [Heap.put_self h id _ hb]
    unfold append
    simp only [if_neg hn0, hlm, bind, Except.bind, Heap.buffer, hb, hcch, hsub, hwr, hlen,
      ↓reduceIte]
    rw [if_neg (by omega)]
    simp only [pure, Except.pure, traits_type.copy, hb, hlen, hw0, Heap.set_length, hself,
      hwrite]
  · have htk : (h.view (some p)).take k = before_nul t := by
      have e := before_nul_take t
      rw [hkdef, ← hsrc, List.take_take, Nat.min_eq_left hk, hsrc] at e
      exact e
    have hlmk : traits_type.length_max h p k = .ok k :=
      traits_type.length_max_loop_full k _ _ htk hkdef (before_nul_nulfree t)
    unfold append
    simp only [if_neg hn0, if_neg hk0, hlm, hlmk, bind, Except.bind, hcch, lt_irrefl, ↓reduceIte]

/-! ## Operations on any valid string -/

/-- A valid string stays valid in a later heap that has its block unchanged. -/
theorem Valid_of_frame (P : Platform) (h h1 : Heap) (s : basic_simple_string)
    (c : List char_type) (hv : Valid P h s c) (hn : h.next ≤ h1.next)
    (hfr : ∀ j, s.m_buffer = some j → h1.blocks j = h.blocks j) : Valid P h1 s c := by
  cases s with
  | mk m =>
    cases m with
    | none => exact hv
    | some id =>
      obtain ⟨hpos, hlt, b, hb, hh⟩ := (Valid_some P h id c).mp hv
      exact (Valid_some P _ id c).mpr ⟨hpos, by omega, b, by rw [hfr id rfl]; exact hb, hh⟩

/-- Assignment of `n` readable characters to a string that holds no buffer:
the result stores those before the first NUL. -/
theorem assign_null_any (P : Platform) (h : Heap) (p : CharPtr) (n : Nat) (t : List char_type)
    (hw : 5 ≤ P.size_bits)
    (hfit : n + P.members + 32 < 2 ^ P.size_bits) (halloc : h.fails h.next = false)
    (hp : p.blk < h.next) (hsrc : (h.view (some p)).take n = t) (ht : t.length = n) :
    ∃ h1 s1, assign P h { m_buffer := none } (some p) n = .ok (h1, s1)
      ∧ Valid P h1 s1 (before_nul t) ∧ h.later h1
      ∧ (∀ j, j < h.next → h1.blocks j = h.blocks j)
      ∧ (s1.m_buffer = none ∨ s1.m_buffer = some h.next) := by
  by_cases hn : n = 0
  · subst hn
    have : t = [] := List.length_eq_zero.mp ht
    subst this
    exact ⟨h, { m_buffer := none }, by simp [assign, pure, Except.pure], rfl,
      h.later_refl, fun _ _ => rfl, Or.inl rfl⟩
  · obtain ⟨b1, hal, hh, _⟩ := alloc_buffer_cch_ok P h p n t hw hfit halloc hp hsrc ht
    refine ⟨h.grow.put h.next (some b1), { m_buffer := some h.next }, ?_,
      Valid_new P h b1 _ (by omega) hh, ⟨rfl, rfl, by simp⟩, ?_, Or.inr rfl⟩
    · simp only [assign, if_neg hn, hal, bind, Except.bind, pure, Except.pure]
    · intro j hj
      rw [Heap.put_blocks_other _ _ _ _ (by omega)]
      rfl

/-- Appending a NUL-free source that is outside the string or inside its
content to a string that holds a buffer, whatever its content: the call
returns, the string is valid, and no other block is changed. -/
theorem append_held_any (P : Platform) (h : Heap) (id : Nat) (c : List char_type)
    (p : CharPtr) (n : Nat) (t : List char_type) (hw : 5 ≤ P.size_bits)
    (hv : Valid P h { m_buffer := some id } c)
    (hfit : c.length + n + P.members + 32 < 2 ^ P.size_bits) (halloc : h.fails h.next = false)
    (hp : p.blk < h.next) (hsrc : (h.view (some p)).take n = t) (ht : t.length = n)
    (hnf : NulFree t) (hsep : p.blk ≠ id ∨ p.off + n ≤ c.length) :
    ∃ h1 x1 c1, append P h { m_buffer := some id } (some p) n = .ok (h1, x1) ∧
      Valid P h1 x1 c1 ∧ h.later h1 ∧
      (∀ j, j < h.next → j ≠ id → h1.blocks j = h.blocks j) ∧
      (x1.m_buffer = some id ∨ x1.m_buffer = some h.next) := by
  obtain ⟨hpos, hlt, b, hb, hh⟩ := (Valid_some P h id c).mp hv
  by_cases hn : n = 0
  · subst hn
    exact ⟨h, _, c, by simp [append, pure, Except.pure], hv, h.later_refl, fun _ _ _ => rfl,
      Or.inl rfl⟩
  · have hn0 : 0 < n := Nat.pos_of_ne_zero hn
    by_cases hroom : c.length + n < b.capacity
    · refine ⟨_, _, c ++ t, append_in_place P h id b c p n t hb hh hn0 hroom hsep hsrc ht hnf,
        Valid_put_same P h id _ _ hpos hlt (holds_append P b c t n hh hroom ht),
        ⟨rfl, rfl, le_refl _⟩, ?_, Or.inl rfl⟩
      intro j _ hj
      exact Heap.put_blocks_other _ _ _ _ hj
    · obtain ⟨b2, c2, ha, hh2, _⟩ := append_realloc_any P h id b c p n t hw hb hh hn0 hroom
        hfit halloc hlt hp hsrc ht hnf
      have hne : h.next ≠ id := by omega
      refine ⟨_, _, c2, ha, ?_, ⟨rfl, rfl, by simp⟩, ?_, Or.inr rfl⟩
      · refine (Valid_some P _ _ _).mpr ⟨by omega, by simp, b2, ?_, hh2⟩
        rw [Heap.put_blocks_other _ _ _ _ hne]
        simp
      · intro j hj hjid
        rw [Heap.put_blocks_other _ _ _ _ hjid, Heap.put_blocks_other _ _ _ _ (by omega)]
        rfl

/-- One `push_back` of any character on any valid string: the call returns,
the string is valid, and no block of another string is changed. -/
theorem push_back_any (P : Platform) (h : Heap) (x : basic_simple_string) (c : List char_type)
    (ch : char_type) (hw : 5 ≤ P.size_bits) (hv : Valid P h x c)
    (hfit : c.length + 1 + P.members + 32 < 2 ^ P.size_bits)
    (halloc : h.fails (h.next + 1) = false) :
    ∃ h1 x1 c1, push_back P h x ch = .ok (h1, x1) ∧ Valid P h1 x1 c1 ∧ h.later h1
      ∧ (∀ j, j < h.next → x.m_buffer ≠ some j → h1.blocks j = h.blocks j) := by
  have hstore : (h.store (List.replicate 1 ch)).1.next = h.next + 1 := rfl
  have hsv : ((h.store (List.replicate 1 ch)).1.view (some (h.store (List.replicate 1 ch)).2)).take 1
      = [ch] := by rw [Heap.store_view]; rfl
  have hpb : (h.store (List.replicate 1 ch)).2.blk < (h.store (List.replicate 1 ch)).1.next := by
    simp [Heap.store]
  have hkeep : ∀ j, j < h.next → (h.store (List.replicate 1 ch)).1.blocks j = h.blocks j := by
    intro j hj
    simp [Heap.store, Heap.put_blocks_other _ _ _ _ (show j ≠ h.next by omega)]
  cases x with
  | mk m =>
    cases m with
    | none =>
      have hc := (Valid_none P h c).mp hv
      subst hc
      obtain ⟨h1, s1, ha, hv1, hl, hfr, hm⟩ := assign_null_any P
        (h.store (List.replicate 1 ch)).1 (h.store (List.replicate 1 ch)).2 1 [ch] hw
        (by simpa using hfit) halloc hpb hsv rfl
      have hs1 : s1.m_buffer ≠ some h.next := by
        rcases hm with hm | hm
        · rw [hm]; simp
        · rw [hm, hstore]; simp
      refine ⟨h1.deallocate h.next, s1, _, ?_, Valid_put_other P h1 s1 _ _ _ hv1 hs1, ?_, ?_⟩
      · simp only [push_back, append_fill, assign_fill, bind, Except.bind, ha, pure, Except.pure]
        rfl
      · exact ⟨hl.1, hl.2.1, by have := hl.2.2; rw [hstore] at this; simp [Heap.deallocate]; omega⟩
      · intro j hj _
        rw [Heap.deallocate, Heap.put_blocks_other _ _ _ _ (by omega),
          hfr j (by rw [hstore]; omega), hkeep j hj]
    | some id =>
      obtain ⟨hpos, hid, b, hb, hh⟩ := (Valid_some P h id c).mp hv
      have hne : id ≠ h.next := by omega
      have hv0 : Valid P (h.store (List.replicate 1 ch)).1 { m_buffer := some id } c :=
        Valid_put_other P _ _ c _ _ (Valid_grow P h _ c hv) (by simpa using hne)
      have hb0 : (h.store (List.replicate 1 ch)).1.blocks id = some b := by
        rw [hkeep id hid]; exact hb
      have hcut := append_cut P (h.store (List.replicate 1 ch)).1 id b c
        (h.store (List.replicate 1 ch)).2 1 [ch] hb0 hh hsv rfl
      have hres : ∃ h1 x1 c1, append P (h.store (List.replicate 1 ch)).1 { m_buffer := some id }
          (some (h.store (List.replicate 1 ch)).2) 1 = .ok (h1, x1) ∧ Valid P h1 x1 c1 ∧
          (h.store (List.replicate 1 ch)).1.later h1 ∧
          (∀ j, j < h.next + 1 → j ≠ id → h1.blocks j = (h.store (List.replicate 1 ch)).1.blocks j) ∧
          (x1.m_buffer = some id ∨ x1.m_buffer = some (h.next + 1)) := by
        by_cases hch : ch = 0
        · subst hch
          rw [hcut, before_nul_cons_zero]
          exact ⟨_, _, c, by simp [append, pure, Except.pure], hv0, Heap.later_refl _,
            fun _ _ _ => rfl, Or.inl rfl⟩
        · have hnf1 : NulFree [ch] := by
            intro y hy
            rw [List.mem_singleton] at hy
            rw [hy]; exact hch
          exact append_held_any P (h.store (List.replicate 1 ch)).1 id c
            (h.store (List.replicate 1 ch)).2 1 [ch] hw hv0 hfit halloc hpb hsv rfl hnf1
            (Or.inl (by simpa [Heap.store] using hne.symm))
      obtain ⟨h1, x1, c1, ha, hv1, hl, hfr, hm⟩ := hres
      have hx1 : x1.m_buffer ≠ some h.next := by
        rcases hm with hm | hm
        · rw [hm]; simpa using hne
        · rw [hm]; simp
      refine ⟨h1.deallocate h.next, x1, c1, ?_, Valid_put_other P h1 x1 _ _ _ hv1 hx1, ?_, ?_⟩
      · simp only [push_back, append_fill, bind, Except.bind, ha, pure, Except.pure]
        rfl
      · exact ⟨hl.1, hl.2.1, by have := hl.2.2; rw [hstore] at this; simp [Heap.deallocate]; omega⟩
      · intro j hj hjx
        rw [Heap.deallocate, Heap.put_blocks_other _ _ _ _ (by omega),
          hfr j (by omega) (fun e => hjx (by rw [e])), hkeep j hj]

/-! ## Copy construction -/

/-- Two valid strings with the same content compare equal, whatever their
length. -/
theorem compare_same_content (P : Platform) (h : Heap) (a b : basic_simple_string)
    (c : List char_type) (hva : Valid P h a c) (hvb : Valid P h b c) :
    basic_simple_string.compare P h a b = .ok 0 := by
  obtain ⟨ra, hra⟩ := view_member_of_valid P h a c hva
  obtain ⟨rb, hrb⟩ := view_member_of_valid P h b c hvb
  have h1 : a.length h = .ok c.length := size_of_valid P h a c hva
  have h2 : b.length h = .ok c.length := size_of_valid P h b c hvb
  have hz := compare__spec P h _ _ c c ra rb hra hrb
  rw [first_diff_self, if_pos rfl, Int.sub_self, P.to_int_zero] at hz
  simp only [basic_simple_string.compare, h1, h2, bind, Except.bind]
  exact hz

/-- A successful `copy_buffer_` of a block that stores a string makes a new
block with the same header and the same characters. -/
theorem copy_buffer_ok (P : Platform) (h : Heap) (id : Nat) (b : string_buffer)
    (c : List char_type) (hb : h.blocks id = some b) (hh : b.holds P c)
    (hcb : b.capacity + P.members < 2 ^ P.size_bits) (halloc : h.fails h.next = false) :
    ∃ b1, copy_buffer_ P h (some id) = .ok (h.grow.put h.next (some b1), some h.next) ∧
      b1.holds P c ∧ b1.capacity = b.capacity ∧ b1.length = b.length := by
  obtain ⟨hl, hcap, hlc, hlt, htake, hnul⟩ := hh
  have hwr : P.wrap (b.capacity + P.members) = b.capacity + P.members := P.wrap_eq _ hcb
  have hsub : b.capacity + P.members - P.members = b.capacity := by omega
  have hfull : b.contents.take b.capacity = b.contents := by
    rw [hcap]; exact List.take_length _
  refine ⟨⟨b.capacity, b.length, b.contents.take b.capacity⟩, ?_, ?_, rfl, rfl⟩
  · simp only [copy_buffer_, Heap.buffer, hb, bind, Except.bind, hwr, Heap.allocate, halloc,
      Bool.false_eq_true, ↓reduceIte, hsub]
    rw [if_neg (by omega), if_neg (by omega)]
    simp only [pure, Except.pure, Heap.put_put]
  · rw [hfull]
    exact ⟨hl, hcap, hlc, hlt, htake, hnul⟩

/-- C23. Copy is deep and independent: for every string `a` with content `c`,
the copy-constructed `b` has the size, the capacity and the content of `a`,
`b.compare(a) == 0`, its buffer is a new block when `a` holds one, and after a
`push_back` of any character on `b` the size and the content of `a` are
unchanged (allocations succeeding, sizes not wrapping). -/
theorem C23_copy_is_deep (P : Platform) (h : Heap) (a : basic_simple_string)
    (c : List char_type) (hw : 5 ≤ P.size_bits) (hv : Valid P h a c)
    (hcb : ∀ cap, a.capacity h = .ok cap → cap + P.members < 2 ^ P.size_bits)
    (hfit : c.length + 1 + P.members + 32 < 2 ^ P.size_bits)
    (halloc : ∀ k, h.fails k = false) :
    ∃ h1 b, ctor_copy P h a = .ok (h1, b) ∧
      b.size h1 = a.size h ∧ b.capacity h1 = a.capacity h ∧
      content h1 b = .ok c ∧ content h1 a = .ok c ∧
      basic_simple_string.compare P h1 b a = .ok 0 ∧
      (∀ id, a.m_buffer = some id → b.m_buffer = some h.next ∧ id ≠ h.next) ∧
      ∀ ch, ∃ h2 b2, push_back P h1 b ch = .ok (h2, b2) ∧
        a.size h2 = .ok c.length ∧ content h2 a = .ok c := by
  have key : ∀ (h1 : Heap) (b : basic_simple_string), Valid P h1 b c → Valid P h1 a c →
      h1.fails = h.fails →
      ∀ ch, ∃ h2 b2, push_back P h1 b ch = .ok (h2, b2) ∧
        ((∀ j, a.m_buffer = some j → j < h1.next ∧ b.m_buffer ≠ some j) →
          a.size h2 = .ok c.length ∧ content h2 a = .ok c) := by
    intro h1 b hvb hva hf ch
    obtain ⟨h2, b2, c2, hp, _, hl, hfr⟩ := push_back_any P h1 b c ch hw hvb hfit
      (by rw [hf]; exact halloc _)
    refine ⟨h2, b2, hp, fun hsep => ?_⟩
    have hva2 : Valid P h2 a c := Valid_of_frame P h1 h2 a c hva hl.2.2
      (fun j hj => hfr j (hsep j hj).1 (hsep j hj).2)
    exact ⟨size_of_valid P h2 a c hva2, content_of_valid P h2 a c hva2⟩
  cases a with
  | mk m =>
    cases m with
    | none =>
      have hc := (Valid_none P h c).mp hv
      subst hc
      refine ⟨h, { m_buffer := none }, rfl, rfl, rfl, content_of_valid P h _ _ hv,
        content_of_valid P h _ _ hv, compare_same_content P h _ _ [] hv hv,
        (fun id hid => by cases hid), fun ch => ?_⟩
      obtain ⟨h2, b2, hp, hres⟩ := key h { m_buffer := none } hv hv rfl ch
      exact ⟨h2, b2, hp, hres (fun j hj => by cases hj)⟩
    | some id =>
      obtain ⟨hpos, hid, b0, hb, hh⟩ := (Valid_some P h id c).mp hv
      obtain ⟨b1, hcopy, hh1, hc1, hl1⟩ := copy_buffer_ok P h id b0 c hb hh
        (hcb b0.capacity (capacity_of_block h id b0 hb)) (halloc _)
      have hvb : Valid P (h.grow.put h.next (some b1)) { m_buffer := some h.next } c :=
        Valid_new P h b1 c (by omega) hh1
      have hva : Valid P (h.grow.put h.next (some b1)) { m_buffer := some id } c :=
        Valid_alloc P h _ c (some b1) hv
      refine ⟨h.grow.put h.next (some b1), { m_buffer := some h.next }, ?_, ?_, ?_,
        content_of_valid P _ _ c hvb, content_of_valid P _ _ c hva,
        compare_same_content P _ _ _ c hvb hva, ?_, fun ch => ?_⟩
      · simp only [ctor_copy, hcopy, bind, Except.bind, pure, Except.pure]
      · rw [size_of_valid P _ _ c hvb, size_of_valid P h _ c hv]
      · rw [capacity_of_block _ h.next b1 (Heap.put_blocks_same _ _ _),
          capacity_of_block h id b0 hb, hc1]
      · intro j hj
        cases hj
        exact ⟨rfl, by omega⟩
      · obtain ⟨h2, b2, hp, hres⟩ := key _ _ hvb hva rfl ch
        refine ⟨h2, b2, hp, hres (fun j hj => ?_)⟩
        cases hj
        exact ⟨by simp; omega, by simp; omega⟩

/-- C23 on LP64 at the string "abc". -/
theorem C23_copy_is_deep_witness :
    ∃ h1 b, ctor_copy lp64 heap_str str_abc = .ok (h1, b) ∧
      b.size h1 = str_abc.size heap_str ∧ b.capacity h1 = str_abc.capacity heap_str ∧
      content h1 b = .ok [97, 98, 99] ∧ content h1 str_abc = .ok [97, 98, 99] ∧
      basic_simple_string.compare lp64 h1 b str_abc = .ok 0 ∧
      (∀ id, str_abc.m_buffer = some id → b.m_buffer = some heap_str.next ∧ id ≠ heap_str.next) ∧
      ∀ ch, ∃ h2 b2, push_back lp64 h1 b ch = .ok (h2, b2) ∧
        str_abc.size h2 = .ok [97, 98, 99].length ∧ content h2 str_abc = .ok [97, 98, 99] :=
  C23_copy_is_deep lp64 heap_str str_abc [97, 98, 99] (by decide) (by decide)
    (by
      intro cap hcap
      have e : str_abc.capacity heap_str = .ok 16 := rfl
      rw [e] at hcap
      cases hcap
      decide)
    (by decide) (fun _ => rfl)

/-! ## When `append` reallocates -/

/-- C29. Append reallocates only when needed: for a string that holds a buffer
of capacity `cap`, whatever its content `c`, and a NUL-free source of
`cch >= 1` characters outside the string or inside its content: if
`size() + cch < cap` the append keeps the buffer and `capacity()`; otherwise
(the allocation succeeding, sizes not wrapping) the string gets a new buffer
whose capacity is the rounded capacity for a request of `size() + cch`,
`((size() + cch + 1 + overhead + 31) & ~31) - overhead`, which is strictly
greater than `size() + cch` and so differs from `cap`. -/
theorem C29_append_reallocates_when_needed (P : Platform) (h : Heap) (id : Nat)
    (c : List char_type) (p : CharPtr) (n : Nat) (t : List char_type) (cap : Nat)
    (hw : 5 ≤ P.size_bits) (hv : Valid P h { m_buffer := some id } c)
    (hcap : capacity h { m_buffer := some id } = .ok cap) (hn : 1 ≤ n)
    (hp : p.blk < h.next) (hsrc : (h.view (some p)).take n = t) (ht : t.length = n)
    (hnf : NulFree t) (hsep : p.blk ≠ id ∨ p.off + n ≤ c.length) :
    (c.length + n < cap →
      ∃ h1, append P h { m_buffer := some id } (some p) n = .ok (h1, { m_buffer := some id }) ∧
        h1.next = h.next ∧ capacity h1 { m_buffer := some id } = .ok cap) ∧
    (¬ c.length + n < cap → c.length + n + P.members + 32 < 2 ^ P.size_bits →
      h.fails h.next = false →
      ∃ h1 cap1, append P h { m_buffer := some id } (some p) n
          = .ok (h1, { m_buffer := some h.next }) ∧
        capacity h1 { m_buffer := some h.next } = .ok cap1 ∧
        cap1 = Nat.land (c.length + n + 1 + P.members + 31) (P.compl 31) - P.members ∧
        c.length + n < cap1 ∧ cap1 ≠ cap) := by
  obtain ⟨hpos, hlt, b, hb, hh⟩ := (Valid_some P h id c).mp hv
  have hcb := capacity_of_block h id b hb
  rw [hcap] at hcb
  cases hcb
  constructor
  · intro hroom
    have ha := append_in_place P h id b c p n t hb hh (by omega) hroom hsep hsrc ht hnf
    exact ⟨_, ha, rfl,
      capacity_of_block _ id ⟨b.capacity, c.length + n,
        (splice b.contents c.length t).set (c.length + n) 0⟩ (Heap.put_blocks_same _ _ _)⟩
  · intro hroom hfit halloc
    obtain ⟨b2, c2, ha, _, hc2⟩ := append_realloc_any P h id b c p n t hw hb hh (by omega) hroom
      hfit halloc hlt hp hsrc ht hnf
    have hne : h.next ≠ id := by omega
    have hb2 : ((h.grow.put h.next (some b2)).put id none).blocks h.next = some b2 := by
      rw [Heap.put_blocks_other _ _ _ _ hne]
      simp
    have hge : c.length + n + 1 + P.members ≤ (c.length + n + P.members + 32) / 32 * 32 := by
      omega
    refine ⟨_, b2.capacity, ha, capacity_of_block _ _ b2 hb2, ?_, by omega, by omega⟩
    rw [rounded_mask P (c.length + n) hw hfit]
    exact hc2

/-- C29 on LP64: "abc" of the caller appended to the string "abc" (room in the
buffer of capacity 16), and the first character of the string of 15 characters
appended to it (no room in its buffer of capacity 16: a new buffer). -/
theorem C29_append_reallocates_when_needed_witness :
    (∃ h1, append lp64 heap_str str_abc (some ptr_abc) 3 = .ok (h1, { m_buffer := some 2 }) ∧
        h1.next = heap_str.next ∧ capacity h1 { m_buffer := some 2 } = .ok 16) ∧
    (∃ h1 cap1, append lp64 heap_fifteen str_fifteen (some { blk := 1, off := 0 }) 1
          = .ok (h1, { m_buffer := some heap_fifteen.next }) ∧
        capacity h1 { m_buffer := some heap_fifteen.next } = .ok cap1 ∧
        cap1 = Nat.land ((List.replicate 15 97).length + 1 + 1 + lp64.members + 31)
          (lp64.compl 31) - lp64.members ∧
        (List.replicate 15 97).length + 1 < cap1 ∧ cap1 ≠ 16) :=
  ⟨(C29_append_reallocates_when_needed lp64 heap_str 2 [97, 98, 99] ptr_abc 3 [97, 98, 99] 16
      (by decide) (by decide) rfl (by decide) (by decide) rfl rfl (by decide)
      (Or.inl (by decide))).1 (by decide),
   (C29_append_reallocates_when_needed lp64 heap_fifteen 1 (List.replicate 15 97)
      { blk := 1, off := 0 } 1 [97] 16
      (by decide) (by decide) rfl (by decide) (by decide) rfl rfl (by decide)
      (Or.inr (by decide))).2 (by decide) (by decide) rfl⟩

/-! ## The class invariant -/

theorem half_content_length : half_content.length = 2 ^ 31 :=
  List.length_replicate _ _

theorem valid_half : Valid lp64 heap_half str_half half_content := by
  refine (Valid_some lp64 _ _ _).mpr ⟨by decide, by decide, _, rfl, ?_⟩
  refine ⟨?_, ?_, ?_, ?_, ?_, ?_⟩
  · exact half_content_length.symm
  · show 2 ^ 31 + 16 = (half_content ++ List.replicate 16 0).length
    rw [List.length_append, half_content_length, List.length_replicate]
  · show half_content.length < 2 ^ 31 + 16
    rw [half_content_length]
    omega
  · show 2 ^ 31 + 16 < 2 ^ 64
    norm_num
  · show (half_content ++ List.replicate 16 0).take half_content.length = half_content
    exact List.take_left _ _
  · show (half_content ++ List.replicate 16 0)[half_content.length]? = some 0
    rw [List.getElem?_append_right (le_refl _), Nat.sub_self]
    rfl

theorem lex_sign_antisymm : ∀ (A B : List char_type), lex_sign A B = - lex_sign B A := by
  intro A
  induction A with
  | nil =>
    intro B
    cases B <;> simp [lex_sign]
  | cons a A ih =>
    intro B
    cases B with
    | nil => simp [lex_sign]
    | cons b B =>
      by_cases hab : a = b
      · subst hab
        simp [lex_sign, ih B]
      · have hba : ¬ b = a := fun e => hab e.symm
        by_cases hlt : a < b
        · have : ¬ b < a := Nat.lt_asymm hlt
          simp [lex_sign, hab, hba, hlt, this]
        · have : b < a := Nat.lt_of_le_of_ne (Nat.le_of_not_lt hlt) hba
          simp [lex_sign, hab, hba, hlt, this]

/-- For strings whose lengths fit the positive range of `ss_int_t`, the sign
of `a.compare(b)` is the negation of the sign of `b.compare(a)`. -/
theorem compare_antisymm_small (P : Platform) (h : Heap) (a b : basic_simple_string)
    (ca cb : List char_type) (hva : Valid P h a ca) (hvb : Valid P h b cb)
    (hi : 0 < P.int_bits) (hA : (ca.length : Int) < (2 : Int) ^ (P.int_bits - 1))
    (hB : (cb.length : Int) < (2 : Int) ^ (P.int_bits - 1)) :
    ∃ z1 z2, basic_simple_string.compare P h a b = .ok z1 ∧
      basic_simple_string.compare P h b a = .ok z2 ∧ sgn z1 = - sgn z2 := by
  obtain ⟨z1, hz1, hs1⟩ := compare_small P h a b ca cb hva hvb hi hA hB
  obtain ⟨z2, hz2, hs2⟩ := compare_small P h b a cb ca hvb hva hi hB hA
  exact ⟨z1, z2, hz1, hz2, by rw [hs1, hs2]; exact lex_sign_antisymm ca cb⟩

/-- C31 at a failing input, on LP64 (64-bit `size_type`, 32-bit `ss_int_t`):
for the valid string `a` of `2 ^ 31` characters and the empty string `b`,
`a.compare(b)` and `b.compare(a)` are both `-2 ^ 31`, of the same sign, where
no character differs and only the tie-break of `compare_` speaks: the length
`2 ^ 31` converts to `-2 ^ 31`, and so does the difference `0 - (-2 ^ 31)`. -/
theorem C31_compare_not_antisymmetric :
    Valid lp64 heap_half str_half half_content ∧ Valid lp64 heap_half ctor_default [] ∧
    half_content.length = 2 ^ 31 ∧
    basic_simple_string.compare lp64 heap_half str_half ctor_default = .ok (-(2 : Int) ^ 31) ∧
    basic_simple_string.compare lp64 heap_half ctor_default str_half = .ok (-(2 : Int) ^ 31) ∧
    sgn (-(2 : Int) ^ 31) = -1 ∧ sgn (-(2 : Int) ^ 31) ≠ - sgn (-(2 : Int) ^ 31) :=
  ⟨valid_half, rfl, half_content_length, rfl, rfl, rfl, by decide⟩

/-- C32 at a failing input, on LP64: `c` is the empty C string and `a` the
valid string of `2 ^ 31` characters.  `c < a` is computed as
`a.compare(c) > 0` and is false, `basic_simple_string(c) < a` is computed as
`compare(a) < 0` on the constructed string and is true; likewise `c > a` is
true and `basic_simple_string(c) > a` is false.  Both calls of `compare_` give
`-2 ^ 31`. -/
theorem C32_mixed_operators_disagree :
    Valid lp64 heap_half str_half half_content ∧
    heap_half.view (some empty_string_) = [0] ∧
    operator_cstr_lt lp64 heap_half (some empty_string_) str_half = .ok false ∧
    (ctor_cstr lp64 heap_half (some empty_string_) >>= fun r =>
      operator_lt lp64 r.1 r.2 str_half) = .ok true ∧
    operator_cstr_gt lp64 heap_half (some empty_string_) str_half = .ok true ∧
    (ctor_cstr lp64 heap_half (some empty_string_) >>= fun r =>
      operator_gt lp64 r.1 r.2 str_half) = .ok false ∧
    compare_cstr lp64 heap_half str_half (some empty_string_) = .ok (-(2 : Int) ^ 31) ∧
    (ctor_cstr lp64 heap_half (some empty_string_) >>= fun r =>
      basic_simple_string.compare lp64 r.1 r.2 str_half) = .ok (-(2 : Int) ^ 31) :=
  ⟨valid_half, rfl, rfl, rfl, rfl, rfl, rfl, rfl⟩

/-! ## Assignment and the prior state -/

/-- For a NUL-free source, `assign` gives the same content whatever the two
strings held before. -/
theorem assign_state_independent (P : Platform) (h : Heap) (x y : basic_simple_string)
    (cx cy : List char_type) (p : CharPtr) (n : Nat) (t : List char_type)
    (hw : 5 ≤ P.size_bits) (hvx : Valid P h x cx) (hvy : Valid P h y cy)
    (hfit : n + P.members + 32 < 2 ^ P.size_bits) (halloc : h.fails h.next = false)
    (hp : p.blk < h.next) (hsrc : (h.view (some p)).take n = t) (ht : t.length = n)
    (hnf : NulFree t) :
    ∃ h1 x1 h2 y1, assign P h x (some p) n = .ok (h1, x1) ∧
      assign P h y (some p) n = .ok (h2, y1) ∧ Valid P h1 x1 t ∧ Valid P h2 y1 t := by
  have key : ∀ (z : basic_simple_string) (cz : List char_type), Valid P h z cz →
      ∃ h1 z1, assign P h z (some p) n = .ok (h1, z1) ∧ Valid P h1 z1 t := by
    intro z cz hvz
    cases z with
    | mk m =>
      cases m with
      | none =>
        obtain ⟨h1, z1, ha, hv1, _⟩ := assign_null P h p n t hw hfit halloc hp hsrc ht hnf
        exact ⟨h1, z1, ha, hv1⟩
      | some id =>
        obtain ⟨h1, z1, ha, hv1, _⟩ := assign_held P h id cz p n t hw hvz hfit halloc hp hsrc ht
        exact ⟨h1, z1, ha, hv1⟩
  obtain ⟨h1, x1, hax, hv1⟩ := key x cx hvx
  obtain ⟨h2, y1, hay, hv2⟩ := key y cy hvy
  exact ⟨h1, x1, h2, y1, hax, hay, hv1, hv2⟩

/-- C33 at a failing input, on LP64: the source is the caller's array "abc"
with its terminator, four readable characters, and `cch = 4`.  Assigned to a
default-constructed string it gives size 3, since `alloc_buffer_(s, cch)`
counts up to the first NUL; assigned to the string "abc", which holds a buffer
of capacity 16, it is copied in place and gives size 4, the NUL included. -/
theorem C33_assign_depends_on_state :
    heap_str.view (some ptr_abc) = [97, 98, 99, 0] ∧
    Valid lp64 heap_str ctor_default [] ∧ Valid lp64 heap_str str_abc [97, 98, 99] ∧
    (assign lp64 heap_str ctor_default (some ptr_abc) 4 >>= fun r => r.2.size r.1) = .ok 3 ∧
    (assign lp64 heap_str ctor_default (some ptr_abc) 4 >>= fun r => content r.1 r.2)
      = .ok [97, 98, 99] ∧
    (assign lp64 heap_str str_abc (some ptr_abc) 4 >>= fun r => r.2.size r.1) = .ok 4 ∧
    (assign lp64 heap_str str_abc (some ptr_abc) 4 >>= fun r => content r.1 r.2)
      = .ok [97, 98, 99, 0] :=
  ⟨rfl, rfl, by decide, rfl, rfl, rfl, rfl⟩

/-! ## Appending to stored NUL characters -/

/-- C34 at a failing input, on LP64: the valid string of 15 NUL characters
(capacity 16) and the caller's "abc".  `append("abc", 3)` has to reallocate,
its `alloc_buffer_(contents, 18)` measures the old content up to its first NUL
and takes over none of it: the result has size 3, not 18, and its first
character is the terminator of the empty string that was taken over. -/
theorem C34_append_loses_stored_nuls :
    Valid lp64 heap_abc_nuls str_nuls2 (List.replicate 15 0) ∧
    is_valid heap_abc_nuls str_nuls2 = .ok true ∧
    (heap_abc_nuls.view (some ptr_abc)).take 3 = [97, 98, 99] ∧
    (append lp64 heap_abc_nuls str_nuls2 (some ptr_abc) 3 >>= fun r => r.2.size r.1) = .ok 3 ∧
    (append lp64 heap_abc_nuls str_nuls2 (some ptr_abc) 3 >>= fun r => content r.1 r.2)
      = .ok [0, 7, 7] ∧
    (append lp64 heap_abc_nuls str_nuls2 (some ptr_abc) 3 >>= fun r =>
      is_valid r.1 r.2) = .ok true :=
  ⟨by decide, rfl, rfl, rfl, rfl, rfl⟩

/-! ## Room after `reserve` -/

/-- When `reserve(n)` makes a buffer, an append that brings the size to no
more than `n` keeps that buffer and its capacity. -/
theorem reserve_then_append (P : Platform) (h : Heap) (x : basic_simple_string)
    (c : List char_type) (n : Nat) (hw : 5 ≤ P.size_bits) (hv : Valid P h x c)
    (halloc : h.fails h.next = false) (hfit : n + P.members + 32 < 2 ^ P.size_bits)
    (hlen : c.length < n)
    (hcap : ∀ id b, x.m_buffer = some id → h.blocks id = some b → b.capacity < n) :
    ∃ h1 b1, reserve P h x n = .ok (h1, { m_buffer := some h.next }) ∧
      h1.blocks h.next = some b1 ∧ b1.holds P c ∧ n < b1.capacity ∧
      ∀ (p : CharPtr) (t : List char_type), p.blk ≠ h.next →
        (h1.view (some p)).take t.length = t → NulFree t → c.length + t.length ≤ n →
        ∃ b2, append P h1 { m_buffer := some h.next } (some p) t.length
            = .ok (h1.put h.next (some b2), { m_buffer := some h.next }) ∧
          b2.holds P (c ++ t) ∧ b2.capacity = b1.capacity := by
  obtain ⟨h1, b1, hr, hb1, hh1, hc1, _, _, _⟩ :=
    reserve_grow P h x c n hw hv halloc hfit hlen hcap
  have hge : n + 1 + P.members ≤ (n + P.members + 32) / 32 * 32 := by omega
  have hroom : n < b1.capacity := by omega
  refine ⟨h1, b1, hr, hb1, hh1, hroom, ?_⟩
  intro p t hp hsrc hnf hk
  exact append_fits P h1 h.next b1 c p t hb1 hh1 (by omega) hp hsrc hnf

/-- C35, as it fails. On LP64 the string of 15 characters `a` holds a
buffer of capacity 16.  `reserve(16)` finds `16 <= capacity` and does nothing,
so `capacity()` is 16, not greater than 16; appending one character, which
brings the size to 16, has to reallocate and `capacity()` becomes 48. -/
theorem C35_reserve_room_counterexample :
    Valid lp64 heap_fifteen str_fifteen (List.replicate 15 97) ∧
    NulFree (List.replicate 15 97) ∧
    reserve lp64 heap_fifteen str_fifteen 16 = .ok (heap_fifteen, str_fifteen) ∧
    str_fifteen.capacity heap_fifteen = .ok 16 ∧
    (push_back lp64 heap_fifteen str_fifteen 120 >>= fun r => r.2.size r.1) = .ok 16 ∧
    (push_back lp64 heap_fifteen str_fifteen 120 >>= fun r => r.2.capacity r.1) = .ok 48 :=
  ⟨by decide, by decide, rfl, rfl, rfl, rfl⟩

/-! ## Copying out of a string -/

/-- The method `copy(dest, cch, pos)` when `pos + cch` does not wrap: for
`pos < size()` it returns `min(cch, size() - pos)` and replaces that many
characters at `dest` by those of the string from `pos` on; otherwise it returns
`0` and writes nothing. -/
theorem copy_spec (P : Platform) (h : Heap) (x : basic_simple_string) (c : List char_type)
    (dest : CharPtr) (bd : string_buffer) (cch pos : Nat) (hv : Valid P h x c)
    (hbd : h.blocks dest.blk = some bd) (hsep : x.m_buffer ≠ some dest.blk)
    (hsum : pos + cch < 2 ^ P.size_bits)
    (hroom : dest.off + min cch (c.length - pos) ≤ bd.contents.length) :
    (pos < c.length →
      basic_simple_string.copy P h x dest cch pos
        = .ok (h.put dest.blk (some ⟨bd.capacity, bd.length, splice bd.contents dest.off
                ((c.drop pos).take (min cch (c.length - pos)))⟩),
               min cch (c.length - pos))) ∧
    (¬ pos < c.length → basic_simple_string.copy P h x dest cch pos = .ok (h, 0)) := by
  have hsz : x.length h = .ok c.length := size_of_valid P h x c hv
  have hlen := length_lt_of_valid P h x c hv
  constructor
  · intro hpos
    cases x with
    | mk m =>
      cases m with
      | none =>
        have hc := (Valid_none P h c).mp hv
        subst hc
        simp at hpos
      | some id =>
        have hne : dest.blk ≠ id := fun e => hsep (by rw [e])
        have hsub : P.sub c.length pos = c.length - pos := P.sub_eq _ _ hlen (le_of_lt hpos)
        have hwr : P.wrap (pos + cch) = pos + cch := P.wrap_eq _ hsum
        have hcch : (if c.length < pos + cch then c.length - pos else cch)
            = min cch (c.length - pos) := by
          split_ifs <;> omega
        have hsrc := view_data_of_valid P h id c hv pos (min cch (c.length - pos)) (by omega)
        have htl : ((c.drop pos).take (min cch (c.length - pos))).length
            = min cch (c.length - pos) := by
          rw [List.length_take, List.length_drop]; omega
        have hcopy := traits_type.copy_ok (min cch (c.length - pos)) h dest
          { blk := id, off := pos } bd _ hbd hsrc htl hroom (Or.inl hne)
        simp only [basic_simple_string.copy, hsz, bind, Except.bind, if_pos hpos, hwr, hsub,
          hcch, data, CharPtr.add, Nat.zero_add, hcopy, pure, Except.pure]
  · intro hpos
    simp only [basic_simple_string.copy, hsz, bind, Except.bind, if_neg hpos, pure, Except.pure]

/-- The method `copy` leaves the string as it is when `dest` is outside it. -/
theorem copy_leaves_string (P : Platform) (h : Heap) (x : basic_simple_string)
    (c : List char_type) (dest : CharPtr) (bd : string_buffer) (cch pos : Nat)
    (hv : Valid P h x c) (hbd : h.blocks dest.blk = some bd)
    (hsep : x.m_buffer ≠ some dest.blk) (hsum : pos + cch < 2 ^ P.size_bits)
    (hroom : dest.off + min cch (c.length - pos) ≤ bd.contents.length) :
    ∃ h1 n, basic_simple_string.copy P h x dest cch pos = .ok (h1, n) ∧ Valid P h1 x c := by
  obtain ⟨h1, h2⟩ := copy_spec P h x c dest bd cch pos hv hbd hsep hsum hroom
  by_cases hpos : pos < c.length
  · exact ⟨_, _, h1 hpos, Valid_put_other P h x c _ _ hv hsep⟩
  · exact ⟨_, _, h2 hpos, hv⟩

/-- C36 at a failing input, on LP64: the string "abc", `pos = 1` and `cch` the
largest `size_type` value.  The test `len < pos + cch` is made on the wrapped
sum, which is `0`, so `cch` is not cut down to `size() - pos = 2` and the copy
of `2 ^ 64 - 1` characters runs out of the blocks; with `cch = 2` the same call
returns `2`. -/
theorem C36_copy_count_wraps :
    Valid lp64 heap_str str_abc [97, 98, 99] ∧
    lp64.wrap (1 + (2 ^ 64 - 1)) = 0 ∧ min (2 ^ 64 - 1) (3 - 1) = 2 ∧
    basic_simple_string.copy lp64 heap_str str_abc ptr_abc (2 ^ 64 - 1) 1
      = .error Fault.access_violation ∧
    (basic_simple_string.copy lp64 heap_str str_abc ptr_abc 2 1 >>= fun r => pure r.2)
      = .ok 2 ∧
    (basic_simple_string.copy lp64 heap_str str_abc ptr_abc 2 1 >>= fun r =>
      pure (r.1.view (some ptr_abc))) = .ok [98, 99, 99, 0] :=
  ⟨by decide, rfl, rfl, rfl, rfl, rfl⟩

/-! ## Ranged append and assign -/

theorem nulfree_sublist (c : List char_type) (pos n : Nat) (hc : NulFree c) :
    NulFree ((c.drop pos).take n) :=
  fun y hy => hc y (List.mem_of_mem_drop (List.mem_of_mem_take hy))

/-- Two valid strings with the same buffer have contents of the same length. -/
theorem same_buffer_length (P : Platform) (h : Heap) (id : Nat) (c d : List char_type)
    (hc : Valid P h { m_buffer := some id } c) (hd : Valid P h { m_buffer := some id } d) :
    c.length = d.length := by
  obtain ⟨_, _, b, hb, hh⟩ := (Valid_some P h id c).mp hc
  obtain ⟨_, _, b', hb', hh'⟩ := (Valid_some P h id d).mp hd
  rw [hb] at hb'
  cases hb'
  rw [← hh.1, ← hh'.1]

/-- The range `[pos, pos + n)` of a valid string, read through its buffer
pointer advanced by `pos`. -/
theorem view_range_of_valid (P : Platform) (h : Heap) (id : Nat) (c : List char_type)
    (hv : Valid P h { m_buffer := some id } c) (pos n : Nat) (hn : pos + n ≤ c.length) :
    (h.view (some (CharPtr.add { blk := id, off := 0 } pos))).take n = (c.drop pos).take n := by
  have := view_data_of_valid P h id c hv pos n hn
  simpa [CharPtr.add] using this

/-- C38. Ranged append is checked: for NUL-free strings `x` and `str` with
contents `cx` and `cs` (possibly the same string) and all `pos`, `cch`,
`x.append(str, pos, cch)` throws `out_of_range` exactly when
`pos > str.size()`, and then no state is changed; otherwise `x` becomes `cx`
followed by `str[pos .. pos + min(cch, str.size() - pos))` (the allocation
succeeding, sizes not wrapping). -/
theorem C38_ranged_append (P : Platform) (h : Heap) (x s : basic_simple_string)
    (cx cs : List char_type) (pos cch : Nat) (hw : 5 ≤ P.size_bits)
    (hvx : Valid P h x cx) (hvs : Valid P h s cs) (hnx : NulFree cx) (hns : NulFree cs)
    (halloc : h.fails h.next = false)
    (hfit : cx.length + cs.length + P.members + 32 < 2 ^ P.size_bits) :
    (append_str_pos P h x s pos cch = .error Fault.out_of_range ↔ cs.length < pos) ∧
    (pos ≤ cs.length → ∃ h1 x1, append_str_pos P h x s pos cch = .ok (h1, x1) ∧
      x1.size h1 = .ok (cx.length + min cch (cs.length - pos)) ∧
      content h1 x1 = .ok (cx ++ (cs.drop pos).take (min cch (cs.length - pos)))) := by
  have hsz : s.length h = .ok cs.length := size_of_valid P h s cs hvs
  have hlen := length_lt_of_valid P h s cs hvs
  have hok : pos ≤ cs.length → ∃ h1 x1, append_str_pos P h x s pos cch = .ok (h1, x1) ∧
      x1.size h1 = .ok (cx.length + min cch (cs.length - pos)) ∧
      content h1 x1 = .ok (cx ++ (cs.drop pos).take (min cch (cs.length - pos))) := by
    intro hpos
    have hsub : P.sub cs.length pos = cs.length - pos := P.sub_eq _ _ hlen hpos
    have hcch : (if cs.length - pos < cch then cs.length - pos else cch)
        = min cch (cs.length - pos) := by
      split_ifs <;> omega
    have htl : ((cs.drop pos).take (min cch (cs.length - pos))).length
        = min cch (cs.length - pos) := by
      rw [List.length_take, List.length_drop]; omega
    cases s with
    | mk ms =>
      cases ms with
      | none =>
        have hc := (Valid_none P h cs).mp hvs
        subst hc
        have ha : append P h x none 0 = .ok (h, x) := by
          cases x with
          | mk mx =>
            cases mx with
            | none => simp [append, assign, pure, Except.pure]
            | some id => simp [append, pure, Except.pure]
        refine ⟨h, x, ?_, ?_, ?_⟩
        · simp only [append_str_pos, hsz, bind, Except.bind, if_neg (Nat.not_lt.mpr hpos),
            char_pointer_from_member_pointer_, Option.map, ha]
        · simpa using size_of_valid P h x cx hvx
        · simpa using content_of_valid P h x cx hvx
      | some sid =>
        obtain ⟨_, hsid, _⟩ := (Valid_some P h sid cs).mp hvs
        have hsrc := view_range_of_valid P h sid cs hvs pos (min cch (cs.length - pos))
          (by omega)
        obtain ⟨h1, x1, ha, hv1, _⟩ := append_spec P h x cx
          (CharPtr.add { blk := sid, off := 0 } pos) (min cch (cs.length - pos)) _ hw hvx hnx
          (by omega) halloc hsid hsrc htl (nulfree_sublist cs pos _ hns)
          (by
            intro id hid
            by_cases e : sid = id
            · subst e
              cases x with
              | mk mx =>
                simp only at hid
                subst hid
                have := same_buffer_length P h sid cx cs hvx hvs
                exact Or.inr (by simp only [CharPtr.add]; omega)
            · exact Or.inl e)
        have hsz1 := size_of_valid P h1 x1 _ hv1
        rw [List.length_append, htl] at hsz1
        refine ⟨h1, x1, ?_, hsz1, content_of_valid P h1 x1 _ hv1⟩
        simp only [append_str_pos, hsz, bind, Except.bind, if_neg (Nat.not_lt.mpr hpos), hsub,
          hcch, char_pointer_from_member_pointer_, Option.map, ha]
  refine ⟨⟨fun he => ?_, fun hlt => ?_⟩, hok⟩
  · by_contra hc
    obtain ⟨h1, x1, ha, _⟩ := hok (Nat.le_of_not_lt hc)
    rw [ha] at he
    cases he
  · simp only [append_str_pos, hsz, bind, Except.bind, if_pos hlt]
    rfl

/-- C38 on LP64 with the strings "abc" and "bc" of `heap_two`. -/
theorem C38_ranged_append_witness :
    (append_str_pos lp64 heap_two str_abc str_bc 3 1 = .error Fault.out_of_range) ∧
    (∃ h1 x1, append_str_pos lp64 heap_two str_abc str_bc 1 5 = .ok (h1, x1) ∧
      x1.size h1 = .ok ([97, 98, 99].length + min 5 ([98, 99].length - 1)) ∧
      content h1 x1
        = .ok ([97, 98, 99] ++ (([98, 99] : List char_type).drop 1).take
            (min 5 ([98, 99].length - 1)))) :=
  ⟨(C38_ranged_append lp64 heap_two str_abc str_bc [97, 98, 99] [98, 99] 3 1 (by decide)
      (by decide) (by decide) (by decide) (by decide) rfl (by decide)).1.mpr (by decide),
   (C38_ranged_append lp64 heap_two str_abc str_bc [97, 98, 99] [98, 99] 1 5 (by decide)
      (by decide) (by decide) (by decide) (by decide) rfl (by decide)).2 (by decide)⟩

/-- C39. Ranged assign clamps and never fails: for a string `x` and a
NUL-free string `str` with content `cs` and all `pos`, `cch`,
`x.assign(str, pos, cch)` returns and leaves `x` with content
`str[p .. p + min(cch, str.size() - p))` where `p = min(pos, str.size())`; for
`pos >= str.size()` `x` becomes empty (the allocation succeeding, sizes not
wrapping). -/
theorem C39_ranged_assign (P : Platform) (h : Heap) (x s : basic_simple_string)
    (cx cs : List char_type) (pos cch : Nat) (hw : 5 ≤ P.size_bits)
    (hvx : Valid P h x cx) (hvs : Valid P h s cs) (hns : NulFree cs)
    (halloc : h.fails h.next = false)
    (hfit : cs.length + P.members + 32 < 2 ^ P.size_bits) :
    ∃ h1 x1, assign_str_pos P h x s pos cch = .ok (h1, x1) ∧
      content h1 x1 = .ok (clamped cs pos cch) ∧
      x1.size h1 = .ok (min cch (cs.length - min pos cs.length)) ∧
      (cs.length ≤ pos → x1.empty h1 = .ok true) := by
  have hsz : s.length h = .ok cs.length := size_of_valid P h s cs hvs
  have hlen := length_lt_of_valid P h s cs hvs
  have hpos' : (if cs.length < pos then cs.length else pos) = min pos cs.length := by
    split_ifs <;> omega
  have hsub : P.sub cs.length (min pos cs.length) = cs.length - min pos cs.length :=
    P.sub_eq _ _ hlen (Nat.min_le_right _ _)
  have hcch : (if cs.length - min pos cs.length < cch then cs.length - min pos cs.length else cch)
      = min cch (cs.length - min pos cs.length) := by
    split_ifs <;> omega
  have htl : (clamped cs pos cch).length = min cch (cs.length - min pos cs.length) := by
    unfold clamped
    rw [List.length_take, List.length_drop]; omega
  have hfin : ∀ h1 x1, Valid P h1 x1 (clamped cs pos cch) →
      content h1 x1 = .ok (clamped cs pos cch) ∧
      x1.size h1 = .ok (min cch (cs.length - min pos cs.length)) ∧
      (cs.length ≤ pos → x1.empty h1 = .ok true) := by
    intro h1 x1 hv1
    have hs1 := size_of_valid P h1 x1 _ hv1
    rw [htl] at hs1
    refine ⟨content_of_valid P h1 x1 _ hv1, hs1, fun hge => ?_⟩
    have h0 : min cch (cs.length - min pos cs.length) = 0 := by omega
    rw [h0] at hs1
    simp [empty, length, hs1, bind, Except.bind, pure, Except.pure]
  cases s with
  | mk ms =>
    cases ms with
    | none =>
      have hc := (Valid_none P h cs).mp hvs
      subst hc
      have hcl : clamped [] pos cch = [] := by simp [clamped]
      have ha : ∃ h1 x1, assign P h x none 0 = .ok (h1, x1) ∧ Valid P h1 x1 [] := by
        cases x with
        | mk mx =>
          cases mx with
          | none =>
            exact ⟨h, { m_buffer := none }, by simp [assign, pure, Except.pure],
              (Valid_none P h []).mpr rfl⟩
          | some id =>
            exact ⟨destroy_buffer_ h id, { m_buffer := none },
              by simp [assign, pure, Except.pure], (Valid_none P _ []).mpr rfl⟩
      obtain ⟨h1, x1, ha, hv1⟩ := ha
      rw [← hcl] at hv1
      refine ⟨h1, x1, ?_, hfin h1 x1 hv1⟩
      simp only [assign_str_pos, hsz, bind, Except.bind, char_pointer_from_member_pointer_,
        Option.map, ha]
    | some sid =>
      obtain ⟨_, hsid, _⟩ := (Valid_some P h sid cs).mp hvs
      have hsrc := view_range_of_valid P h sid cs hvs (min pos cs.length)
        (min cch (cs.length - min pos cs.length)) (by omega)
      have hres : ∃ h1 x1, assign P h x (some (CharPtr.add { blk := sid, off := 0 }
          (min pos cs.length))) (min cch (cs.length - min pos cs.length)) = .ok (h1, x1) ∧
          Valid P h1 x1 (clamped cs pos cch) := by
        cases x with
        | mk mx =>
          cases mx with
          | none =>
            obtain ⟨h1, x1, ha, hv1, _⟩ := assign_null P h _ _ (clamped cs pos cch) hw
              (by omega) halloc hsid hsrc htl (nulfree_sublist cs _ _ hns)
            exact ⟨h1, x1, ha, hv1⟩
          | some id =>
            obtain ⟨h1, x1, ha, hv1, _⟩ := assign_held P h id cx _ _ (clamped cs pos cch) hw
              hvx (by omega) halloc hsid hsrc htl
            exact ⟨h1, x1, ha, hv1⟩
      obtain ⟨h1, x1, ha, hv1⟩ := hres
      refine ⟨h1, x1, ?_, hfin h1 x1 hv1⟩
      simp only [assign_str_pos, hsz, bind, Except.bind, hpos', hsub, hcch,
        char_pointer_from_member_pointer_, Option.map, ha]

/-- C39 on LP64: the string "bc" of `heap_two` is assigned the range of "abc"
from `pos = 1`, and an empty range for `pos = 7`. -/
theorem C39_ranged_assign_witness :
    (∃ h1 x1, assign_str_pos lp64 heap_two str_bc str_abc 1 5 = .ok (h1, x1) ∧
      content h1 x1 = .ok (clamped [97, 98, 99] 1 5) ∧
      x1.size h1 = .ok (min 5 ([97, 98, 99].length - min 1 [97, 98, 99].length)) ∧
      ([97, 98, 99].length ≤ 1 → x1.empty h1 = .ok true)) ∧
    (∃ h1 x1, assign_str_pos lp64 heap_two str_bc str_abc 7 5 = .ok (h1, x1) ∧
      content h1 x1 = .ok (clamped [97, 98, 99] 7 5) ∧
      x1.size h1 = .ok (min 5 ([97, 98, 99].length - min 7 [97, 98, 99].length)) ∧
      ([97, 98, 99].length ≤ 7 → x1.empty h1 = .ok true)) :=
  ⟨C39_ranged_assign lp64 heap_two str_bc str_abc [98, 99] [97, 98, 99] 1 5 (by decide)
      (by decide) (by decide) (by decide) rfl (by decide),
   C39_ranged_assign lp64 heap_two str_bc str_abc [98, 99] [97, 98, 99] 7 5 (by decide)
      (by decide) (by decide) (by decide) rfl (by decide)⟩

/-! ## Room for the terminator -/

theorem sized_of_capacity (P : Platform) (h : Heap) (s : basic_simple_string)
    (hc : ∀ cap, s.capacity h = .ok cap → cap + P.members < 2 ^ P.size_bits) :
    Sized P h s := by
  intro id b hid hb
  cases s with
  | mk m =>
    simp only at hid
    subst hid
    exact hc _ (capacity_of_block h id b hb)

theorem sized_of_frame (P : Platform) (h h1 : Heap) (s : basic_simple_string)
    (hs : Sized P h s) (hfr : ∀ j, s.m_buffer = some j → h1.blocks j = h.blocks j) :
    Sized P h1 s := by
  intro id b hid hb
  rw [hfr id hid] at hb
  exact hs id b hid hb

/-- The copy constructor makes a valid string of the same content in a new
block and changes no other block. -/
theorem ctor_copy_spec (P : Platform) (h : Heap) (a : basic_simple_string)
    (c : List char_type) (hv : Valid P h a c) (hs : Sized P h a)
    (halloc : h.fails h.next = false) :
    ∃ h1 t, ctor_copy P h a = .ok (h1, t) ∧ Valid P h1 t c ∧ Sized P h1 t ∧ h.later h1 ∧
      (∀ j, j < h.next → h1.blocks j = h.blocks j) ∧
      (∀ j, t.m_buffer = some j → j = h.next) := by
  cases a with
  | mk m =>
    cases m with
    | none =>
      refine ⟨h, { m_buffer := none }, rfl, hv, ?_, h.later_refl, fun _ _ => rfl, ?_⟩
      · intro id b hid
        cases hid
      · intro j hj
        cases hj
    | some id =>
      obtain ⟨hpos, hlt, b, hb, hh⟩ := (Valid_some P h id c).mp hv
      obtain ⟨b1, hc, hh1, hcap1, _⟩ :=
        copy_buffer_ok P h id b c hb hh (hs id b rfl hb) halloc
      refine ⟨h.grow.put h.next (some b1), { m_buffer := some h.next }, ?_,
        Valid_new P h b1 c (by omega) hh1, ?_, ⟨rfl, rfl, by simp⟩, ?_, ?_⟩
      · simp [ctor_copy, hc, bind, Except.bind, pure, Except.pure]
      · intro j b2 hj hb2
        cases hj
        rw [Heap.put_blocks_same] at hb2
        cases hb2
        rw [hcap1]
        exact hs id b rfl hb
      · intro j hj
        rw [Heap.put_blocks_other _ _ _ _ (by omega)]
        rfl
      · intro j hj
        cases hj
        rfl

/-- The method `append(s, cch)` on a NUL-free string, with the size of the
block it leaves. -/
theorem append_sized (P : Platform) (h : Heap) (x : basic_simple_string) (c : List char_type)
    (p : CharPtr) (n : Nat) (t : List char_type) (hw : 5 ≤ P.size_bits)
    (hv : Valid P h x c) (hcnf : NulFree c) (hs : Sized P h x)
    (hfit : c.length + n + P.members + 32 < 2 ^ P.size_bits) (halloc : h.fails h.next = false)
    (hp : p.blk < h.next) (hsrc : (h.view (some p)).take n = t) (ht : t.length = n)
    (hnf : NulFree t)
    (hsep : ∀ id, x.m_buffer = some id → p.blk ≠ id ∨ p.off + n ≤ c.length) :
    ∃ h1 x1, append P h x (some p) n = .ok (h1, x1) ∧ Valid P h1 x1 (c ++ t) ∧
      Sized P h1 x1 ∧ h.later h1
      ∧ (∀ j, j < h.next → x.m_buffer ≠ some j → h1.blocks j = h.blocks j)
      ∧ (x1.m_buffer = x.m_buffer ∨ x1.m_buffer = some h.next) := by
  obtain ⟨h1, x1, ha, hv1, hl, hfr, hm⟩ :=
    append_spec P h x c p n t hw hv hcnf hfit halloc hp hsrc ht hnf hsep
  refine ⟨h1, x1, ha, hv1, ?_, hl, hfr, hm⟩
  cases x with
  | mk m =>
    cases m with
    | none =>
      by_cases hn : n = 0
      · subst hn
        have e : append P h { m_buffer := none } (some p) 0 = .ok (h, { m_buffer := none }) := by
          simp [append, assign, pure, Except.pure]
        rw [e] at ha
        cases ha
        intro id b hid
        cases hid
      · have hc : c = [] := (Valid_none P h c).mp hv
        subst hc
        obtain ⟨b1, hal, hh, hcap⟩ := alloc_buffer_ok P h p n n t hw (by simpa using hfit)
          (le_refl _) halloc hp hsrc ht
        have hlm : traits_type.length_max_null h (some p) n = .ok n :=
          traits_type.length_max_loop_full n _ t hsrc ht hnf
        have e : append P h { m_buffer := none } (some p) n
            = .ok (h.grow.put h.next (some b1), { m_buffer := some h.next }) := by
          simp [append, assign, hn, alloc_buffer_cch, hlm, bind, Except.bind, hal, pure,
            Except.pure]
        rw [e] at ha
        cases ha
        intro id b hid hb
        cases hid
        rw [Heap.put_blocks_same] at hb
        cases hb
        simp only [List.length_nil, Nat.zero_add] at hfit
        omega
    | some id =>
      obtain ⟨hpos, hlt, b, hb, hh⟩ := (Valid_some P h id c).mp hv
      by_cases hn : n = 0
      · subst hn
        have e : append P h { m_buffer := some id } (some p) 0
            = .ok (h, { m_buffer := some id }) := by
          simp [append, pure, Except.pure]
        rw [e] at ha
        cases ha
        exact hs
      · have hn0 : 0 < n := Nat.pos_of_ne_zero hn
        by_cases hroom : c.length + n < b.capacity
        · rw [append_in_place P h id b c p n t hb hh hn0 hroom (hsep id rfl) hsrc ht hnf] at ha
          cases ha
          intro j b2 hj hb2
          cases hj
          rw [Heap.put_blocks_same] at hb2
          cases hb2
          exact hs id b rfl hb
        · obtain ⟨b2, ha2, hh2, hcap2⟩ := append_realloc P h id b c p n t hw hb hh hcnf hn0
            hroom hfit halloc hlt hp hsrc ht hnf
          rw [ha2] at ha
          cases ha
          intro j b3 hj hb3
          cases hj
          rw [Heap.put_blocks_other _ _ _ _ (by omega), Heap.put_blocks_same] at hb3
          cases hb3
          omega

/-- The method `append(class_type const&)` from another string. -/
theorem append_str_sized (P : Platform) (h : Heap) (x s : basic_simple_string)
    (c d : List char_type) (hw : 5 ≤ P.size_bits)
    (hvx : Valid P h x c) (hvs : Valid P h s d) (hnc : NulFree c) (hnd : NulFree d)
    (hs : Sized P h x)
    (hfit : c.length + d.length + P.members + 32 < 2 ^ P.size_bits)
    (halloc : h.fails h.next = false)
    (hsep : ∀ id, x.m_buffer = some id → s.m_buffer ≠ some id) :
    ∃ h1 x1, append_str P h x s = .ok (h1, x1) ∧ Valid P h1 x1 (c ++ d) ∧
      Sized P h1 x1 ∧ h.later h1
      ∧ (∀ j, j < h.next → x.m_buffer ≠ some j → h1.blocks j = h.blocks j)
      ∧ (x1.m_buffer = x.m_buffer ∨ x1.m_buffer = some h.next) := by
  have hlen : s.length h = .ok d.length := size_of_valid P h s d hvs
  cases s with
  | mk m =>
    cases m with
    | none =>
      have hd : d = [] := (Valid_none P h d).mp hvs
      subst hd
      refine ⟨h, x, ?_, by simpa using hvx, hs, h.later_refl, fun _ _ _ => rfl, Or.inl rfl⟩
      cases x with
      | mk mx =>
        cases mx with
        | none =>
          simp [append_str, hlen, bind, Except.bind, append, assign,
            char_pointer_from_member_pointer_, pure, Except.pure]
        | some id =>
          simp [append_str, hlen, bind, Except.bind, append,
            char_pointer_from_member_pointer_, pure, Except.pure]
    | some sid =>
      obtain ⟨_, hsid, _⟩ := (Valid_some P h sid d).mp hvs
      obtain ⟨rest, hview⟩ := view_of_valid P h sid d hvs
      obtain ⟨h1, x1, ha, rest1⟩ := append_sized P h x c { blk := sid, off := 0 } d.length d hw
        hvx hnc hs hfit halloc hsid (by rw [hview]; simp) rfl hnd
        (fun id hid => Or.inl (fun e => hsep id hid (by rw [← e])))
      refine ⟨h1, x1, ?_, rest1⟩
      simp only [append_str, hlen, bind, Except.bind, char_pointer_from_member_pointer_,
        Option.map]
      exact ha

/-- The method `append(1, ch)` for a character other than NUL (the body of
`operator +=(ch)` and of the constructor `(1, ch)`). -/
theorem append_fill_sized (P : Platform) (h : Heap) (x : basic_simple_string)
    (c : List char_type) (ch : char_type) (hw : 5 ≤ P.size_bits) (hv : Valid P h x c)
    (hcnf : NulFree c) (hs : Sized P h x) (hch : ch ≠ 0)
    (hfit : c.length + 1 + P.members + 32 < 2 ^ P.size_bits)
    (halloc : h.fails (h.next + 1) = false) :
    ∃ h1 x1, append_fill P h x 1 ch = .ok (h1, x1) ∧ Valid P h1 x1 (c ++ [ch]) ∧
      Sized P h1 x1 ∧ h.later h1
      ∧ (∀ j, j < h.next → x.m_buffer ≠ some j → h1.blocks j = h.blocks j)
      ∧ (x1.m_buffer = x.m_buffer ∨ x1.m_buffer = some (h.next + 1)) := by
  have hnf1 : NulFree [ch] := by
    intro y hy
    rw [List.mem_singleton] at hy
    rw [hy]; exact hch
  have hx : ∀ j, x.m_buffer = some j → j ≠ h.next := by
    intro j hj
    cases x with
    | mk m =>
      simp only at hj
      subst hj
      have := ((Valid_some P h j c).mp hv).2.1
      omega
  have hv0 : Valid P (h.store (List.replicate 1 ch)).1 x c :=
    Valid_put_other P _ x c _ _ (Valid_grow P h x c hv) (fun e => hx _ e rfl)
  have hs0 : Sized P (h.store (List.replicate 1 ch)).1 x :=
    sized_of_frame P h _ x hs (fun j hj => by
      simp [Heap.store, Heap.put_blocks_other _ _ _ _ (hx j hj)])
  obtain ⟨h1, x1, ha, hv1, hs1, hl, hfr, hm⟩ := append_sized P (h.store (List.replicate 1 ch)).1
    x c (h.store (List.replicate 1 ch)).2 1 [ch] hw hv0 hcnf hs0 hfit halloc
    (by simp [Heap.store]) (by rw [Heap.store_view]; rfl) rfl hnf1
    (fun id hid => Or.inl (fun e => hx id hid (by simpa [Heap.store] using e.symm)))
  have hx1 : ∀ j, x1.m_buffer = some j → j ≠ h.next := by
    intro j hj
    rcases hm with hm | hm
    · rw [hm] at hj; exact hx j hj
    · rw [hm] at hj
      simp [Heap.store] at hj
      omega
  refine ⟨h1.deallocate h.next, x1, ?_, ?_, ?_, ?_, ?_, ?_⟩
  · cases x with
    | mk m =>
      cases m with
      | none =>
        have ha' : assign P (h.store (List.replicate 1 ch)).1 { m_buffer := none }
            (some (h.store (List.replicate 1 ch)).2) 1 = .ok (h1, x1) := by
          simpa [append] using ha
        simp only [append_fill, assign_fill, bind, Except.bind, ha', pure, Except.pure]
        rfl
      | some id =>
        simp only [append_fill, bind, Except.bind, ha, pure, Except.pure]
        rfl
  · exact Valid_put_other P h1 x1 _ _ _ hv1 (fun e => hx1 _ e rfl)
  · exact sized_of_frame P h1 _ x1 hs1 (fun j hj => by
      rw [Heap.deallocate, Heap.put_blocks_other _ _ _ _ (hx1 j hj)])
  · exact ⟨hl.1, hl.2.1, by have := hl.2.2; simp [Heap.store] at this; simp [Heap.deallocate]; omega⟩
  · intro j hj hjx
    rw [Heap.deallocate, Heap.put_blocks_other _ _ _ _ (by omega),
      hfr j (by simp [Heap.store]; omega) hjx]
    simp [Heap.store, Heap.put_blocks_other _ _ _ _ (show j ≠ h.next by omega)]
  · rcases hm with hm | hm
    · exact Or.inl hm
    · exact Or.inr (by rw [hm]; simp [Heap.store])

/-- The end of `operator +`: the value returned is copy-constructed from the
temporary, which is then destroyed.  The blocks below `N`, none of them the
temporary, are left alone. -/
theorem copy_out (P : Platform) (h : Heap) (tmp : basic_simple_string) (c : List char_type)
    (N : Nat) (hv : Valid P h tmp c) (hs : Sized P h tmp) (halloc : h.fails h.next = false)
    (hN : N ≤ h.next) (hfresh : ∀ j, tmp.m_buffer = some j → N ≤ j) :
    ∃ h3 r, ctor_copy P h tmp = .ok (h3, r) ∧ Valid P (dtor h3 tmp) r c ∧
      (∀ j, j < N → (dtor h3 tmp).blocks j = h.blocks j) ∧ h.later (dtor h3 tmp) := by
  obtain ⟨h3, r, hc, hv3, _, hl, hfr, hid⟩ := ctor_copy_spec P h tmp c hv hs halloc
  refine ⟨h3, r, hc, ?_, ?_, ?_⟩
  · cases tmp with
    | mk m =>
      cases m with
      | none => exact hv3
      | some id =>
        have hlt := ((Valid_some P h id c).mp hv).2.1
        refine Valid_put_other P h3 r c id none hv3 (fun e => ?_)
        have := hid id e
        omega
  · intro j hj
    cases tmp with
    | mk m =>
      cases m with
      | none => exact hfr j (by omega)
      | some id =>
        have := hfresh id rfl
        show (h3.put id none).blocks j = h.blocks j
        rw [Heap.put_blocks_other _ _ _ _ (by omega)]
        exact hfr j (by omega)
  · cases tmp with
    | mk m =>
      cases m with
      | none => exact hl
      | some id => exact hl

theorem id_lt_of_valid (P : Platform) (h : Heap) (s : basic_simple_string) (c : List char_type)
    (hv : Valid P h s c) (j : Nat) (hj : s.m_buffer = some j) : j < h.next := by
  cases s with
  | mk m =>
    simp only at hj
    subst hj
    exact ((Valid_some P h j c).mp hv).2.1

/-- The free function `operator +` on two NUL-free strings: the value returned
stores the two contents, one after the other, and no block that existed
before the call is changed. -/
theorem operator_plus_spec (P : Platform) (h : Heap) (a b : basic_simple_string)
    (ca cb : List char_type) (hw : 5 ≤ P.size_bits)
    (hva : Valid P h a ca) (hvb : Valid P h b cb) (hna : NulFree ca) (hnb : NulFree cb)
    (hsa : Sized P h a)
    (hfit : ca.length + cb.length + P.members + 32 < 2 ^ P.size_bits)
    (halloc : ∀ k, h.fails k = false) :
    ∃ h1 r, operator_plus P h a b = .ok (h1, r) ∧ Valid P h1 r (ca ++ cb) ∧
      (∀ j, j < h.next → h1.blocks j = h.blocks j) ∧ h.later h1 := by
  obtain ⟨h1, t1, hc1, hv1, hs1, hl1, hfr1, hid1⟩ := ctor_copy_spec P h a ca hva hsa (halloc _)
  have hvb1 : Valid P h1 b cb := Valid_of_frame P h h1 b cb hvb hl1.2.2
    (fun j hj => hfr1 j (id_lt_of_valid P h b cb hvb j hj))
  obtain ⟨h2, t2, ha, hv2, hs2, hl2, hfr2, hm2⟩ := append_str_sized P h1 t1 b ca cb hw hv1 hvb1
    hna hnb hs1 hfit (by rw [hl1.1]; exact halloc _)
    (fun id hid e => by
      have := hid1 id hid
      have := id_lt_of_valid P h b cb hvb id e
      omega)
  have hfresh : ∀ j, t2.m_buffer = some j → h.next ≤ j := by
    intro j hj
    rcases hm2 with hm | hm
    · rw [hm] at hj
      exact Nat.le_of_eq (hid1 j hj).symm
    · rw [hm] at hj
      cases hj
      exact hl1.2.2
  obtain ⟨h3, r, hc3, hv3, hfr3, hl3⟩ := copy_out P h2 t2 (ca ++ cb) h.next hv2 hs2
    (by rw [hl2.1, hl1.1]; exact halloc _) (Nat.le_trans hl1.2.2 hl2.2.2) hfresh
  refine ⟨dtor h3 t2, r, ?_, hv3, ?_,
    Heap.later_trans _ _ _ (Heap.later_trans _ _ _ hl1 hl2) hl3⟩
  · simp only [operator_plus, hc1, ha, hc3, bind, Except.bind, pure, Except.pure]
  · intro j hj
    rw [hfr3 j hj, hfr2 j (Nat.lt_of_lt_of_le hj hl1.2.2)
      (fun e => by have := hid1 j e; omega), hfr1 j hj]

/-- The free function `operator +` on a NUL-free string and a character other
than NUL. -/
theorem operator_plus_ch_spec (P : Platform) (h : Heap) (a : basic_simple_string)
    (ca : List char_type) (ch : char_type) (hw : 5 ≤ P.size_bits)
    (hva : Valid P h a ca) (hna : NulFree ca) (hch : ch ≠ 0) (hsa : Sized P h a)
    (hfit : ca.length + 1 + P.members + 32 < 2 ^ P.size_bits)
    (halloc : ∀ k, h.fails k = false) :
    ∃ h1 r, operator_plus_ch P h a ch = .ok (h1, r) ∧ Valid P h1 r (ca ++ [ch]) ∧
      (∀ j, j < h.next → h1.blocks j = h.blocks j) ∧ h.later h1 := by
  obtain ⟨h1, t1, hc1, hv1, hs1, hl1, hfr1, hid1⟩ := ctor_copy_spec P h a ca hva hsa (halloc _)
  obtain ⟨h2, t2, ha, hv2, hs2, hl2, hfr2, hm2⟩ := append_fill_sized P h1 t1 ca ch hw hv1
    hna hs1 hch hfit (by rw [hl1.1]; exact halloc _)
  have hfresh : ∀ j, t2.m_buffer = some j → h.next ≤ j := by
    intro j hj
    rcases hm2 with hm | hm
    · rw [hm] at hj
      exact Nat.le_of_eq (hid1 j hj).symm
    · rw [hm] at hj
      cases hj
      exact Nat.le_succ_of_le hl1.2.2
  obtain ⟨h3, r, hc3, hv3, hfr3, hl3⟩ := copy_out P h2 t2 (ca ++ [ch]) h.next hv2 hs2
    (by rw [hl2.1, hl1.1]; exact halloc _) (Nat.le_trans hl1.2.2 hl2.2.2) hfresh
  refine ⟨dtor h3 t2, r, ?_, hv3, ?_,
    Heap.later_trans _ _ _ (Heap.later_trans _ _ _ hl1 hl2) hl3⟩
  · simp only [operator_plus_ch, hc1, ha, hc3, bind, Except.bind, pure, Except.pure]
  · intro j hj
    rw [hfr3 j hj, hfr2 j (Nat.lt_of_lt_of_le hj hl1.2.2)
      (fun e => by have := hid1 j e; omega), hfr1 j hj]

/-- The free function `operator +` on a character other than NUL and a
NUL-free string. -/
theorem operator_ch_plus_spec (P : Platform) (h : Heap) (b : basic_simple_string)
    (cb : List char_type) (ch : char_type) (hw : 5 ≤ P.size_bits)
    (hvb : Valid P h b cb) (hnb : NulFree cb) (hch : ch ≠ 0)
    (hfit : 1 + cb.length + P.members + 32 < 2 ^ P.size_bits)
    (halloc : ∀ k, h.fails k = false) :
    ∃ h1 r, operator_ch_plus P h ch b = .ok (h1, r) ∧ Valid P h1 r (ch :: cb) ∧
      (∀ j, j < h.next → h1.blocks j = h.blocks j) ∧ h.later h1 := by
  have hnf1 : NulFree [ch] := by
    intro y hy
    rw [List.mem_singleton] at hy
    rw [hy]; exact hch
  obtain ⟨h1, t1, hc1, hv1, hs1, hl1, hfr1, hm1⟩ := append_fill_sized P h { m_buffer := none }
    [] ch hw ((Valid_none P h []).mpr rfl) (fun _ hx => by cases hx)
    (fun id b hid => by cases hid) hch (by simp only [List.length_nil]; omega) (halloc _)
  have hc1' : ctor_fill P h 1 ch = .ok (h1, t1) := hc1
  have hv1' : Valid P h1 t1 [ch] := hv1
  have hid1 : ∀ j, t1.m_buffer = some j → h.next ≤ j := by
    intro j hj
    rcases hm1 with hm | hm
    · rw [hm] at hj
      cases hj
    · rw [hm] at hj
      cases hj
      omega
  have hfr1' : ∀ j, j < h.next → h1.blocks j = h.blocks j :=
    fun j hj => hfr1 j hj (fun e => by cases e)
  have hvb1 : Valid P h1 b cb := Valid_of_frame P h h1 b cb hvb hl1.2.2
    (fun j hj => hfr1' j (id_lt_of_valid P h b cb hvb j hj))
  obtain ⟨h2, t2, ha, hv2, hs2, hl2, hfr2, hm2⟩ := append_str_sized P h1 t1 b [ch] cb hw hv1'
    hvb1 hnf1 hnb hs1 (by simpa using hfit) (by rw [hl1.1]; exact halloc _)
    (fun id hid e => by
      have := hid1 id hid
      have := id_lt_of_valid P h b cb hvb id e
      omega)
  have hfresh : ∀ j, t2.m_buffer = some j → h.next ≤ j := by
    intro j hj
    rcases hm2 with hm | hm
    · rw [hm] at hj
      exact hid1 j hj
    · rw [hm] at hj
      cases hj
      exact hl1.2.2
  obtain ⟨h3, r, hc3, hv3, hfr3, hl3⟩ := copy_out P h2 t2 ([ch] ++ cb) h.next hv2 hs2
    (by rw [hl2.1, hl1.1]; exact halloc _) (Nat.le_trans hl1.2.2 hl2.2.2) hfresh
  refine ⟨dtor h3 t2, r, ?_, hv3, ?_,
    Heap.later_trans _ _ _ (Heap.later_trans _ _ _ hl1 hl2) hl3⟩
  · simp only [operator_ch_plus, hc1', ha, hc3, bind, Except.bind, pure, Except.pure]
  · intro j hj
    rw [hfr3 j hj, hfr2 j (Nat.lt_of_lt_of_le hj hl1.2.2)
      (fun e => by have := hid1 j e; omega), hfr1' j hj]

theorem operator_eq_same_content (P : Platform) (h : Heap) (a b : basic_simple_string)
    (c : List char_type) (hva : Valid P h a c) (hvb : Valid P h b c) :
    operator_eq P h a b = .ok true := by
  simp [operator_eq, compare_same_content P h a b c hva hvb, bind, Except.bind, pure,
    Except.pure]

/-- C40. `operator +` is concatenation: for NUL-free strings `a` and `b` with
contents `ca` and `cb`, `a + b` returns a string of size
`a.size() + b.size()` with content `ca` followed by `cb`, and no block that
existed before the call is changed, so `a` and `b` keep their contents; when
`b` is empty, `(a + b) == a` and `(b + a) == a`; for a character `ch` other
than NUL, `ch + a` is `ch` followed by `ca` and `a + ch` is `ca` followed by
`ch` (allocations succeeding, sizes not wrapping). -/
theorem C40_operator_plus_concatenates (P : Platform) (h : Heap) (a b : basic_simple_string)
    (ca cb : List char_type) (ch : char_type) (hw : 5 ≤ P.size_bits)
    (hva : Valid P h a ca) (hvb : Valid P h b cb) (hna : NulFree ca) (hnb : NulFree cb)
    (hch : ch ≠ 0)
    (hcapa : ∀ cap, a.capacity h = .ok cap → cap + P.members < 2 ^ P.size_bits)
    (hcapb : ∀ cap, b.capacity h = .ok cap → cap + P.members < 2 ^ P.size_bits)
    (hfit : ca.length + cb.length + 1 + P.members + 32 < 2 ^ P.size_bits)
    (halloc : ∀ k, h.fails k = false) :
    (∃ h1 r, operator_plus P h a b = .ok (h1, r) ∧
      r.size h1 = .ok (ca.length + cb.length) ∧ content h1 r = .ok (ca ++ cb) ∧
      a.size h1 = .ok ca.length ∧ content h1 a = .ok ca ∧
      b.size h1 = .ok cb.length ∧ content h1 b = .ok cb ∧
      (∀ j, j < h.next → h1.blocks j = h.blocks j) ∧
      (cb = [] → operator_eq P h1 r a = .ok true)) ∧
    (∃ h1 r, operator_plus P h b a = .ok (h1, r) ∧ content h1 r = .ok (cb ++ ca) ∧
      (cb = [] → operator_eq P h1 r a = .ok true)) ∧
    (∃ h1 r, operator_ch_plus P h ch a = .ok (h1, r) ∧ r.size h1 = .ok (ca.length + 1) ∧
      content h1 r = .ok (ch :: ca) ∧ content h1 a = .ok ca) ∧
    (∃ h1 r, operator_plus_ch P h a ch = .ok (h1, r) ∧ r.size h1 = .ok (ca.length + 1) ∧
      content h1 r = .ok (ca ++ [ch]) ∧ content h1 a = .ok ca) := by
  have hsa := sized_of_capacity P h a hcapa
  have hsb := sized_of_capacity P h b hcapb
  have keep : ∀ (h1 : Heap) (s : basic_simple_string) (c : List char_type), Valid P h s c →
      (∀ j, j < h.next → h1.blocks j = h.blocks j) → h.later h1 → Valid P h1 s c :=
    fun h1 s c hv hfr hl => Valid_of_frame P h h1 s c hv hl.2.2
      (fun j hj => hfr j (id_lt_of_valid P h s c hv j hj))
  refine ⟨?_, ?_, ?_, ?_⟩
  · obtain ⟨h1, r, hop, hv, hfr, hl⟩ := operator_plus_spec P h a b ca cb hw hva hvb hna hnb hsa
      (by omega) halloc
    have hva1 := keep h1 a ca hva hfr hl
    have hvb1 := keep h1 b cb hvb hfr hl
    refine ⟨h1, r, hop, ?_, content_of_valid P h1 r _ hv, size_of_valid P h1 a ca hva1,
      content_of_valid P h1 a ca hva1, size_of_valid P h1 b cb hvb1,
      content_of_valid P h1 b cb hvb1, hfr, ?_⟩
    · rw [size_of_valid P h1 r _ hv, List.length_append]
    · intro he
      subst he
      rw [List.append_nil] at hv
      exact operator_eq_same_content P h1 r a ca hv hva1
  · obtain ⟨h1, r, hop, hv, hfr, hl⟩ := operator_plus_spec P h b a cb ca hw hvb hva hnb hna hsb
      (by omega) halloc
    have hva1 := keep h1 a ca hva hfr hl
    refine ⟨h1, r, hop, content_of_valid P h1 r _ hv, ?_⟩
    intro he
    subst he
    rw [List.nil_append] at hv
    exact operator_eq_same_content P h1 r a ca hv hva1
  · obtain ⟨h1, r, hop, hv, hfr, hl⟩ := operator_ch_plus_spec P h a ca ch hw hva hna hch
      (by omega) halloc
    refine ⟨h1, r, hop, ?_, content_of_valid P h1 r _ hv,
      content_of_valid P h1 a ca (keep h1 a ca hva hfr hl)⟩
    rw [size_of_valid P h1 r _ hv, List.length_cons]
  · obtain ⟨h1, r, hop, hv, hfr, hl⟩ := operator_plus_ch_spec P h a ca ch hw hva hna hch hsa
      (by omega) halloc
    refine ⟨h1, r, hop, ?_, content_of_valid P h1 r _ hv,
      content_of_valid P h1 a ca (keep h1 a ca hva hfr hl)⟩
    rw [size_of_valid P h1 r _ hv, List.length_append, List.length_singleton]

theorem C40_operator_plus_concatenates_witness :
    (∃ h1 r, operator_plus lp64 heap_two str_abc str_bc = .ok (h1, r) ∧
      r.size h1 = .ok 5 ∧ content h1 r = .ok [97, 98, 99, 98, 99] ∧
      content h1 str_abc = .ok [97, 98, 99] ∧ content h1 str_bc = .ok [98, 99]) ∧
    (∃ h1 r, operator_ch_plus lp64 heap_two 120 str_abc = .ok (h1, r) ∧
      content h1 r = .ok [120, 97, 98, 99]) ∧
    (∃ h1 r, operator_plus_ch lp64 heap_two str_abc 120 = .ok (h1, r) ∧
      content h1 r = .ok [97, 98, 99, 120]) := by
  have key := C40_operator_plus_concatenates lp64 heap_two str_abc str_bc [97, 98, 99] [98, 99]
    120 (by decide) (by decide) (by decide) (by decide) (by decide) (by decide)
    (by
      intro cap hcap
      have e : str_abc.capacity heap_two = .ok 16 := rfl
      rw [e] at hcap
      cases hcap
      decide)
    (by
      intro cap hcap
      have e : str_bc.capacity heap_two = .ok 16 := rfl
      rw [e] at hcap
      cases hcap
      decide)
    (by decide) (fun _ => rfl)
  obtain ⟨⟨h1, r, hop, hsz, hc, _, hca, _, hcb, _⟩, _, ⟨h2, r2, hop2, _, hc2, _⟩,
    ⟨h3, r3, hop3, _, hc3, _⟩⟩ := key
  exact ⟨⟨h1, r, hop, hsz, hc, hca, hcb⟩, ⟨h2, r2, hop2, hc2⟩, ⟨h3, r3, hop3, hc3⟩⟩

/-! ## The mixed-operand operators on short strings -/

theorem sgn_tests (z w : Int) (hzw : sgn w = sgn z) :
    decide (0 = w) = decide (0 = z) ∧ decide (0 ≠ w) = decide (0 ≠ z) ∧
    decide (w < 0) = decide (z < 0) ∧ decide (w ≤ 0) = decide (z ≤ 0) ∧
    decide (w > 0) = decide (z > 0) ∧ decide (w ≥ 0) = decide (z ≥ 0) := by
  unfold sgn at hzw
  split_ifs at hzw <;> simp only [decide_eq_decide] <;> omega

theorem sgn_tests_flipped (z w : Int) (hzw : sgn w = - sgn z) :
    decide (0 = w) = decide (0 = z) ∧ decide (0 ≠ w) = decide (0 ≠ z) ∧
    decide (w < 0) = decide (z > 0) ∧ decide (w ≤ 0) = decide (z ≥ 0) ∧
    decide (w > 0) = decide (z < 0) ∧ decide (w ≥ 0) = decide (z ≤ 0) := by
  unfold sgn at hzw
  split_ifs at hzw <;> simp only [decide_eq_decide] <;> omega

/-- For a string and a C string whose lengths fit the positive range of
`ss_int_t`, each of the twelve mixed-operand operators returns what the
string-string operator returns on the string constructed from the C string. -/
theorem mixed_operators_agree_small (P : Platform) (h : Heap) (a : basic_simple_string)
    (ca : List char_type) (p : CharPtr) (t rest : List char_type) (hw : 5 ≤ P.size_bits)
    (hva : Valid P h a ca) (hs : h.view (some p) = t ++ 0 :: rest) (hnf : NulFree t)
    (hp : p.blk < h.next) (halloc : h.fails h.next = false)
    (hfit : t.length + P.members + 32 < 2 ^ P.size_bits)
    (hi : 0 < P.int_bits) (hA : (ca.length : Int) < (2 : Int) ^ (P.int_bits - 1))
    (hB : (t.length : Int) < (2 : Int) ^ (P.int_bits - 1)) :
    ∃ h1 s, ctor_cstr P h (some p) = .ok (h1, s) ∧
      (∃ v, operator_cstr_lt P h (some p) a = .ok v) ∧
      operator_cstr_eq P h (some p) a = operator_eq P h1 s a ∧
      operator_cstr_ne P h (some p) a = operator_ne P h1 s a ∧
      operator_cstr_lt P h (some p) a = operator_lt P h1 s a ∧
      operator_cstr_le P h (some p) a = operator_le P h1 s a ∧
      operator_cstr_gt P h (some p) a = operator_gt P h1 s a ∧
      operator_cstr_ge P h (some p) a = operator_ge P h1 s a ∧
      operator_eq_cstr P h a (some p) = operator_eq P h1 a s ∧
      operator_ne_cstr P h a (some p) = operator_ne P h1 a s ∧
      operator_lt_cstr P h a (some p) = operator_lt P h1 a s ∧
      operator_le_cstr P h a (some p) = operator_le P h1 a s ∧
      operator_gt_cstr P h a (some p) = operator_gt P h1 a s ∧
      operator_ge_cstr P h a (some p) = operator_ge P h1 a s := by
  obtain ⟨b, hc, hh, _⟩ := ctor_cstr_spec P h p t rest hw hs hnf hp halloc hfit
  have hvs : Valid P (h.grow.put h.next (some b)) { m_buffer := some h.next } t :=
    Valid_new P h b t (by omega) hh
  have hva1 : Valid P (h.grow.put h.next (some b)) a ca := Valid_alloc P h a ca _ hva
  obtain ⟨ra, hra⟩ := view_member_of_valid P h a ca hva
  obtain ⟨z, hz, hsz⟩ := compare__sign P h _ (some p) ca t ra (0 :: rest) hra hs hi hA hB
  have hlen : traits_type.length h p = .ok t.length := by
    unfold traits_type.length
    rw [hs]
    exact traits_type.length_loop_ok t rest hnf
  have hcz : compare_cstr P h a (some p) = .ok z := by
    have h1 : a.length h = .ok ca.length := size_of_valid P h a ca hva
    simp only [compare_cstr, h1, hlen, bind, Except.bind]
    exact hz
  obtain ⟨z1, hz1, hs1⟩ := compare_small P _ a { m_buffer := some h.next } ca t hva1 hvs hi hA hB
  obtain ⟨z2, hz2, hs2⟩ := compare_small P _ { m_buffer := some h.next } a t ca hvs hva1 hi hB hA
  have e1 := sgn_tests z z1 (by rw [hs1, hsz])
  have e2 := sgn_tests_flipped z z2 (by rw [hs2, hsz]; exact lex_sign_antisymm t ca)
  refine ⟨_, _, hc, ⟨_, by simp only [operator_cstr_lt, hcz, bind, Except.bind]; rfl⟩,
    ?_, ?_, ?_, ?_, ?_, ?_, ?_, ?_, ?_, ?_, ?_, ?_⟩
  · simp only [operator_cstr_eq, operator_eq, hcz, hz2, bind, Except.bind, pure, Except.pure,
      e2.1]
  · simp only [operator_cstr_ne, operator_ne, hcz, hz2, bind, Except.bind, pure, Except.pure,
      e2.2.1]
  · simp only [operator_cstr_lt, operator_lt, hcz, hz2, bind, Except.bind, pure, Except.pure,
      e2.2.2.1]
  · simp only [operator_cstr_le, operator_le, hcz, hz2, bind, Except.bind, pure, Except.pure,
      e2.2.2.2.1]
  · simp only [operator_cstr_gt, operator_gt, hcz, hz2, bind, Except.bind, pure, Except.pure,
      e2.2.2.2.2.1]
  · simp only [operator_cstr_ge, operator_ge, hcz, hz2, bind, Except.bind, pure, Except.pure,
      e2.2.2.2.2.2]
  · simp only [operator_eq_cstr, operator_eq, hcz, hz1, bind, Except.bind, pure, Except.pure,
      e1.1]
  · simp only [operator_ne_cstr, operator_ne, hcz, hz1, bind, Except.bind, pure, Except.pure,
      e1.2.1]
  · simp only [operator_lt_cstr, operator_lt, hcz, hz1, bind, Except.bind, pure, Except.pure,
      e1.2.2.1]
  · simp only [operator_le_cstr, operator_le, hcz, hz1, bind, Except.bind, pure, Except.pure,
      e1.2.2.2.1]
  · simp only [operator_gt_cstr, operator_gt, hcz, hz1, bind, Except.bind, pure, Except.pure,
      e1.2.2.2.2.1]
  · simp only [operator_ge_cstr, operator_ge, hcz, hz1, bind, Except.bind, pure, Except.pure,
      e1.2.2.2.2.2]

/-- C18 at a failing input, on LP64: the valid string "abc" holds a buffer of
capacity 16 and the allocator does not fail.  `reserve(2 ^ 64 - 1)` passes the
request to `alloc_buffer_(c_str(), cch, length())`, where `capacity += 1`
wraps to `0`; the block allocated has 32 units, the string moves into it and
`capacity()` is 16 after the call, below the request. -/
theorem C18_reserve_request_wraps :
    Valid lp64 heap_str str_abc [97, 98, 99] ∧
    heap_str.fails heap_str.next = false ∧
    lp64.wrap (2 ^ 64 - 1 + 1) = 0 ∧
    (reserve lp64 heap_str str_abc (2 ^ 64 - 1) >>= fun r => pure r.2.m_buffer)
      = .ok (some heap_str.next) ∧
    (reserve lp64 heap_str str_abc (2 ^ 64 - 1) >>= fun r => r.2.capacity r.1) = .ok 16 ∧
    (reserve lp64 heap_str str_abc (2 ^ 64 - 1) >>= fun r => r.2.size r.1) = .ok 3 ∧
    (reserve lp64 heap_str str_abc (2 ^ 64 - 1) >>= fun r => content r.1 r.2)
      = .ok [97, 98, 99] ∧
    ¬ (2 ^ 64 - 1 ≤ 16) :=
  ⟨by decide, rfl, rfl, rfl, rfl, rfl, rfl, by decide⟩

/-- C19 at a failing input, on LP64: from the default-constructed string,
`reserve(2 ^ 64 - 1)` wraps `capacity += 1` in `alloc_buffer_` and makes a
buffer of capacity 16; after `push_back('x')` and `clear()` the size is 0 and
the capacity still 16 (the state `heap_cleared`, `str_cleared`).  The append of
the 16 characters of another string, `k = 16 <= n`, needs 17 slots and
reallocates: `capacity()` becomes 48 and the string is in another block. -/
theorem C19_reserve_wraps_then_append_reallocates :
    heap_sixteen.fails heap_sixteen.next = false ∧
    (heap_sixteen.view (some str_sixteen.c_str)).take 16 = List.replicate 16 97 ∧
    (reserve lp64 heap_sixteen ctor_default (2 ^ 64 - 1) >>= fun r => r.2.capacity r.1)
      = .ok 16 ∧
    (reserve lp64 heap_sixteen ctor_default (2 ^ 64 - 1) >>= fun r =>
      push_back lp64 r.1 r.2 120 >>= fun r => clear r.1 r.2 >>= fun r =>
      r.2.size r.1 >>= fun n => r.2.capacity r.1 >>= fun k => pure (n, k))
      = .ok (0, 16) ∧
    (reserve lp64 heap_sixteen ctor_default (2 ^ 64 - 1) >>= fun r =>
      push_back lp64 r.1 r.2 120 >>= fun r => clear r.1 r.2 >>= fun r =>
      pure (r.2, r.1.next, r.1.blocks 1, r.1.blocks 2))
      = .ok (str_cleared, heap_cleared.next, heap_cleared.blocks 1, heap_cleared.blocks 2) ∧
    (append lp64 heap_cleared str_cleared (some str_sixteen.c_str) 16 >>= fun r =>
      r.2.size r.1 >>= fun n => r.2.capacity r.1 >>= fun k => pure (n, k, r.2.m_buffer))
      = .ok (16, 48, some 4) ∧
    (append lp64 heap_cleared str_cleared (some str_sixteen.c_str) 16 >>= fun r =>
      content r.1 r.2) = .ok (List.replicate 16 97) :=
  ⟨rfl, rfl, rfl, rfl, rfl, rfl, rfl⟩

/-- C35, amended. The capacity counts the slot of the terminator: for every
string `s` with content `c` and every `n >= s.size()`, `reserve(n)` returns
with `capacity() >= n` and the same content; when it has to allocate (no
buffer, or one of capacity below `n`) `capacity() > n`.  An append of NUL-free
characters that brings the size to less than `capacity()`, so to `n - 1` at
most, and to `n` when `reserve` allocated, keeps the buffer and its capacity
(the allocation succeeding, `n` plus header and rounding not wrapping). -/
theorem C35_reserve_room (P : Platform) (h : Heap) (x : basic_simple_string)
    (c : List char_type) (n : Nat) (hw : 5 ≤ P.size_bits) (hwf : h.wf) (hv : Valid P h x c)
    (halloc : h.fails h.next = false) (hfit : n + P.members + 32 < 2 ^ P.size_bits)
    (hn : c.length ≤ n) :
    ∃ h1 x1 cap, reserve P h x n = .ok (h1, x1) ∧ x1.capacity h1 = .ok cap ∧ n ≤ cap ∧
      x1.size h1 = .ok c.length ∧ content h1 x1 = .ok c ∧
      (c.length < n →
        (∀ id b, x.m_buffer = some id → h.blocks id = some b → b.capacity < n) → n < cap) ∧
      ∀ (p : CharPtr) (t : List char_type), x1.m_buffer ≠ some p.blk →
        (h1.view (some p)).take t.length = t → NulFree t → c.length + t.length < cap →
        ∃ h2, append P h1 x1 (some p) t.length = .ok (h2, x1) ∧ x1.capacity h2 = .ok cap ∧
          x1.size h2 = .ok (c.length + t.length) ∧ content h2 x1 = .ok (c ++ t) := by
  have fits : ∀ (h1 : Heap) (id : Nat) (b : string_buffer), h1.blocks id = some b →
      b.holds P c → 0 < id → id < h1.next →
      ∀ (p : CharPtr) (t : List char_type), (some id : Option Nat) ≠ some p.blk →
        (h1.view (some p)).take t.length = t → NulFree t → c.length + t.length < b.capacity →
        ∃ h2, append P h1 { m_buffer := some id } (some p) t.length
            = .ok (h2, { m_buffer := some id }) ∧
          capacity h2 { m_buffer := some id } = .ok b.capacity ∧
          size h2 { m_buffer := some id } = .ok (c.length + t.length) ∧
          content h2 { m_buffer := some id } = .ok (c ++ t) := by
    intro h1 id b hb hh hpos hid p t hsep hsrc hnf hroom
    obtain ⟨b2, ha, hh2, hc2⟩ := append_fits P h1 id b c p t hb hh hroom
      (fun e => hsep (by rw [e])) hsrc hnf
    have hv2 : Valid P (h1.put id (some b2)) { m_buffer := some id } (c ++ t) :=
      Valid_put_same P h1 id b2 _ hpos hid hh2
    refine ⟨_, ha, ?_, ?_, content_of_valid P _ _ _ hv2⟩
    · rw [capacity_of_block _ id b2 (Heap.put_blocks_same _ _ _), hc2]
    · rw [size_of_valid P _ _ _ hv2, List.length_append]
  by_cases hno : n ≤ c.length ∨ ∃ id b, x.m_buffer = some id ∧ h.blocks id = some b ∧
      n ≤ b.capacity
  · have hr := reserve_noop P h x c n hv hno
    cases x with
    | mk m =>
      cases m with
      | none =>
        have hc := (Valid_none P h c).mp hv
        subst hc
        have hn0 : n = 0 := by
          rcases hno with hno | ⟨id, b, hm, _⟩
          · simpa using hno
          · cases hm
        subst hn0
        refine ⟨h, _, 0, hr, rfl, le_refl _, rfl, content_of_valid P h _ _ hv, ?_, ?_⟩
        · intro hlt
          simp at hlt
        · intro p t _ _ _ hroom
          omega
      | some id =>
        obtain ⟨hpos, hid, b0, hb, hh0⟩ := (Valid_some P h id c).mp hv
        have hlc := hh0.2.2.1
        have hcap : n ≤ b0.capacity := by
          rcases hno with hno | ⟨id', b, hm, hb', hcap⟩
          · omega
          · cases hm
            rw [hb] at hb'
            cases hb'
            exact hcap
        refine ⟨h, _, b0.capacity, hr, capacity_of_block h id b0 hb, hcap,
          size_of_valid P h _ c hv, content_of_valid P h _ c hv, ?_,
          fits h id b0 hb hh0 hpos hid⟩
        intro _ hall
        have := hall id b0 rfl hb
        omega
  · have hlen : c.length < n := by
      by_contra hc
      exact hno (Or.inl (Nat.le_of_not_lt hc))
    have hcap : ∀ id b, x.m_buffer = some id → h.blocks id = some b → b.capacity < n := by
      intro id b hm hb
      by_contra hc
      exact hno (Or.inr ⟨id, b, hm, hb, Nat.le_of_not_lt hc⟩)
    obtain ⟨h1, b, hr, hb1, hh, hbc, hn1, _, _⟩ :=
      reserve_grow P h x c n hw hv halloc hfit hlen hcap
    have hge : n + 1 + P.members ≤ (n + P.members + 32) / 32 * 32 := by omega
    have hroom : n < b.capacity := by omega
    have hv1 : Valid P h1 { m_buffer := some h.next } c :=
      (Valid_some P _ _ c).mpr ⟨hwf.1, by rw [hn1]; omega, b, hb1, hh⟩
    refine ⟨h1, _, b.capacity, hr, capacity_of_block h1 _ b hb1, le_of_lt hroom,
      size_of_valid P h1 _ c hv1, content_of_valid P h1 _ c hv1, fun _ _ => hroom,
      fits h1 h.next b hb1 hh hwf.1 (by rw [hn1]; omega)⟩

/-- C35 amended, on LP64 at the string of 15 characters `a` in a buffer of
capacity 16: `reserve(16)` leaves the capacity at 16 and `reserve(17)` makes
it greater than 17. -/
theorem C35_reserve_room_witness :
    (∃ h1 x1 cap, reserve lp64 heap_fifteen str_fifteen 16 = .ok (h1, x1) ∧
      x1.capacity h1 = .ok cap ∧ 16 ≤ cap ∧ content h1 x1 = .ok (List.replicate 15 97)) ∧
    (∃ h1 x1 cap, reserve lp64 heap_fifteen str_fifteen 17 = .ok (h1, x1) ∧
      x1.capacity h1 = .ok cap ∧ 17 < cap) := by
  obtain ⟨h1, x1, cap, hr, hc, hle, _, hcont, _⟩ :=
    C35_reserve_room lp64 heap_fifteen str_fifteen (List.replicate 15 97) 16 (by decide)
      ⟨by decide, _, rfl, rfl⟩ (by decide) rfl (by decide) (by decide)
  obtain ⟨h2, x2, cap2, hr2, hc2, _, _, _, hgt, _⟩ :=
    C35_reserve_room lp64 heap_fifteen str_fifteen (List.replicate 15 97) 17 (by decide)
      ⟨by decide, _, rfl, rfl⟩ (by decide) rfl (by decide) (by decide)
  refine ⟨⟨h1, x1, cap, hr, hc, hle, hcont⟩, ⟨h2, x2, cap2, hr2, hc2, hgt (by decide) ?_⟩⟩
  intro id b hid hb
  cases hid
  have e : heap_fifteen.blocks 1 = some ⟨16, 15, List.replicate 15 97 ++ [0]⟩ := rfl
  rw [e] at hb
  cases hb
  decide

/-! ## Every operation leaves a valid string -/

end STLSoft
